import Mathlib

/-!
Shallow embedding of the regex → NFA → DFA compiler (src/lexican.py, with
`regex_to_nfa` duplicated in src/re_nfa.py).

Modelling conventions:
* Python `State` objects are identified by their global-counter id; the heap of
  states created in one run is an association list `Store` from id to record.
  The global `State._id_counter` is threaded explicitly as a `Nat`.
* Python lists used as stacks (`stack.append` / `stack.pop()`) are Lean lists
  with the top of the stack at the head (Python pushes and pops at the tail;
  reversing the representation preserves the LIFO discipline exactly).
* Python `set` / `frozenset` of state ids is `Finset Nat`.
* Python code that can raise `IndexError` (popping an empty list) is embedded
  in `Except PyErr`; the code under analysis has no explicit error handling,
  so `PyErr.indexError` is its only failure.
* The worklist loops (`epsilon_closure`, `nfa_to_dfa`) are embedded with an
  explicit fuel argument returning `Option`; the termination theorems show the
  fuel chosen in the wrappers is never exhausted on well-formed input.
-/

/-- Python `IndexError` raised by `list.pop()` on an empty list. The source has
no other failure mode. -/
inductive PyErr where
  | indexError
deriving DecidableEq, Repr

/-- One NFA state record: `edges` is the dict symbol → list of successor ids,
`epsilon` the list of epsilon-successor ids (class `State` in the source). -/
structure StateRec where
  edges : List (Char × List Nat)
  epsilon : List Nat
deriving DecidableEq, Repr

/-- The heap of NFA states of one run: an association list id → record. -/
abbrev Store := List (Nat × StateRec)

/-- Lookup of a state record by id (dereferencing a Python object reference). -/
def Store.lookup (g : Store) (i : Nat) : Option StateRec :=
  (List.find? (fun p => p.1 = i) g).map (·.2)

/-- The ids present in the store. -/
def Store.keys (g : Store) : List Nat :=
  g.map (·.1)

/-- Record update at an id. -/
def Store.modify (g : Store) (i : Nat) (f : StateRec → StateRec) : Store :=
  g.map (fun p => if p.1 = i then (p.1, f p.2) else p)

/-- Allocation of a fresh state (`State()` in the source): the id is the current
value of the global counter, and the counter advances. -/
def Store.alloc (g : Store) (cnt : Nat) : Store × Nat :=
  (g ++ [(cnt, ⟨[], []⟩)], cnt + 1)

/-- Mutation `st.epsilon.extend(qs)` (or `append` for a single element). -/
def Store.addEps (g : Store) (i : Nat) (qs : List Nat) : Store :=
  g.modify i (fun r => { r with epsilon := r.epsilon ++ qs })

/-- Mutation `st.edges[c] = ts` (dict assignment on a fresh state). -/
def Store.setEdge (g : Store) (i : Nat) (c : Char) (ts : List Nat) : Store :=
  g.modify i (fun r => { r with edges := r.edges ++ [(c, ts)] })

/-- An NFA fragment: the `(start, accept)` pair of ids (class `NFA`). -/
structure NFAFrag where
  start : Nat
  accept : Nat
deriving DecidableEq, Repr

/-- Operator precedence table of `to_postfix`: star 3, concatenation 2,
union 1, and `precedence.get(c, 0) = 0` for everything else. -/
def prec (c : Char) : Nat :=
  if c = '*' then 3 else if c = '.' then 2 else if c = '|' then 1 else 0

/-- Python's `while stack and p(stack[-1]): output.append(stack.pop())`:
returns the popped entries in pop order and the remaining stack. -/
def drainWhile (p : Char → Bool) : List Char → List Char × List Char
  | [] => ([], [])
  | c :: rest =>
    if p c then
      let (o, r) := drainWhile p rest
      (c :: o, r)
    else ([], c :: rest)

/-- The guard of the implicit-concatenation insertion:
`prev and (prev.isalnum() or prev == ')' or prev == '*')`. -/
def concatPrev : Option Char → Bool
  | none => false
  | some p => p.isAlphanum || p = ')' || p = '*'

/-- One iteration of the `for c in regex` loop of `to_postfix`, acting on the
output list and the operator stack. Characters outside the grammar fall
through every branch and are dropped. -/
def toPostfixStep (c : Char) (prev : Option Char) (out stack : List Char) :
    Except PyErr (List Char × List Char) :=
  if c.isAlphanum then
    if concatPrev prev then
      let (o, r) := drainWhile (fun t => 2 ≤ prec t) stack
      Except.ok (out ++ o ++ [c], '.' :: r)
    else Except.ok (out ++ [c], stack)
  else if c = '(' then
    if concatPrev prev then
      let (o, r) := drainWhile (fun t => 2 ≤ prec t) stack
      Except.ok (out ++ o, '(' :: '.' :: r)
    else Except.ok (out, '(' :: stack)
  else if c = ')' then
    let (o, r) := drainWhile (fun t => t ≠ '(') stack
    match r with
    | [] => Except.error PyErr.indexError
    | _ :: r1 => Except.ok (out ++ o, r1)
  else if 0 < prec c then
    let (o, r) := drainWhile (fun t => prec c ≤ prec t) stack
    Except.ok (out ++ o, c :: r)
  else Except.ok (out, stack)

/-- The `for c in regex` loop of `to_postfix`, threading `prev`. -/
def toPostfixLoop : List Char → Option Char → List Char → List Char →
    Except PyErr (List Char × List Char)
  | [], _, out, stack => Except.ok (out, stack)
  | c :: cs, prev, out, stack =>
    match toPostfixStep c prev out stack with
    | Except.error e => Except.error e
    | Except.ok (out1, stack1) => toPostfixLoop cs (some c) out1 stack1

/-- The inner function `to_postfix` of `regex_to_nfa`: shunting-yard conversion
of the regex to a postfix token list, flushing the operator stack at the end. -/
def toPostfix (regex : List Char) : Except PyErr (List Char) :=
  match toPostfixLoop regex none [] [] with
  | Except.error e => Except.error e
  | Except.ok (out, stack) => Except.ok (out ++ stack)

/-- One iteration of the `for c in postfix` loop of `build_nfa`, acting on the
store, the id counter and the fragment stack (top at the head). Characters
matching no branch are silently skipped, as in the source. -/
def buildStep (c : Char) (g : Store) (cnt : Nat) (frags : List NFAFrag) :
    Except PyErr (Store × Nat × List NFAFrag) :=
  if c.isAlphanum then
    let (g1, cnt1) := g.alloc cnt
    let (g2, cnt2) := g1.alloc cnt1
    Except.ok (g2.setEdge cnt c [cnt1], cnt2, ⟨cnt, cnt1⟩ :: frags)
  else if c = '.' then
    match frags with
    | nfa2 :: nfa1 :: rest =>
      Except.ok (g.addEps nfa1.accept [nfa2.start], cnt,
        ⟨nfa1.start, nfa2.accept⟩ :: rest)
    | _ => Except.error PyErr.indexError
  else if c = '|' then
    match frags with
    | nfa2 :: nfa1 :: rest =>
      let (g1, cnt1) := g.alloc cnt
      let (g2, cnt2) := g1.alloc cnt1
      let g3 := g2.addEps cnt [nfa1.start, nfa2.start]
      let g4 := g3.addEps nfa1.accept [cnt1]
      let g5 := g4.addEps nfa2.accept [cnt1]
      Except.ok (g5, cnt2, ⟨cnt, cnt1⟩ :: rest)
    | _ => Except.error PyErr.indexError
  else if c = '*' then
    match frags with
    | nfa1 :: rest =>
      let (g1, cnt1) := g.alloc cnt
      let (g2, cnt2) := g1.alloc cnt1
      let g3 := g2.addEps cnt [nfa1.start, cnt1]
      let g4 := g3.addEps nfa1.accept [nfa1.start, cnt1]
      Except.ok (g4, cnt2, ⟨cnt, cnt1⟩ :: rest)
    | [] => Except.error PyErr.indexError
  else Except.ok (g, cnt, frags)

/-- The `for c in postfix` loop of `build_nfa`. -/
def buildLoop : List Char → Store → Nat → List NFAFrag →
    Except PyErr (Store × Nat × List NFAFrag)
  | [], g, cnt, frags => Except.ok (g, cnt, frags)
  | c :: cs, g, cnt, frags =>
    match buildStep c g cnt frags with
    | Except.error e => Except.error e
    | Except.ok (g1, cnt1, frags1) => buildLoop cs g1 cnt1 frags1

/-- The inner function `build_nfa` of `regex_to_nfa`: fold the postfix tokens
over an empty fragment stack and return the final `stack.pop()` — the top
fragment, whatever else remains below it. -/
def buildNfa (pf : List Char) (g : Store) (cnt : Nat) :
    Except PyErr (Store × Nat × NFAFrag) :=
  match buildLoop pf g cnt [] with
  | Except.error e => Except.error e
  | Except.ok (_, _, []) => Except.error PyErr.indexError
  | Except.ok (g1, cnt1, f :: _) => Except.ok (g1, cnt1, f)

/-- The function `regex_to_nfa`: postfix conversion followed by Thompson
construction, starting from an empty heap and the given value of the global
id counter. -/
def regexToNfa (regex : List Char) (cnt : Nat) :
    Except PyErr (Store × Nat × NFAFrag) :=
  match toPostfix regex with
  | Except.error e => Except.error e
  | Except.ok pf => buildNfa pf [] cnt

/-- The inner `for eps in state.epsilon` loop of `epsilon_closure`: each
successor not yet in the closure is added to it and pushed on the stack. -/
def pushNew : List Nat → List Nat → Finset Nat → List Nat × Finset Nat
  | [], stack, closure => (stack, closure)
  | e :: es, stack, closure =>
    if e ∈ closure then pushNew es stack closure
    else pushNew es (e :: stack) (insert e closure)

/-- The `while stack` loop of `epsilon_closure`, generalized over the successor
function (`epsilon_closure` uses epsilon successors; the reachable-state set
below uses all successors), with explicit fuel. -/
def closureLoop (succ : Nat → List Nat) : Nat → List Nat → Finset Nat →
    Option (Finset Nat)
  | 0, _, _ => none
  | _ + 1, [], closure => some closure
  | fuel + 1, s :: stack, closure =>
    let (stack1, closure1) := pushNew (succ s) stack closure
    closureLoop succ fuel stack1 closure1

/-- Dereference `state.epsilon` of the state with id `s`; ids absent from the
store (impossible in the source, where states are object references) have no
successors. -/
def Store.epsSuccs (g : Store) (s : Nat) : List Nat :=
  ((g.lookup s).map (·.epsilon)).getD []

/-- The set `S` enumerated as a list (`stack = list(states)`): Python iterates
the set in an unspecified order, modelled here by the store's key order. On a
well-formed store every state id of interest is a key. -/
def enumElems (g : Store) (S : Finset Nat) : List Nat :=
  g.keys.filter (fun s => s ∈ S)

/-- The function `epsilon_closure`: all states reachable from `S` along
epsilon edges. The fuel covers the worst case (theorem below); the `getD`
default is never reached on a well-formed store. -/
def epsilonClosure (g : Store) (S : Finset Nat) : Finset Nat :=
  (closureLoop g.epsSuccs (S.card + g.length + 1) (enumElems g S) S).getD S

/-- Dereference `state.edges[symbol]`, the empty list when the symbol is not
in the dict. -/
def Store.edgeTargets (g : Store) (s : Nat) (a : Char) : List Nat :=
  match g.lookup s with
  | none => []
  | some r =>
    match r.edges.find? (fun p => p.1 = a) with
    | none => []
    | some p => p.2

/-- The function `move`: states reachable from a member of `S` by exactly one
edge labeled `a` (the source's loop accumulates a set union). -/
def move (g : Store) (S : Finset Nat) (a : Char) : Finset Nat :=
  S.biUnion (fun s => (g.edgeTargets s a).toFinset)

/-- One DFA state (class `DFAState`): identifier from the global counter, the
canonical subset of NFA ids (`nfa_states`), the transition dict mapping a
symbol to the successor state (a table index, modelling the Python object
reference), and the accepting flag. -/
structure DFAState where
  id : Nat
  nfa_states : Finset Nat
  transitions : List (Char × Nat)
  is_accept : Bool
deriving DecidableEq

/-- Assignment `dfa_state.transitions[symbol] = target` on the state at table
index `i` (each symbol is assigned at most once per state, so dict assignment
is an append). -/
def setTrans (table : List DFAState) (i : Nat) (a : Char) (j : Nat) :
    List DFAState :=
  match table[i]? with
  | none => table
  | some st => table.set i { st with transitions := st.transitions ++ [(a, j)] }

/-- Lookup `dfa_states[next_states_frozen]` in the subset → state table,
returning the table index (the model of the Python object reference). -/
def findSubset (table : List DFAState) (key : Finset Nat) : Option Nat :=
  match table with
  | [] => none
  | st :: rest =>
    if st.nfa_states = key then some 0 else (findSubset rest key).map (· + 1)

/-- The body of the `for symbol in alphabet` loop of `nfa_to_dfa` for the DFA
state at index `cur`: compute the target subset, skip it when empty, register
it as a new DFA state when unseen (also collecting it for the worklist), and
record the transition. -/
def dfaSymbolStep (g : Store) (naccept : Nat) (dbase : Nat) (cur : Nat)
    (acc : List DFAState × List Nat) (a : Char) : List DFAState × List Nat :=
  match acc.1[cur]? with
  | none => acc
  | some st =>
    let nxt := epsilonClosure g (move g st.nfa_states a)
    if nxt = ∅ then acc
    else
      match findSubset acc.1 nxt with
      | some j => (setTrans acc.1 cur a j, acc.2)
      | none =>
        let j := acc.1.length
        (setTrans (acc.1 ++ [⟨dbase + j, nxt, [], naccept ∈ nxt⟩]) cur a j,
          j :: acc.2)

/-- The `while unmarked` worklist loop of `nfa_to_dfa` (worklist top at the
head; states discovered while processing one state are pushed so that the
last-discovered one is popped first, as with Python list append/pop). -/
def dfaLoop (g : Store) (naccept : Nat) (alphabet : List Char) (dbase : Nat) :
    Nat → List DFAState → List Nat → Option (List DFAState)
  | 0, _, _ => none
  | _ + 1, table, [] => some table
  | fuel + 1, table, cur :: rest =>
    let (table1, newIds) :=
      alphabet.foldl (dfaSymbolStep g naccept dbase cur) (table, [])
    dfaLoop g naccept alphabet dbase fuel table1 (newIds ++ rest)

/-- The function `nfa_to_dfa`: subset construction from the start closure,
returning the table in insertion order (`list(dfa_states.values())`). The fuel
covers the worst case (termination theorem below). -/
def nfaToDfa (g : Store) (nstart naccept : Nat) (alphabet : List Char)
    (dbase : Nat) : Option (List DFAState) :=
  let sc := epsilonClosure g {nstart}
  dfaLoop g naccept alphabet dbase (2 ^ g.length + 1)
    [⟨dbase, sc, [], naccept ∈ sc⟩] [0]

/-- The function `extract_alphabet`: the set of alphanumeric characters of the
regex. -/
def extractAlphabet (regex : List Char) : Finset Char :=
  (regex.filter (·.isAlphanum)).toFinset

/-- Modelled from the spec: the recognition driver of section 6, which is out
of the source's scope. It starts at the designated start identifier (the first
table entry, see the claim on the table head), follows one transition per
input symbol, rejects when a symbol has no outgoing transition, and accepts
iff the input is exhausted in a state whose accepting flag is set. -/
def dfaDrive (table : List DFAState) : Nat → List Char → Bool
  | cur, [] =>
    match table[cur]? with
    | some st => st.is_accept
    | none => false
  | cur, a :: s =>
    match table[cur]? with
    | none => false
    | some st =>
      match st.transitions.find? (fun p => p.1 = a) with
      | none => false
      | some p => dfaDrive table p.2 s

/-- Modelled from the spec: acceptance of a string by the DFA table, driving
from the start state. -/
def dfaAccepts (table : List DFAState) (s : List Char) : Bool :=
  dfaDrive table 0 s

/-- The whole pipeline at given values of the two global id counters:
`nfa_to_dfa(regex_to_nfa(R), alphabet)`, with the alphabet supplied as a list
(one iteration order of the Python set `extract_alphabet(R)`). -/
def compileDfa (regex : List Char) (alphabet : List Char) (nbase dbase : Nat) :
    Option (List DFAState) :=
  match regexToNfa regex nbase with
  | Except.error _ => none
  | Except.ok (g, _, f) => nfaToDfa g f.start f.accept alphabet dbase

/-- Whether a run finished without raising. -/
def isOkRun : Except PyErr (Store × Nat × NFAFrag) → Bool
  | Except.ok _ => true
  | Except.error _ => false

instance exceptDecEq {ε α : Type} [DecidableEq ε] [DecidableEq α] :
    DecidableEq (Except ε α) := fun x y =>
  match x, y with
  | Except.ok a, Except.ok b =>
    if h : a = b then Decidable.isTrue (by rw [h])
    else Decidable.isFalse (fun hc => h (Except.ok.inj hc))
  | Except.error a, Except.error b =>
    if h : a = b then Decidable.isTrue (by rw [h])
    else Decidable.isFalse (fun hc => h (Except.error.inj hc))
  | Except.ok _, Except.error _ => Decidable.isFalse (fun hc => Except.noConfusion hc)
  | Except.error _, Except.ok _ => Decidable.isFalse (fun hc => Except.noConfusion hc)

/-- The canonical subset keys of a table, in table order. -/
def tableKeys (t : List DFAState) : List (Finset Nat) :=
  t.map (·.nfa_states)

/-- The transition-independent data of the table entries, in table order. -/
def tableSig (t : List DFAState) : List (Nat × Finset Nat × Bool) :=
  t.map (fun st => (st.id, st.nfa_states, st.is_accept))

/-- The dedup invariant together with closedness of transition targets. -/
def TableInv (t : List DFAState) : Prop :=
  (tableKeys t).Nodup ∧ ∀ st ∈ t, ∀ p ∈ st.transitions, p.2 < t.length

/-- The example store of the two-state NFA recognizing the single letter a. -/
def exStoreA : Store := [(0, ⟨[('a', [1])], []⟩), (1, ⟨[], []⟩)]

/-- The DFA table the construction produces from `exStoreA`. -/
def exTableA : List DFAState :=
  [⟨0, {0}, [('a', 1)], false⟩, ⟨1, {1}, [], true⟩]

/-- Well-formedness of a store, automatic for Python object graphs: ids are
unique and every epsilon or edge target is the id of a state in the store. -/
def StoreWF (g : Store) : Prop :=
  g.keys.Nodup ∧
  ∀ p ∈ g, (∀ e ∈ p.2.epsilon, e ∈ g.keys) ∧
    ∀ q ∈ p.2.edges, ∀ t ∈ q.2, t ∈ g.keys

instance storeWFDecidable (g : Store) : Decidable (StoreWF g) := by
  unfold StoreWF
  infer_instance

/-- One epsilon edge of the NFA graph. -/
def epsStep (g : Store) (x y : Nat) : Prop :=
  y ∈ g.epsSuccs x

/-- All successors of a state, along epsilon edges or any labeled edge (used
only to state the reachable-state set the spec's bound refers to). -/
def Store.allSuccs (g : Store) (s : Nat) : List Nat :=
  match g.lookup s with
  | none => []
  | some r => r.epsilon ++ (r.edges.map (·.2)).flatten

/-- The set of NFA states reachable from `s` along any edges: the closure
traversal run with the all-successor function. -/
def reachableSet (g : Store) (s : Nat) : Finset Nat :=
  (closureLoop g.allSuccs (g.length + 2) [s] {s}).getD {s}

/-- The store of the NFA built for the regex `(a*)*`, which has the epsilon
cycle 2 → 3 → 2 introduced by the nested star construction. -/
def exStoreCyc : Store :=
  [(0, ⟨[('a', [1])], []⟩), (1, ⟨[], [0, 3]⟩), (2, ⟨[], [0, 3]⟩),
   (3, ⟨[], [2, 5]⟩), (4, ⟨[], [2, 5]⟩), (5, ⟨[], []⟩)]

/-- The set of ids present in the store. -/
def Store.keyset (g : Store) : Finset Nat :=
  g.keys.toFinset

/-- Every subset key of the table lies inside `V`. -/
def TableSub (V : Finset Nat) (t : List DFAState) : Prop :=
  ∀ st ∈ t, st.nfa_states ⊆ V

/-- One step of the subset semantics of the NFA: the epsilon closure of the
one-symbol move. This is what the construction computes per symbol; it is also
the standard set semantics of the NFA used to state language equality. -/
def stepSet (g : Store) (S : Finset Nat) (a : Char) : Finset Nat :=
  epsilonClosure g (move g S a)

/-- Acceptance of a string by the NFA under the standard subset semantics:
the accept state is among the states reachable on that input. -/
def nfaSetAccepts (g : Store) (ns na : Nat) (s : List Char) : Prop :=
  na ∈ s.foldl (stepSet g) (epsilonClosure g {ns})

/-- The accepting flag of every table entry agrees with membership of the NFA
accept state in its subset. -/
def AccInv (na : Nat) (t : List DFAState) : Prop :=
  ∀ st ∈ t, st.is_accept = decide (na ∈ st.nfa_states)

/-- Table entry `i` has been fully processed: for every alphabet symbol its
transition dict agrees with the subset semantics, pointing at a table entry
carrying exactly the stepped subset. -/
def Processed (g : Store) (al : List Char) (t : List DFAState) (i : Nat) :
    Prop :=
  ∀ st, t[i]? = some st → ∀ a ∈ al,
    (stepSet g st.nfa_states a = ∅ →
      st.transitions.find? (fun p => p.1 = a) = none) ∧
    (stepSet g st.nfa_states a ≠ ∅ →
      ∃ j stj, st.transitions.find? (fun p => p.1 = a) = some (a, j) ∧
        t[j]? = some stj ∧ stj.nfa_states = stepSet g st.nfa_states a)

/-- What one worklist iteration establishes: the result of folding the symbol
step over the symbols `todo` from table `t`, worklist accumulator `ids` and
current entry `st` at index `cur`. Entries other than `cur` are untouched,
fresh entries are collected in the accumulator with empty transition dicts,
and the current entry ends with transitions agreeing with the subset
semantics for every processed symbol. -/
def FoldRes (g : Store) (cur : Nat) (todo : List Char)
    (t : List DFAState) (ids : List Nat) (st : DFAState)
    (res : List DFAState × List Nat) : Prop :=
  t.length ≤ res.1.length ∧
  (∀ i, i < t.length → i ≠ cur → res.1[i]? = t[i]?) ∧
  (∀ i, t.length ≤ i → i < res.1.length → i ∈ res.2) ∧
  (∀ i ∈ res.2, i ∈ ids ∨ (t.length ≤ i ∧ i < res.1.length ∧
    res.1[i]?.map (·.transitions) = some [])) ∧
  (∀ i ∈ ids, i ∈ res.2) ∧
  res.2.Nodup ∧
  (∀ i ∈ res.2, i < res.1.length) ∧
  ∃ stN, res.1[cur]? = some stN ∧
    stN.nfa_states = st.nfa_states ∧ stN.is_accept = st.is_accept ∧
    (∃ ext, stN.transitions = st.transitions ++ ext ∧ ∀ p ∈ ext, p.1 ∈ todo) ∧
    ∀ a ∈ todo,
      (stepSet g st.nfa_states a = ∅ →
        stN.transitions.find? (fun p => p.1 = a) = none) ∧
      (stepSet g st.nfa_states a ≠ ∅ →
        ∃ j stj, stN.transitions.find? (fun p => p.1 = a) = some (a, j) ∧
          res.1[j]? = some stj ∧ stj.nfa_states = stepSet g st.nfa_states a)

/-- Invariant of the Thompson builder: well-formed store, every id below the
counter, and every fragment endpoint a store key. -/
def BuildInv (g : Store) (cnt : Nat) (frags : List NFAFrag) : Prop :=
  StoreWF g ∧ (∀ k ∈ g.keys, k < cnt) ∧
  ∀ f ∈ frags, f.start ∈ g.keys ∧ f.accept ∈ g.keys

/-- Renaming of the ids inside one state record by a constant offset,
relating runs of the construction started at different counter values. -/
def shiftRec (c : Nat) (r : StateRec) : StateRec :=
  ⟨r.edges.map (fun q => (q.1, q.2.map (· + c))), r.epsilon.map (· + c)⟩

/-- Renaming of all state ids of a store by a constant offset. -/
def shiftStore (c : Nat) (g : Store) : Store :=
  g.map (fun p => (p.1 + c, shiftRec c p.2))

/-- Renaming of a fragment's endpoints by a constant offset. -/
def shiftFrag (c : Nat) (f : NFAFrag) : NFAFrag :=
  ⟨f.start + c, f.accept + c⟩

/-- Abstract syntax of the supported regex grammar: alphanumeric literals,
implicit concatenation, union and Kleene star (grouping is concrete syntax
only and leaves no node). -/
inductive RE where
  | lit : Char → RE
  | cat : RE → RE → RE
  | alt : RE → RE → RE
  | star : RE → RE

/-- The postfix (reverse Polish) rendering of a syntax tree, with the
converter's explicit concatenation operator. -/
def postorder : RE → List Char
  | RE.lit c => [c]
  | RE.cat a b => postorder a ++ postorder b ++ ['.']
  | RE.alt a b => postorder a ++ postorder b ++ ['|']
  | RE.star a => postorder a ++ ['*']

/-- Every literal of the tree is alphanumeric. -/
def REok : RE → Bool
  | RE.lit c => c.isAlphanum
  | RE.cat a b => REok a && REok b
  | RE.alt a b => REok a && REok b
  | RE.star a => REok a

/-- Modelled from the spec: the concrete syntax of the supported grammar, as a
leveled derivation relation between syntax trees and regex strings. Level 0
is a union expression, level 1 a concatenation, level 2 a starred factor,
level 3 an atom (a literal or a parenthesized group); each level contains the
next, union and star associate as usual. -/
inductive Syn : Nat → RE → List Char → Prop where
  | lit {c : Char} : c.isAlphanum = true → Syn 3 (RE.lit c) [c]
  | group {e : RE} {s : List Char} : Syn 0 e s → Syn 3 e ('(' :: s ++ [')'])
  | star {e : RE} {s : List Char} : Syn 2 e s → Syn 2 (RE.star e) (s ++ ['*'])
  | cat {e1 e2 : RE} {s1 s2 : List Char} : Syn 1 e1 s1 → Syn 2 e2 s2 →
      Syn 1 (RE.cat e1 e2) (s1 ++ s2)
  | alt {e1 e2 : RE} {s1 s2 : List Char} : Syn 0 e1 s1 → Syn 1 e2 s2 →
      Syn 0 (RE.alt e1 e2) (s1 ++ '|' :: s2)
  | up01 {e : RE} {s : List Char} : Syn 1 e s → Syn 0 e s
  | up12 {e : RE} {s : List Char} : Syn 2 e s → Syn 1 e s
  | up23 {e : RE} {s : List Char} : Syn 3 e s → Syn 2 e s

/-- Modelled from the spec: matching of a string by a regex tree under the
standard concatenation/alternation/star semantics. -/
inductive REMatch : RE → List Char → Prop where
  | lit {c : Char} : REMatch (RE.lit c) [c]
  | cat {e1 e2 : RE} {s1 s2 : List Char} : REMatch e1 s1 → REMatch e2 s2 →
      REMatch (RE.cat e1 e2) (s1 ++ s2)
  | altl {e1 e2 : RE} {s : List Char} : REMatch e1 s →
      REMatch (RE.alt e1 e2) s
  | altr {e1 e2 : RE} {s : List Char} : REMatch e2 s →
      REMatch (RE.alt e1 e2) s
  | starnil {e : RE} : REMatch (RE.star e) []
  | starcons {e : RE} {s1 s2 : List Char} : REMatch e s1 →
      REMatch (RE.star e) s2 → REMatch (RE.star e) (s1 ++ s2)

/-- The same syntax tree as a Mathlib regular expression, tying the claimed
semantics to the library's language definitions. -/
def RE.toRegex : RE → RegularExpression Char
  | RE.lit c => RegularExpression.char c
  | RE.cat a b => RegularExpression.comp (RE.toRegex a) (RE.toRegex b)
  | RE.alt a b => RegularExpression.plus (RE.toRegex a) (RE.toRegex b)
  | RE.star a => RegularExpression.star (RE.toRegex a)

/-- Precondition of the shunting-yard phrase lemma on the operator stack: the
top of the stack (if any) binds no tighter than the phrase level. -/
def stackTopOK (k : Nat) : List Char → Prop
  | [] => True
  | t :: _ => prec t ≤ k

/-- A path of `n` steps through the NFA graph from one state to another,
reading one symbol on each labeled edge and nothing on epsilon edges. -/
inductive NfaPathN (g : Store) : Nat → Nat → Nat → List Char → Prop where
  | refl (q : Nat) : NfaPathN g 0 q q []
  | eps {n q1 q2 q3 : Nat} {s : List Char} : q2 ∈ g.epsSuccs q1 →
      NfaPathN g n q2 q3 s → NfaPathN g (n + 1) q1 q3 s
  | edge {n q1 q2 q3 : Nat} {a : Char} {s : List Char} :
      q2 ∈ g.edgeTargets q1 a → NfaPathN g n q2 q3 s →
      NfaPathN g (n + 1) q1 q3 (a :: s)

/-- A path of any number of steps. -/
def NfaPath (g : Store) (q1 q2 : Nat) (s : List Char) : Prop :=
  ∃ n, NfaPathN g n q1 q2 s

/-- Store extension: every transition of `g` is also a transition of `g2`
(new states and new edges may appear; existing ones persist). Paths are
monotone along this order. -/
def StoreLE (g g2 : Store) : Prop :=
  ∀ q, (∀ y ∈ g.epsSuccs q, y ∈ g2.epsSuccs q) ∧
    ∀ a, ∀ y ∈ g.edgeTargets q a, y ∈ g2.edgeTargets q a

/-- All transitions leaving the id interval `[lo, hi)` stay inside it. -/
def RegionSucc (g : Store) (lo hi : Nat) : Prop :=
  ∀ q, lo ≤ q → q < hi →
    (∀ y ∈ g.epsSuccs q, lo ≤ y ∧ y < hi) ∧
    ∀ a, ∀ y ∈ g.edgeTargets q a, lo ≤ y ∧ y < hi

/-- Every transition target anywhere in the store is below `n`. -/
def SuccsBelow (g : Store) (n : Nat) : Prop :=
  ∀ q, (∀ y ∈ g.epsSuccs q, y < n) ∧ ∀ a, ∀ y ∈ g.edgeTargets q a, y < n

/-- Everything the Thompson builder guarantees about one fragment built from
counter value `cnt` on top of store `g`: the new counter, contiguous keys, a
frame condition on the old states, endpoints inside the fresh region, the
region closed under transitions, a transition-free accept state, extension of
the old store, and the language of start-to-accept paths. -/
def BuildOut (e : RE) (g g2 : Store) (cnt cnt2 : Nat) (f : NFAFrag) : Prop :=
  cnt < cnt2 ∧
  g2.keys = List.range cnt2 ∧
  (∀ q, q < cnt → g2.lookup q = g.lookup q) ∧
  (cnt ≤ f.start ∧ f.start < cnt2) ∧
  (cnt ≤ f.accept ∧ f.accept < cnt2) ∧
  f.start ≠ f.accept ∧
  RegionSucc g2 cnt cnt2 ∧
  g2.lookup f.accept = some ⟨[], []⟩ ∧
  StoreLE g g2 ∧
  ∀ s, NfaPath g2 f.start f.accept s ↔ REMatch e s

/-- A list with no duplicates whose element set is the pair of two given
distinct values is one of the two enumerations of that pair. -/
theorem nodup_toFinset_pair {al : List Char} {x y : Char} (hxy : x ≠ y)
    (hnd : al.Nodup) (hal : al.toFinset = ({x, y} : Finset Char)) :
    al = [x, y] ∨ al = [y, x] := by
  have hcard : ({x, y} : Finset Char).card = 2 := by
    rw [Finset.card_insert_of_not_mem (by simpa using hxy), Finset.card_singleton]
  have hlen : al.length = 2 := by
    rw [← List.toFinset_card_of_nodup hnd, hal, hcard]
  obtain ⟨u, v, rfl⟩ := List.length_eq_two.mp hlen
  have huv : u ≠ v := by
    intro h
    subst h
    simp [List.nodup_cons] at hnd
  have hu : u ∈ ({x, y} : Finset Char) := by
    rw [← hal]
    simp
  have hv : v ∈ ({x, y} : Finset Char) := by
    rw [← hal]
    simp
  simp only [Finset.mem_insert, Finset.mem_singleton] at hu hv
  rcases hu with rfl | rfl
  · rcases hv with rfl | rfl
    · exact absurd rfl huv
    · exact Or.inl rfl
  · rcases hv with rfl | rfl
    · exact Or.inr rfl
    · exact absurd rfl huv

/-- A generic preservation principle for `List.foldl`. -/
theorem foldl_inv {σ α : Type} (P : σ → Prop) (step : σ → α → σ)
    (hstep : ∀ s a, P s → P (step s a)) :
    ∀ (as : List α) (s : σ), P s → P (as.foldl step s) := by
  intro as
  induction as with
  | nil => intro s hs; exact hs
  | cons a as ih => intro s hs; exact ih _ (hstep s a hs)

theorem findSubset_none {t : List DFAState} {key : Finset Nat}
    (h : findSubset t key = none) : ∀ st ∈ t, st.nfa_states ≠ key := by
  induction t with
  | nil => simp
  | cons st rest ih =>
    unfold findSubset at h
    by_cases hq : st.nfa_states = key
    · simp [hq] at h
    · simp only [if_neg hq, Option.map_eq_none'] at h
      intro x hx
      rcases List.mem_cons.mp hx with rfl | hx
      · exact hq
      · exact ih h x hx

theorem findSubset_some {t : List DFAState} {key : Finset Nat} {j : Nat}
    (h : findSubset t key = some j) :
    ∃ st, t[j]? = some st ∧ st.nfa_states = key := by
  induction t generalizing j with
  | nil => simp [findSubset] at h
  | cons st rest ih =>
    unfold findSubset at h
    by_cases hq : st.nfa_states = key
    · simp only [if_pos hq, Option.some.injEq] at h
      subst h
      exact ⟨st, by simp, hq⟩
    · simp only [if_neg hq, Option.map_eq_some'] at h
      obtain ⟨j0, hj0, rfl⟩ := h
      obtain ⟨x, hx, hxk⟩ := ih hj0
      exact ⟨x, by simpa using hx, hxk⟩

/-- Setting an index to a value that agrees under `f` leaves the mapped list
unchanged. -/
theorem map_set_of_eq {α β : Type} (f : α → β) (l : List α) (i : Nat) (x : α)
    (h : ∀ y, l[i]? = some y → f x = f y) : (l.set i x).map f = l.map f := by
  induction l generalizing i with
  | nil => simp
  | cons a tl ih =>
    cases i with
    | zero =>
      have hfa : f x = f a := h a (by simp)
      simp [hfa]
    | succ k =>
      simp only [List.set_cons_succ, List.map_cons, List.cons.injEq, true_and]
      exact ih k (fun y hy => h y (by simpa using hy))

theorem setTrans_map {β : Type} (f : DFAState → β)
    (hf : ∀ st a j, f ⟨st.id, st.nfa_states,
      st.transitions ++ [(a, j)], st.is_accept⟩ = f st)
    (t : List DFAState) (i : Nat) (a : Char) (j : Nat) :
    (setTrans t i a j).map f = t.map f := by
  unfold setTrans
  cases h : t[i]? with
  | none => rfl
  | some st =>
    exact map_set_of_eq f t i _ (fun y hy => by
      rw [h, Option.some_inj] at hy
      subst hy
      exact hf st a j)

theorem setTrans_length (t : List DFAState) (i : Nat) (a : Char) (j : Nat) :
    (setTrans t i a j).length = t.length := by
  unfold setTrans
  cases t[i]? with
  | none => rfl
  | some st => exact List.length_set t _ _

theorem setTrans_mem {t : List DFAState} {i : Nat} {a : Char} {j : Nat} {x : DFAState}
    (hx : x ∈ setTrans t i a j) :
    x ∈ t ∨ ∃ st, st ∈ t ∧
      x = ⟨st.id, st.nfa_states, st.transitions ++ [(a, j)], st.is_accept⟩ := by
  unfold setTrans at hx
  cases h : t[i]? with
  | none => rw [h] at hx; exact Or.inl hx
  | some st =>
    rw [h] at hx
    rcases List.mem_or_eq_of_mem_set hx with hmem | rfl
    · exact Or.inl hmem
    · refine Or.inr ⟨st, ?_, rfl⟩
      exact List.mem_iff_getElem?.mpr ⟨i, h⟩

theorem tableKeys_setTrans (t : List DFAState) (i : Nat) (a : Char) (j : Nat) :
    tableKeys (setTrans t i a j) = tableKeys t :=
  setTrans_map (fun st => st.nfa_states) (fun _ _ _ => rfl) t i a j

theorem tableSig_setTrans (t : List DFAState) (i : Nat) (a : Char) (j : Nat) :
    tableSig (setTrans t i a j) = tableSig t :=
  setTrans_map (fun st => (st.id, st.nfa_states, st.is_accept))
    (fun _ _ _ => rfl) t i a j

theorem dfaSymbolStep_inv (g : Store) (na db cur : Nat)
    (acc : List DFAState × List Nat) (a : Char) (h : TableInv acc.1) :
    TableInv (dfaSymbolStep g na db cur acc a).1 := by
  obtain ⟨h1, h2⟩ := h
  unfold dfaSymbolStep
  cases hcur : acc.1[cur]? with
  | none => exact ⟨h1, h2⟩
  | some st =>
    dsimp only
    by_cases hemp : epsilonClosure g (move g st.nfa_states a) = ∅
    · rw [if_pos hemp]
      exact ⟨h1, h2⟩
    rw [if_neg hemp]
    cases hfind : findSubset acc.1 (epsilonClosure g (move g st.nfa_states a)) with
    | some j =>
      obtain ⟨y, hy, _⟩ := findSubset_some hfind
      have hj : j < acc.1.length := by
        by_contra hge
        rw [List.getElem?_eq_none (Nat.le_of_not_lt hge)] at hy
        cases hy
      constructor
      · rw [tableKeys_setTrans]
        exact h1
      · intro x hx p hp
        rw [setTrans_length]
        rcases setTrans_mem hx with hmem | ⟨y2, hy2, rfl⟩
        · exact h2 x hmem p hp
        · simp only [List.mem_append, List.mem_singleton] at hp
          rcases hp with hp | rfl
          · exact h2 y2 hy2 p hp
          · exact hj
    | none =>
      set nxt := epsilonClosure g (move g st.nfa_states a) with hnxt
      constructor
      · rw [tableKeys_setTrans]
        have : tableKeys (acc.1 ++ [⟨db + acc.1.length, nxt, [], na ∈ nxt⟩]) =
            tableKeys acc.1 ++ [nxt] := by
          simp [tableKeys]
        rw [this]
        refine List.Nodup.append h1 (List.nodup_singleton _) ?_
        intro k hk hk2
        simp only [List.mem_singleton] at hk2
        obtain ⟨y, hy, hyk⟩ := List.mem_map.mp hk
        exact findSubset_none hfind y hy (hyk.trans hk2)
      · intro x hx p hp
        rw [setTrans_length, List.length_append, List.length_singleton]
        rcases setTrans_mem hx with hmem | ⟨y2, hy2, rfl⟩
        · rcases List.mem_append.mp hmem with hmem | hmem
          · exact Nat.lt_succ_of_lt (h2 x hmem p hp)
          · simp only [List.mem_singleton] at hmem
            subst hmem
            simp at hp
        · simp only [List.mem_append, List.mem_singleton] at hp
          rcases hp with hp | rfl
          · rcases List.mem_append.mp hy2 with hy2 | hy2
            · exact Nat.lt_succ_of_lt (h2 y2 hy2 p hp)
            · simp only [List.mem_singleton] at hy2
              subst hy2
              simp at hp
          · exact Nat.lt_succ_self _

theorem dfaLoop_inv (g : Store) (na : Nat) (al : List Char) (db : Nat)
    (fuel : Nat) :
    ∀ (table : List DFAState) (wl : List Nat) (l : List DFAState),
      dfaLoop g na al db fuel table wl = some l → TableInv table → TableInv l := by
  induction fuel with
  | zero => intro table wl l h; cases h
  | succ fuel ih =>
    intro table wl l h hI
    cases wl with
    | nil =>
      cases h
      exact hI
    | cons cur rest =>
      unfold dfaLoop at h
      exact ih _ _ _ h
        (foldl_inv (fun acc => TableInv acc.1) _
          (fun s a hs => dfaSymbolStep_inv g na db cur s a hs) al (table, []) hI)

/-- C5: in any completed subset construction the canonical-subset keys of the
DFA states are pairwise distinct (the subset → state mapping is injective),
and every transition target is one of the materialized table states. -/
theorem c5_subset_keys_injective (g : Store) (ns na : Nat) (al : List Char)
    (db : Nat) (l : List DFAState) (h : nfaToDfa g ns na al db = some l) :
    List.Pairwise (fun s t => s.nfa_states ≠ t.nfa_states) l ∧
    ∀ st ∈ l, ∀ p ∈ st.transitions, p.2 < l.length := by
  unfold nfaToDfa at h
  have hinv : TableInv [⟨db, epsilonClosure g {ns}, [],
      na ∈ epsilonClosure g {ns}⟩] := by
    constructor
    · simp [tableKeys]
    · intro st hst p hp
      simp only [List.mem_singleton] at hst
      subst hst
      simp at hp
  obtain ⟨h1, h2⟩ := dfaLoop_inv g na al db _ _ _ _ h hinv
  refine ⟨?_, h2⟩
  have h1b := List.pairwise_map.mp h1
  exact h1b

/-- Witness for C5: the construction on the example NFA completes and the
theorem applies to its table. -/
theorem c5_subset_keys_injective_witness :
    nfaToDfa exStoreA 0 1 ['a'] 0 = some exTableA ∧
    (List.Pairwise (fun s t => s.nfa_states ≠ t.nfa_states) exTableA ∧
      ∀ st ∈ exTableA, ∀ p ∈ st.transitions, p.2 < exTableA.length) :=
  ⟨by decide, c5_subset_keys_injective exStoreA 0 1 ['a'] 0 exTableA (by decide)⟩

theorem dfaSymbolStep_sig (g : Store) (na db cur : Nat)
    (acc : List DFAState × List Nat) (a : Char) :
    (tableSig acc.1).IsPrefix (tableSig (dfaSymbolStep g na db cur acc a).1) := by
  unfold dfaSymbolStep
  cases hcur : acc.1[cur]? with
  | none => exact List.prefix_refl _
  | some st =>
    dsimp only
    by_cases hemp : epsilonClosure g (move g st.nfa_states a) = ∅
    · rw [if_pos hemp]
    rw [if_neg hemp]
    cases hfind : findSubset acc.1 (epsilonClosure g (move g st.nfa_states a)) with
    | some j =>
      rw [tableSig_setTrans]
    | none =>
      rw [tableSig_setTrans]
      have : tableSig (acc.1 ++ [⟨db + acc.1.length,
          epsilonClosure g (move g st.nfa_states a), [],
          na ∈ epsilonClosure g (move g st.nfa_states a)⟩]) =
          tableSig acc.1 ++ [(db + acc.1.length,
            epsilonClosure g (move g st.nfa_states a),
            decide (na ∈ epsilonClosure g (move g st.nfa_states a)))] := by
        simp [tableSig]
      rw [this]
      exact List.prefix_append _ _

theorem dfaLoop_sig_prefix (g : Store) (na : Nat) (al : List Char) (db : Nat)
    (fuel : Nat) :
    ∀ (table : List DFAState) (wl : List Nat) (l : List DFAState),
      dfaLoop g na al db fuel table wl = some l →
      (tableSig table).IsPrefix (tableSig l) := by
  induction fuel with
  | zero => intro table wl l h; cases h
  | succ fuel ih =>
    intro table wl l h
    cases wl with
    | nil =>
      cases h
      exact List.prefix_refl _
    | cons cur rest =>
      unfold dfaLoop at h
      refine List.IsPrefix.trans ?_ (ih _ _ _ h)
      refine foldl_inv
        (fun (acc : List DFAState × List Nat) =>
          (tableSig table).IsPrefix (tableSig acc.1)) _ ?_
        al (table, []) (List.prefix_refl _)
      intro s a hs
      exact List.IsPrefix.trans hs (dfaSymbolStep_sig g na db cur s a)

/-- C10: whenever `nfa_to_dfa` returns a table, its first element is the start
DFA state: its subset is the epsilon closure of the NFA start state, and its
identifier is the first one allocated in the run. -/
theorem c10_head_is_start_state (g : Store) (ns na : Nat) (al : List Char)
    (db : Nat) (l : List DFAState) (h : nfaToDfa g ns na al db = some l) :
    ∃ st, l.head? = some st ∧ st.nfa_states = epsilonClosure g {ns} ∧
      st.id = db := by
  unfold nfaToDfa at h
  have hpre := dfaLoop_sig_prefix g na al db _ _ _ _ h
  obtain ⟨t2, ht2⟩ := hpre
  cases l with
  | nil => simp [tableSig] at ht2
  | cons st0 rest =>
    simp only [tableSig, List.map_cons, List.map_nil, List.cons_append,
      List.nil_append, List.cons.injEq, Prod.mk.injEq] at ht2
    obtain ⟨⟨h1, h2, _⟩, -⟩ := ht2
    exact ⟨st0, rfl, h2.symm, h1.symm⟩

/-- Witness for C10: the theorem applies to the completed example table. -/
theorem c10_head_is_start_state_witness :
    nfaToDfa exStoreA 0 1 ['a'] 0 = some exTableA ∧
    ∃ st, exTableA.head? = some st ∧
      st.nfa_states = epsilonClosure exStoreA {0} ∧ st.id = 0 :=
  ⟨by decide, c10_head_is_start_state exStoreA 0 1 ['a'] 0 exTableA (by decide)⟩

/-- C2: for `R = (a|b)` missing its closing parenthesis the converter reports
no error at all — the stray opening marker is flushed into the postfix output
and the whole NFA construction succeeds; for `R = a)b` the unmatched closing
parenthesis surfaces as the generic collection-underflow fault of `stack.pop()`
on an empty stack; a dangling union operator in `R = a|` is also surfaced as a
collection-underflow fault (raised later, inside the builder). No named
unbalanced-parentheses or dangling-operator error exists in the code. -/
theorem c2_converter_failures_not_explicit :
    toPostfix "(a|b".toList = Except.ok ['a', 'b', '|', '('] ∧
    isOkRun (regexToNfa "(a|b".toList 0) = true ∧
    toPostfix "a)b".toList = Except.error PyErr.indexError ∧
    toPostfix "a|".toList = Except.ok ['a', '|'] ∧
    regexToNfa "a|".toList 0 = Except.error PyErr.indexError := by
  decide

/-- C3: characters outside the supported grammar are silently dropped by the
converter instead of being classified as unsupported: `a+b`, `a?b` and a
string with a space all produce the postfix `ab` with no error, and the
pipeline then silently compiles `a+b` into a recognizer that accepts `b` and
rejects `ab`. -/
theorem c3_unsupported_chars_silently_dropped :
    toPostfix "a+b".toList = Except.ok ['a', 'b'] ∧
    toPostfix "a?b".toList = Except.ok ['a', 'b'] ∧
    toPostfix "a b".toList = Except.ok ['a', 'b'] ∧
    isOkRun (regexToNfa "a+b".toList 0) = true ∧
    (compileDfa "a+b".toList ['a', 'b'] 0 0).map
      (fun l => dfaAccepts l "b".toList) = some true ∧
    (compileDfa "a+b".toList ['a', 'b'] 0 0).map
      (fun l => dfaAccepts l "ab".toList) = some false := by
  decide

/-- C4: the builder performs no construction-invariant check: on the postfix
`ab` (two leftover fragments) it silently returns the top fragment of a
two-fragment stack; on the empty postfix, and on `*` or `.` with missing
operands, it fails with the generic collection-underflow fault, not a named
construction-invariant error. -/
theorem c4_builder_invariant_not_checked :
    buildNfa ['a', 'b'] [] 0 =
      Except.ok ([(0, ⟨[('a', [1])], []⟩), (1, ⟨[], []⟩),
        (2, ⟨[('b', [3])], []⟩), (3, ⟨[], []⟩)], 4, ⟨2, 3⟩) ∧
    buildNfa [] [] 0 = Except.error PyErr.indexError ∧
    buildNfa ['*'] [] 0 = Except.error PyErr.indexError ∧
    buildNfa ['.'] [] 0 = Except.error PyErr.indexError ∧
    buildNfa ['a', '|'] [] 0 = Except.error PyErr.indexError := by
  refine ⟨?_, ?_, ?_, ?_, ?_⟩ <;> decide

/-- C7: for `R = (a|b)*abb` and either iteration order of the extracted
alphabet set, the constructed DFA accepts `abb`, `aabb`, `babb`, `ababb` and
rejects `ab`, `aab` and the empty string. -/
theorem c7_example_regex_behavior (al : List Char) (hnd : al.Nodup)
    (hal : al.toFinset = extractAlphabet "(a|b)*abb".toList) :
    ((compileDfa "(a|b)*abb".toList al 0 0).map
        (fun l => dfaAccepts l "abb".toList) = some true ∧
      (compileDfa "(a|b)*abb".toList al 0 0).map
        (fun l => dfaAccepts l "aabb".toList) = some true ∧
      (compileDfa "(a|b)*abb".toList al 0 0).map
        (fun l => dfaAccepts l "babb".toList) = some true ∧
      (compileDfa "(a|b)*abb".toList al 0 0).map
        (fun l => dfaAccepts l "ababb".toList) = some true) ∧
    ((compileDfa "(a|b)*abb".toList al 0 0).map
        (fun l => dfaAccepts l "ab".toList) = some false ∧
      (compileDfa "(a|b)*abb".toList al 0 0).map
        (fun l => dfaAccepts l "aab".toList) = some false ∧
      (compileDfa "(a|b)*abb".toList al 0 0).map
        (fun l => dfaAccepts l [] ) = some false) := by
  have hal2 : al.toFinset = ({'a', 'b'} : Finset Char) := by
    rw [hal]
    decide
  rcases nodup_toFinset_pair (by decide) hnd hal2 with rfl | rfl
  · exact ⟨⟨by decide, by decide, by decide, by decide⟩,
      by decide, by decide, by decide⟩
  · exact ⟨⟨by decide, by decide, by decide, by decide⟩,
      by decide, by decide, by decide⟩

/-- Witness for C7: the alphabet enumeration `['a', 'b']` satisfies the
hypotheses, and the theorem applies to it. -/
theorem c7_example_regex_behavior_witness :
    ((['a', 'b'] : List Char).Nodup ∧
      (['a', 'b'] : List Char).toFinset = extractAlphabet "(a|b)*abb".toList) ∧
    ((compileDfa "(a|b)*abb".toList ['a', 'b'] 0 0).map
        (fun l => dfaAccepts l "abb".toList) = some true ∧
      (compileDfa "(a|b)*abb".toList ['a', 'b'] 0 0).map
        (fun l => dfaAccepts l "aabb".toList) = some true ∧
      (compileDfa "(a|b)*abb".toList ['a', 'b'] 0 0).map
        (fun l => dfaAccepts l "babb".toList) = some true ∧
      (compileDfa "(a|b)*abb".toList ['a', 'b'] 0 0).map
        (fun l => dfaAccepts l "ababb".toList) = some true) ∧
    ((compileDfa "(a|b)*abb".toList ['a', 'b'] 0 0).map
        (fun l => dfaAccepts l "ab".toList) = some false ∧
      (compileDfa "(a|b)*abb".toList ['a', 'b'] 0 0).map
        (fun l => dfaAccepts l "aab".toList) = some false ∧
      (compileDfa "(a|b)*abb".toList ['a', 'b'] 0 0).map
        (fun l => dfaAccepts l [] ) = some false) :=
  ⟨⟨by decide, by decide⟩,
    c7_example_regex_behavior ['a', 'b'] (by decide) (by decide)⟩

theorem pushNew_closure_mem (es : List Nat) :
    ∀ (stack : List Nat) (cl : Finset Nat) (x : Nat),
      x ∈ (pushNew es stack cl).2 ↔ x ∈ cl ∨ x ∈ es := by
  induction es with
  | nil =>
    intro stack cl x
    simp [pushNew]
  | cons e es ih =>
    intro stack cl x
    by_cases he : e ∈ cl
    · rw [pushNew, if_pos he, ih]
      constructor
      · rintro (h | h)
        · exact Or.inl h
        · exact Or.inr (List.mem_cons_of_mem e h)
      · rintro (h | h)
        · exact Or.inl h
        · rcases List.mem_cons.mp h with rfl | h
          · exact Or.inl he
          · exact Or.inr h
    · rw [pushNew, if_neg he, ih]
      simp only [Finset.mem_insert, List.mem_cons]
      tauto

theorem pushNew_stack_mem (es : List Nat) :
    ∀ (stack : List Nat) (cl : Finset Nat) (x : Nat),
      x ∈ (pushNew es stack cl).1 ↔ x ∈ stack ∨ (x ∈ es ∧ x ∉ cl) := by
  induction es with
  | nil =>
    intro stack cl x
    simp [pushNew]
  | cons e es ih =>
    intro stack cl x
    by_cases he : e ∈ cl
    · rw [pushNew, if_pos he, ih]
      simp only [List.mem_cons]
      constructor
      · rintro (h | ⟨h1, h2⟩)
        · exact Or.inl h
        · exact Or.inr ⟨Or.inr h1, h2⟩
      · rintro (h | ⟨h1, h2⟩)
        · exact Or.inl h
        · rcases h1 with rfl | h1
          · exact absurd he h2
          · exact Or.inr ⟨h1, h2⟩
    · rw [pushNew, if_neg he, ih]
      simp only [List.mem_cons, Finset.mem_insert]
      by_cases hx : x = e
      · subst hx
        simp [he]
      · constructor
        · rintro (( h | h) | ⟨h1, h2⟩)
          · exact absurd h hx
          · exact Or.inl h
          · exact Or.inr ⟨Or.inr h1, fun hc => h2 (Or.inr hc)⟩
        · rintro (h | ⟨h1, h2⟩)
          · exact Or.inl (Or.inr h)
          · rcases h1 with rfl | h1
            · exact absurd rfl hx
            · exact Or.inr ⟨h1, fun hc => by
                rcases hc with hc | hc
                · exact hx hc
                · exact h2 hc⟩

theorem pushNew_measure (U : Finset Nat) (es : List Nat) :
    ∀ (stack : List Nat) (cl : Finset Nat), (∀ x ∈ es, x ∈ U) →
      (pushNew es stack cl).1.length + (U \ (pushNew es stack cl).2).card =
        stack.length + (U \ cl).card := by
  induction es with
  | nil =>
    intro stack cl _
    rfl
  | cons e es ih =>
    intro stack cl hes
    by_cases he : e ∈ cl
    · rw [pushNew, if_pos he]
      exact ih stack cl (fun x hx => hes x (List.mem_cons_of_mem e hx))
    · rw [pushNew, if_neg he]
      have heU : e ∈ U := hes e (List.mem_cons_self e es)
      have h1 : U \ insert e cl = (U \ cl).erase e := by
        ext y
        simp only [Finset.mem_sdiff, Finset.mem_insert, Finset.mem_erase]
        tauto
      have h2 : e ∈ U \ cl := Finset.mem_sdiff.mpr ⟨heU, he⟩
      have h3 : ((U \ cl).erase e).card = (U \ cl).card - 1 :=
        Finset.card_erase_of_mem h2
      have h4 : 1 ≤ (U \ cl).card :=
        Finset.card_pos.mpr ⟨e, h2⟩
      have := ih (e :: stack) (insert e cl)
        (fun x hx => hes x (List.mem_cons_of_mem e hx))
      rw [h1, h3] at this
      rw [this]
      simp only [List.length_cons]
      omega

theorem closureLoop_spec (succ : Nat → List Nat) (U : Finset Nat)
    (hU : ∀ x, ∀ y ∈ succ x, y ∈ U)
    (P : Nat → Prop) (hP : ∀ x y, P x → y ∈ succ x → P y) :
    ∀ (fuel : Nat) (stack : List Nat) (cl : Finset Nat),
      (∀ x ∈ stack, x ∈ cl) →
      (∀ x ∈ cl, x ∈ U) →
      (∀ x ∈ cl, P x) →
      (∀ x ∈ cl, x ∈ stack ∨ ∀ y ∈ succ x, y ∈ cl) →
      stack.length + (U \ cl).card < fuel →
      ∃ C, closureLoop succ fuel stack cl = some C ∧
        (∀ x ∈ cl, x ∈ C) ∧ (∀ x ∈ C, x ∈ U) ∧ (∀ x ∈ C, P x) ∧
        ∀ x ∈ C, ∀ y ∈ succ x, y ∈ C := by
  intro fuel
  induction fuel with
  | zero =>
    intro stack cl _ _ _ _ hm
    exact absurd hm (Nat.not_lt_zero _)
  | succ fuel ih =>
    intro stack cl h1 h2 h3 h4 hm
    cases stack with
    | nil =>
      refine ⟨cl, rfl, fun x hx => hx, h2, h3, ?_⟩
      intro x hx y hy
      rcases h4 x hx with hin | hcl
      · exact absurd hin (List.not_mem_nil x)
      · exact hcl y hy
    | cons s stack =>
      have hs : s ∈ cl := h1 s (List.mem_cons_self s stack)
      rw [closureLoop]
      have hcl1 : ∀ x, x ∈ (pushNew (succ s) stack cl).2 ↔ x ∈ cl ∨ x ∈ succ s :=
        pushNew_closure_mem (succ s) stack cl
      have hst1 : ∀ x, x ∈ (pushNew (succ s) stack cl).1 ↔
          x ∈ stack ∨ (x ∈ succ s ∧ x ∉ cl) :=
        pushNew_stack_mem (succ s) stack cl
      obtain ⟨C, hC, hsub, hCU, hCP, hCcl⟩ :=
        ih (pushNew (succ s) stack cl).1 (pushNew (succ s) stack cl).2
          (by
            intro x hx
            rcases (hst1 x).mp hx with hx | ⟨hx, _⟩
            · exact (hcl1 x).mpr (Or.inl (h1 x (List.mem_cons_of_mem s hx)))
            · exact (hcl1 x).mpr (Or.inr hx))
          (by
            intro x hx
            rcases (hcl1 x).mp hx with hx | hx
            · exact h2 x hx
            · exact hU s x hx)
          (by
            intro x hx
            rcases (hcl1 x).mp hx with hx | hx
            · exact h3 x hx
            · exact hP s x (h3 s hs) hx)
          (by
            intro x hx
            rcases (hcl1 x).mp hx with hxcl | hxnew
            · rcases h4 x hxcl with hxin | hxsucc
              · rcases List.mem_cons.mp hxin with rfl | hxin
                · exact Or.inr (fun y hy => (hcl1 y).mpr (Or.inr hy))
                · exact Or.inl ((hst1 x).mpr (Or.inl hxin))
              · exact Or.inr (fun y hy => (hcl1 y).mpr (Or.inl (hxsucc y hy)))
            · by_cases hxcl : x ∈ cl
              · rcases h4 x hxcl with hxin | hxsucc
                · rcases List.mem_cons.mp hxin with rfl | hxin
                  · exact Or.inr (fun y hy => (hcl1 y).mpr (Or.inr hy))
                  · exact Or.inl ((hst1 x).mpr (Or.inl hxin))
                · exact Or.inr (fun y hy => (hcl1 y).mpr (Or.inl (hxsucc y hy)))
              · exact Or.inl ((hst1 x).mpr (Or.inr ⟨hxnew, hxcl⟩)))
          (by
            have := pushNew_measure U (succ s) stack cl (fun x hx => hU s x hx)
            rw [this]
            simp only [List.length_cons] at hm
            omega)
      refine ⟨C, hC, ?_, hCU, hCP, hCcl⟩
      intro x hx
      exact hsub x ((hcl1 x).mpr (Or.inl hx))

theorem epsSuccs_mem_keys {g : Store} (hwf : StoreWF g) :
    ∀ x, ∀ y ∈ g.epsSuccs x, y ∈ g.keys.toFinset := by
  intro x y hy
  unfold Store.epsSuccs at hy
  cases hl : g.lookup x with
  | none =>
    rw [hl] at hy
    cases hy
  | some r =>
    rw [hl] at hy
    simp only [Option.map_some', Option.getD_some] at hy
    unfold Store.lookup at hl
    obtain ⟨q, hq, hq2⟩ := Option.map_eq_some'.mp hl
    have hmem : q ∈ g := List.mem_of_find?_eq_some hq
    subst hq2
    exact List.mem_toFinset.mpr ((hwf.2 q hmem).1 y hy)

/-- Full specification of `epsilon_closure` on a well-formed store: the
traversal terminates within its fuel, the input set is contained in the
result, and the result is exactly the epsilon-reachable set. -/
theorem epsilonClosure_spec (g : Store) (S : Finset Nat)
    (hwf : StoreWF g) (hS : ∀ s ∈ S, s ∈ g.keys) :
    closureLoop g.epsSuccs (S.card + g.length + 1) (enumElems g S) S =
      some (epsilonClosure g S) ∧
    (∀ s ∈ S, s ∈ epsilonClosure g S) ∧
    ∀ x, x ∈ epsilonClosure g S ↔
      ∃ s ∈ S, Relation.ReflTransGen (epsStep g) s x := by
  have hU : ∀ x, ∀ y ∈ g.epsSuccs x, y ∈ g.keys.toFinset := epsSuccs_mem_keys hwf
  have hmeasure : (enumElems g S).length + (g.keys.toFinset \ S).card <
      S.card + g.length + 1 := by
    have hnd : (enumElems g S).Nodup := List.Nodup.filter _ hwf.1
    have hlen : (enumElems g S).length = (enumElems g S).toFinset.card :=
      (List.toFinset_card_of_nodup hnd).symm
    have hsub : (enumElems g S).toFinset ⊆ S := by
      intro x hx
      simp only [List.mem_toFinset, enumElems, List.mem_filter,
        decide_eq_true_eq] at hx
      exact hx.2
    have h1 : (enumElems g S).length ≤ S.card :=
      hlen ▸ Finset.card_le_card hsub
    have h2 : (g.keys.toFinset \ S).card ≤ g.length := by
      calc (g.keys.toFinset \ S).card
          ≤ g.keys.toFinset.card := Finset.card_le_card (Finset.sdiff_subset)
        _ ≤ g.keys.length := List.toFinset_card_le _
        _ = g.length := by simp [Store.keys]
    omega
  obtain ⟨C, hC, hsub, hCU, hCP, hCcl⟩ :=
    closureLoop_spec g.epsSuccs g.keys.toFinset hU
      (fun x => ∃ s ∈ S, Relation.ReflTransGen (epsStep g) s x)
      (by
        rintro x y ⟨s, hs, hr⟩ hy
        exact ⟨s, hs, hr.tail hy⟩)
      (S.card + g.length + 1) (enumElems g S) S
      (by
        intro x hx
        simp only [enumElems, List.mem_filter, decide_eq_true_eq] at hx
        exact hx.2)
      (fun x hx => List.mem_toFinset.mpr (hS x hx))
      (fun x hx => ⟨x, hx, Relation.ReflTransGen.refl⟩)
      (by
        intro x hx
        refine Or.inl ?_
        simp only [enumElems, List.mem_filter, decide_eq_true_eq]
        exact ⟨hS x hx, hx⟩)
      hmeasure
  have hEps : epsilonClosure g S = C := by
    unfold epsilonClosure
    rw [hC]
    rfl
  refine ⟨by rw [hEps]; exact hC, by rw [hEps]; exact hsub, ?_⟩
  intro x
  rw [hEps]
  constructor
  · exact hCP x
  · rintro ⟨s, hs, hr⟩
    induction hr with
    | refl => exact hsub s hs
    | tail h1 h2 ih => exact hCcl _ ih _ h2

/-- C8: on a well-formed store the epsilon-closure traversal terminates within
its fuel even in the presence of epsilon cycles, the input set is contained in
the result, and the result is exactly the set of states reachable from a
member of the input along zero or more epsilon edges. -/
theorem c8_epsilon_closure_correct (g : Store) (S : Finset Nat)
    (hwf : StoreWF g) (hS : ∀ s ∈ S, s ∈ g.keys) :
    closureLoop g.epsSuccs (S.card + g.length + 1) (enumElems g S) S =
      some (epsilonClosure g S) ∧
    (∀ s ∈ S, s ∈ epsilonClosure g S) ∧
    ∀ x, x ∈ epsilonClosure g S ↔
      ∃ s ∈ S, Relation.ReflTransGen (epsStep g) s x :=
  epsilonClosure_spec g S hwf hS

/-- Witness for C8: the theorem applies to the store of the NFA for `(a*)*`,
whose star constructions introduce the epsilon cycle 2 → 3 → 2, starting from
its start state 4. -/
theorem c8_epsilon_closure_correct_witness :
    (StoreWF exStoreCyc ∧ ∀ s ∈ ({4} : Finset Nat), s ∈ exStoreCyc.keys) ∧
    (closureLoop exStoreCyc.epsSuccs
        (({4} : Finset Nat).card + exStoreCyc.length + 1)
        (enumElems exStoreCyc {4}) {4} =
        some (epsilonClosure exStoreCyc {4}) ∧
      (∀ s ∈ ({4} : Finset Nat), s ∈ epsilonClosure exStoreCyc {4}) ∧
      ∀ x, x ∈ epsilonClosure exStoreCyc {4} ↔
        ∃ s ∈ ({4} : Finset Nat),
          Relation.ReflTransGen (epsStep exStoreCyc) s x) :=
  ⟨⟨by decide, by decide⟩,
    c8_epsilon_closure_correct exStoreCyc {4} (by decide) (by decide)⟩

theorem lookup_mem {g : Store} {x : Nat} {r : StateRec}
    (hl : g.lookup x = some r) : (x, r) ∈ g := by
  unfold Store.lookup at hl
  obtain ⟨q, hq, hq2⟩ := Option.map_eq_some'.mp hl
  have hpred := List.find?_some hq
  have hmem := List.mem_of_find?_eq_some hq
  obtain ⟨q1, q2⟩ := q
  simp only [decide_eq_true_eq] at hpred
  subst hpred
  subst hq2
  exact hmem

theorem edgeTargets_sub_allSuccs (g : Store) (x : Nat) (a : Char) :
    ∀ y ∈ g.edgeTargets x a, y ∈ g.allSuccs x := by
  intro y hy
  unfold Store.edgeTargets at hy
  unfold Store.allSuccs
  cases hl : g.lookup x with
  | none =>
    rw [hl] at hy
    cases hy
  | some r =>
    rw [hl] at hy
    dsimp only at hy ⊢
    cases hf : r.edges.find? (fun p => p.1 = a) with
    | none =>
      rw [hf] at hy
      cases hy
    | some q =>
      rw [hf] at hy
      refine List.mem_append_right _ ?_
      refine List.mem_flatten.mpr ⟨q.2, ?_, hy⟩
      exact List.mem_map.mpr ⟨q, List.mem_of_find?_eq_some hf, rfl⟩

theorem epsSuccs_sub_allSuccs (g : Store) (x : Nat) :
    ∀ y ∈ g.epsSuccs x, y ∈ g.allSuccs x := by
  intro y hy
  unfold Store.epsSuccs at hy
  unfold Store.allSuccs
  cases hl : g.lookup x with
  | none =>
    rw [hl] at hy
    cases hy
  | some r =>
    rw [hl] at hy
    simp only [Option.map_some', Option.getD_some] at hy
    exact List.mem_append_left _ hy

theorem allSuccs_mem_keys {g : Store} (hwf : StoreWF g) :
    ∀ x, ∀ y ∈ g.allSuccs x, y ∈ g.keyset := by
  intro x y hy
  unfold Store.allSuccs at hy
  cases hl : g.lookup x with
  | none =>
    rw [hl] at hy
    cases hy
  | some r =>
    rw [hl] at hy
    dsimp only at hy
    have hmem := lookup_mem hl
    rcases List.mem_append.mp hy with hy | hy
    · exact List.mem_toFinset.mpr ((hwf.2 (x, r) hmem).1 y hy)
    · obtain ⟨ts, hts, hyts⟩ := List.mem_flatten.mp hy
      obtain ⟨q, hq, rfl⟩ := List.mem_map.mp hts
      exact List.mem_toFinset.mpr ((hwf.2 (x, r) hmem).2 q hq y hyts)

theorem edgeTargets_mem_keys {g : Store} (hwf : StoreWF g) :
    ∀ x a, ∀ y ∈ g.edgeTargets x a, y ∈ g.keys := by
  intro x a y hy
  have := allSuccs_mem_keys hwf x y (edgeTargets_sub_allSuccs g x a y hy)
  exact List.mem_toFinset.mp this

/-- The reachable-state set contains the root, stays inside the store's keys
and is closed under all successors. -/
theorem reachableSet_spec {g : Store} {s : Nat} (hwf : StoreWF g)
    (hs : s ∈ g.keys) :
    s ∈ reachableSet g s ∧ (∀ x ∈ reachableSet g s, x ∈ g.keyset) ∧
    ∀ x ∈ reachableSet g s, ∀ y ∈ g.allSuccs x, y ∈ reachableSet g s := by
  have hmeasure : ([s] : List Nat).length + (g.keyset \ {s}).card <
      g.length + 2 := by
    have h2 : (g.keyset \ {s}).card ≤ g.length := by
      calc (g.keyset \ {s}).card
          ≤ g.keyset.card := Finset.card_le_card (Finset.sdiff_subset)
        _ ≤ g.keys.length := List.toFinset_card_le _
        _ = g.length := by simp [Store.keys]
    simp only [List.length_singleton]
    omega
  obtain ⟨C, hC, hsub, hCU, _, hCcl⟩ :=
    closureLoop_spec g.allSuccs g.keyset (allSuccs_mem_keys hwf)
      (fun _ => True) (fun _ _ _ _ => trivial)
      (g.length + 2) [s] {s}
      (by
        intro x hx
        rcases List.mem_singleton.mp hx with rfl
        exact Finset.mem_singleton_self x)
      (by
        intro x hx
        rcases Finset.mem_singleton.mp hx with rfl
        exact List.mem_toFinset.mpr hs)
      (fun _ _ => trivial)
      (by
        intro x hx
        rcases Finset.mem_singleton.mp hx with rfl
        exact Or.inl (List.mem_singleton_self x))
      hmeasure
  have hR : reachableSet g s = C := by
    unfold reachableSet
    rw [hC]
    rfl
  rw [hR]
  exact ⟨hsub s (Finset.mem_singleton_self s), hCU, hCcl⟩

/-- The epsilon closure of a subset of the keys stays inside any set that
contains it and is closed under epsilon successors. -/
theorem epsilonClosure_subset {g : Store} (hwf : StoreWF g) {T V : Finset Nat}
    (hTkeys : ∀ x ∈ T, x ∈ g.keys) (hTV : T ⊆ V)
    (hVcl : ∀ x ∈ V, ∀ y ∈ g.epsSuccs x, y ∈ V) :
    epsilonClosure g T ⊆ V := by
  have haux : ∀ t x, Relation.ReflTransGen (epsStep g) t x → t ∈ V → x ∈ V := by
    intro t x hr
    induction hr with
    | refl => exact fun h => h
    | tail h1 h2 ih => exact fun h => hVcl _ (ih h) _ h2
  intro x hx
  obtain ⟨-, -, hiff⟩ := epsilonClosure_spec g T hwf hTkeys
  obtain ⟨t, ht, hr⟩ := (hiff x).mp hx
  exact haux t x hr (hTV ht)

theorem move_subset_keys {g : Store} (hwf : StoreWF g) (S : Finset Nat)
    (a : Char) : ∀ y ∈ move g S a, y ∈ g.keys := by
  intro y hy
  obtain ⟨s, _, hy⟩ := Finset.mem_biUnion.mp hy
  exact edgeTargets_mem_keys hwf s a y (List.mem_toFinset.mp hy)

theorem table_card_bound (t : List DFAState) (V : Finset Nat)
    (h1 : (tableKeys t).Nodup) (h2 : TableSub V t) :
    t.length ≤ 2 ^ V.card := by
  have hsub : (tableKeys t).toFinset ⊆ V.powerset := by
    intro k hk
    obtain ⟨st, hst, rfl⟩ := List.mem_map.mp (List.mem_toFinset.mp hk)
    exact Finset.mem_powerset.mpr (h2 st hst)
  have hlen : (tableKeys t).length = (tableKeys t).toFinset.card :=
    (List.toFinset_card_of_nodup h1).symm
  calc t.length = (tableKeys t).length := by simp [tableKeys]
    _ = (tableKeys t).toFinset.card := hlen
    _ ≤ V.powerset.card := Finset.card_le_card hsub
    _ = 2 ^ V.card := Finset.card_powerset V

theorem dfaSymbolStep_sub (g : Store) (na db cur : Nat) (V : Finset Nat)
    (hstep : ∀ (S : Finset Nat), S ⊆ V → ∀ a : Char,
      epsilonClosure g (move g S a) ⊆ V)
    (acc : List DFAState × List Nat) (a : Char) (h : TableSub V acc.1) :
    TableSub V (dfaSymbolStep g na db cur acc a).1 := by
  unfold dfaSymbolStep
  cases hcur : acc.1[cur]? with
  | none => exact h
  | some st =>
    dsimp only
    have hst : st ∈ acc.1 := List.mem_iff_getElem?.mpr ⟨cur, hcur⟩
    have hnxtV : epsilonClosure g (move g st.nfa_states a) ⊆ V :=
      hstep st.nfa_states (h st hst) a
    by_cases hemp : epsilonClosure g (move g st.nfa_states a) = ∅
    · rw [if_pos hemp]
      exact h
    rw [if_neg hemp]
    cases hfind : findSubset acc.1 (epsilonClosure g (move g st.nfa_states a)) with
    | some j =>
      intro x hx
      rcases setTrans_mem hx with hmem | ⟨y, hy, rfl⟩
      · exact h x hmem
      · exact h y hy
    | none =>
      intro x hx
      rcases setTrans_mem hx with hmem | ⟨y, hy, rfl⟩
      · rcases List.mem_append.mp hmem with hmem | hmem
        · exact h x hmem
        · rcases List.mem_singleton.mp hmem with rfl
          exact hnxtV
      · rcases List.mem_append.mp hy with hy | hy
        · exact h y hy
        · rcases List.mem_singleton.mp hy with rfl
          exact hnxtV

theorem dfaSymbolStep_count (g : Store) (na db cur : Nat)
    (acc : List DFAState × List Nat) (a : Char) (base : Nat)
    (h : acc.1.length = base + acc.2.length) :
    (dfaSymbolStep g na db cur acc a).1.length =
      base + (dfaSymbolStep g na db cur acc a).2.length := by
  unfold dfaSymbolStep
  cases hcur : acc.1[cur]? with
  | none => exact h
  | some st =>
    dsimp only
    by_cases hemp : epsilonClosure g (move g st.nfa_states a) = ∅
    · rw [if_pos hemp]
      exact h
    rw [if_neg hemp]
    cases hfind : findSubset acc.1 (epsilonClosure g (move g st.nfa_states a)) with
    | some j =>
      rw [setTrans_length]
      exact h
    | none =>
      rw [setTrans_length]
      simp only [List.length_append, List.length_cons, List.length_nil]
      omega

theorem dfaLoop_term (g : Store) (na : Nat) (al : List Char) (db : Nat)
    (V : Finset Nat)
    (hstep : ∀ (S : Finset Nat), S ⊆ V → ∀ a : Char,
      epsilonClosure g (move g S a) ⊆ V) :
    ∀ (fuel : Nat) (table : List DFAState) (wl : List Nat),
      TableInv table → TableSub V table →
      (2 ^ V.card - table.length) + wl.length < fuel →
      ∃ l, dfaLoop g na al db fuel table wl = some l ∧
        TableInv l ∧ TableSub V l := by
  intro fuel
  induction fuel with
  | zero =>
    intro table wl _ _ hm
    exact absurd hm (Nat.not_lt_zero _)
  | succ fuel ih =>
    intro table wl hinv hsubV hm
    cases wl with
    | nil => exact ⟨table, rfl, hinv, hsubV⟩
    | cons cur rest =>
      rw [dfaLoop]
      have hfold := foldl_inv
        (fun (acc : List DFAState × List Nat) =>
          TableInv acc.1 ∧ TableSub V acc.1 ∧
            acc.1.length = table.length + acc.2.length)
        (dfaSymbolStep g na db cur) ?_ al (table, [])
        ⟨hinv, hsubV, rfl⟩
      · obtain ⟨hinv1, hsub1, hlen1⟩ := hfold
        have hbound : (al.foldl (dfaSymbolStep g na db cur) (table, [])).1.length
            ≤ 2 ^ V.card := table_card_bound _ V hinv1.1 hsub1
        refine ih _ _ hinv1 hsub1 ?_
        simp only [List.length_append]
        simp only [List.length_cons] at hm
        omega
      · rintro s a ⟨h1, h2, h3⟩
        exact ⟨dfaSymbolStep_inv g na db cur s a h1,
          dfaSymbolStep_sub g na db cur V hstep s a h2,
          dfaSymbolStep_count g na db cur s a table.length h3⟩

/-- Termination and size bound of the subset construction on a well-formed
store, reused by several results below. -/
theorem nfaToDfa_terminates (g : Store) (ns na : Nat)
    (al : List Char) (db : Nat) (hwf : StoreWF g) (hns : ns ∈ g.keys) :
    ∃ l, nfaToDfa g ns na al db = some l ∧
      l.length ≤ 2 ^ (reachableSet g ns).card := by
  obtain ⟨hsR, hRkeys, hRcl⟩ := reachableSet_spec hwf hns
  have hReps : ∀ x ∈ reachableSet g ns, ∀ y ∈ g.epsSuccs x,
      y ∈ reachableSet g ns :=
    fun x hx y hy => hRcl x hx y (epsSuccs_sub_allSuccs g x y hy)
  have hRedge : ∀ x ∈ reachableSet g ns, ∀ a, ∀ y ∈ g.edgeTargets x a,
      y ∈ reachableSet g ns :=
    fun x hx a y hy => hRcl x hx y (edgeTargets_sub_allSuccs g x a y hy)
  have hstep : ∀ (S : Finset Nat), S ⊆ reachableSet g ns → ∀ a : Char,
      epsilonClosure g (move g S a) ⊆ reachableSet g ns := by
    intro S hS a
    refine epsilonClosure_subset hwf (move_subset_keys hwf S a) ?_ hReps
    intro x hx
    obtain ⟨s, hsS, hx⟩ := Finset.mem_biUnion.mp hx
    exact hRedge s (hS hsS) a x (List.mem_toFinset.mp hx)
  have hstart : epsilonClosure g {ns} ⊆ reachableSet g ns := by
    refine epsilonClosure_subset hwf ?_ ?_ hReps
    · intro x hx
      rcases Finset.mem_singleton.mp hx with rfl
      exact hns
    · intro x hx
      rcases Finset.mem_singleton.mp hx with rfl
      exact hsR
  have hinv0 : TableInv [⟨db, epsilonClosure g {ns}, [],
      na ∈ epsilonClosure g {ns}⟩] := by
    constructor
    · simp [tableKeys]
    · intro st hst p hp
      rcases List.mem_singleton.mp hst with rfl
      cases hp
  have hsub0 : TableSub (reachableSet g ns)
      [⟨db, epsilonClosure g {ns}, [], na ∈ epsilonClosure g {ns}⟩] := by
    intro st hst
    rcases List.mem_singleton.mp hst with rfl
    exact hstart
  have hcard : (reachableSet g ns).card ≤ g.length := by
    calc (reachableSet g ns).card ≤ g.keyset.card :=
        Finset.card_le_card (fun x hx => hRkeys x hx)
      _ ≤ g.keys.length := List.toFinset_card_le _
      _ = g.length := by simp [Store.keys]
  have hpow : 2 ^ (reachableSet g ns).card ≤ 2 ^ g.length :=
    Nat.pow_le_pow_right (by omega) hcard
  have hone : 1 ≤ 2 ^ (reachableSet g ns).card := Nat.one_le_two_pow
  obtain ⟨l, hl, hinv, hsub⟩ :=
    dfaLoop_term g na al db (reachableSet g ns) hstep (2 ^ g.length + 1)
      [⟨db, epsilonClosure g {ns}, [], na ∈ epsilonClosure g {ns}⟩] [0]
      hinv0 hsub0
      (by simp only [List.length_singleton, List.length_cons, List.length_nil]; omega)
  exact ⟨l, hl, table_card_bound l _ hinv.1 hsub⟩

/-- C6: on a well-formed store the subset construction's worklist loop
terminates within its fuel, and the number of DFA states it creates is at most
two to the number of NFA states reachable from the NFA start state. -/
theorem c6_subset_construction_terminates (g : Store) (ns na : Nat)
    (al : List Char) (db : Nat) (hwf : StoreWF g) (hns : ns ∈ g.keys) :
    ∃ l, nfaToDfa g ns na al db = some l ∧
      l.length ≤ 2 ^ (reachableSet g ns).card :=
  nfaToDfa_terminates g ns na al db hwf hns

/-- Witness for C6: the theorem applies to the example store with the epsilon
cycle, from its start state. -/
theorem c6_subset_construction_terminates_witness :
    (StoreWF exStoreCyc ∧ 4 ∈ exStoreCyc.keys) ∧
    ∃ l, nfaToDfa exStoreCyc 4 5 ['a'] 0 = some l ∧
      l.length ≤ 2 ^ (reachableSet exStoreCyc 4).card :=
  ⟨⟨by decide, by decide⟩,
    c6_subset_construction_terminates exStoreCyc 4 5 ['a'] 0
      (by decide) (by decide)⟩

theorem move_empty (g : Store) (a : Char) : move g ∅ a = ∅ := by
  simp [move]

theorem epsilonClosure_empty (g : Store) :
    epsilonClosure g (∅ : Finset Nat) = ∅ := by
  have h : enumElems g (∅ : Finset Nat) = [] := by
    simp [enumElems]
  unfold epsilonClosure
  rw [h]
  have h2 : closureLoop g.epsSuccs ((∅ : Finset Nat).card + g.length + 1) []
      (∅ : Finset Nat) = some ∅ := by
    rw [closureLoop]
  rw [h2]
  rfl

theorem stepSet_empty (g : Store) (a : Char) : stepSet g ∅ a = ∅ := by
  unfold stepSet
  rw [move_empty, epsilonClosure_empty]

theorem foldl_stepSet_empty (g : Store) (s : List Char) :
    s.foldl (stepSet g) ∅ = ∅ := by
  induction s with
  | nil => rfl
  | cons a s ih =>
    rw [List.foldl_cons, stepSet_empty]
    exact ih

theorem tableSig_length (t : List DFAState) : (tableSig t).length = t.length := by
  simp [tableSig]

theorem sig_prefix_getElem {t t' : List DFAState}
    (h : (tableSig t).IsPrefix (tableSig t')) {i : Nat} {st : DFAState}
    (hst : t[i]? = some st) :
    ∃ st', t'[i]? = some st' ∧ st'.id = st.id ∧
      st'.nfa_states = st.nfa_states ∧ st'.is_accept = st.is_accept := by
  have hi : i < t.length := by
    by_contra hge
    rw [List.getElem?_eq_none (Nat.le_of_not_lt hge)] at hst
    cases hst
  obtain ⟨ext, hext⟩ := h
  have h1 : (tableSig t)[i]? = some (st.id, st.nfa_states, st.is_accept) := by
    unfold tableSig
    rw [List.getElem?_map, hst]
    rfl
  have h2 : (tableSig t')[i]? = some (st.id, st.nfa_states, st.is_accept) := by
    rw [← hext, List.getElem?_append_left (by rwa [tableSig_length]), h1]
  unfold tableSig at h2
  rw [List.getElem?_map] at h2
  cases hst' : t'[i]? with
  | none =>
    rw [hst'] at h2
    cases h2
  | some st' =>
    rw [hst'] at h2
    simp only [Option.map_some', Option.some.injEq, Prod.mk.injEq] at h2
    exact ⟨st', rfl, h2.1, h2.2.1, h2.2.2⟩

theorem accInv_setTrans {na : Nat} {t : List DFAState} (h : AccInv na t)
    (i : Nat) (a : Char) (j : Nat) : AccInv na (setTrans t i a j) := by
  intro x hx
  rcases setTrans_mem hx with hmem | ⟨y, hy, rfl⟩
  · exact h x hmem
  · exact h y hy

theorem find?_append_none {α : Type} {p : α → Bool} {l1 l2 : List α}
    (h1 : l1.find? p = none) : (l1 ++ l2).find? p = l2.find? p := by
  rw [List.find?_append, h1]
  rfl

theorem find?_symbol_none {a : Char} {ext : List (Char × Nat)}
    (h : ∀ p ∈ ext, p.1 ≠ a) : ext.find? (fun p => p.1 = a) = none := by
  rw [List.find?_eq_none]
  intro p hp
  simp only [decide_eq_true_eq]
  exact h p hp

theorem dfaSymbolStep_accInv (g : Store) (na db cur : Nat)
    (acc : List DFAState × List Nat) (a : Char) (h : AccInv na acc.1) :
    AccInv na (dfaSymbolStep g na db cur acc a).1 := by
  unfold dfaSymbolStep
  cases hcur : acc.1[cur]? with
  | none => exact h
  | some st =>
    dsimp only
    by_cases hemp : epsilonClosure g (move g st.nfa_states a) = ∅
    · rw [if_pos hemp]
      exact h
    rw [if_neg hemp]
    cases hfind : findSubset acc.1 (epsilonClosure g (move g st.nfa_states a)) with
    | some j => exact accInv_setTrans h cur a j
    | none =>
      intro x hx
      rcases setTrans_mem hx with hmem | ⟨y, hy, rfl⟩
      · rcases List.mem_append.mp hmem with hmem | hmem
        · exact h x hmem
        · rcases List.mem_singleton.mp hmem with rfl
          rfl
      · rcases List.mem_append.mp hy with hy | hy
        · exact h y hy
        · rcases List.mem_singleton.mp hy with rfl
          rfl

theorem dfaSymbolStep_full (g : Store) (na db cur : Nat)
    (t : List DFAState) (ids : List Nat) (a : Char)
    (st : DFAState) (hcur : t[cur]? = some st) :
    ∃ stMid,
      (dfaSymbolStep g na db cur (t, ids) a).1[cur]? = some stMid ∧
      stMid.nfa_states = st.nfa_states ∧
      stMid.is_accept = st.is_accept ∧
      t.length ≤ (dfaSymbolStep g na db cur (t, ids) a).1.length ∧
      (∀ i, i < t.length → i ≠ cur →
        (dfaSymbolStep g na db cur (t, ids) a).1[i]? = t[i]?) ∧
      ((stepSet g st.nfa_states a = ∅ ∧
          dfaSymbolStep g na db cur (t, ids) a = (t, ids)) ∨
        (stepSet g st.nfa_states a ≠ ∅ ∧ ∃ j stj,
          stMid.transitions = st.transitions ++ [(a, j)] ∧
          (dfaSymbolStep g na db cur (t, ids) a).1[j]? = some stj ∧
          stj.nfa_states = stepSet g st.nfa_states a ∧
          ((dfaSymbolStep g na db cur (t, ids) a).2 = ids ∧
              (dfaSymbolStep g na db cur (t, ids) a).1.length = t.length ∨
            (dfaSymbolStep g na db cur (t, ids) a).2 = t.length :: ids ∧
              (dfaSymbolStep g na db cur (t, ids) a).1.length = t.length + 1 ∧
              j = t.length ∧ stj.transitions = []))) := by
  have hcurlt : cur < t.length := by
    by_contra hge
    rw [List.getElem?_eq_none (Nat.le_of_not_lt hge)] at hcur
    cases hcur
  unfold dfaSymbolStep
  dsimp only
  rw [hcur]
  dsimp only
  by_cases hemp : epsilonClosure g (move g st.nfa_states a) = ∅
  · rw [if_pos hemp]
    exact ⟨st, hcur, rfl, rfl, Nat.le_refl _, fun i _ _ => rfl,
      Or.inl ⟨hemp, rfl⟩⟩
  rw [if_neg hemp]
  cases hfind : findSubset t (epsilonClosure g (move g st.nfa_states a)) with
  | some j =>
    dsimp only
    have hset : setTrans t cur a j =
        t.set cur ⟨st.id, st.nfa_states,
          st.transitions ++ [(a, j)], st.is_accept⟩ := by
      unfold setTrans
      rw [hcur]
    obtain ⟨y, hy, hyk⟩ := findSubset_some hfind
    have hjlt : j < t.length := by
      by_contra hge
      rw [List.getElem?_eq_none (Nat.le_of_not_lt hge)] at hy
      cases hy
    refine ⟨⟨st.id, st.nfa_states, st.transitions ++ [(a, j)], st.is_accept⟩,
      ?_, rfl, rfl, ?_, ?_, ?_⟩
    · rw [hset]
      rw [List.getElem?_set_self hcurlt]
    · rw [hset, List.length_set]
    · intro i hi hne
      rw [hset, List.getElem?_set_ne (fun h => hne h.symm)]
    · refine Or.inr ⟨hemp, ?_⟩
      by_cases hjc : j = cur
      · subst hjc
        have hyst : y = st := by
          rw [hcur] at hy
          exact (Option.some_inj.mp hy).symm
        refine ⟨j, ⟨st.id, st.nfa_states, st.transitions ++ [(a, j)],
          st.is_accept⟩, rfl, ?_, ?_, Or.inl ⟨rfl, by rw [hset, List.length_set]⟩⟩
        · rw [hset]
          rw [List.getElem?_set_self hjlt]
        · show st.nfa_states = epsilonClosure g (move g st.nfa_states a)
          rw [← hyk, hyst]
      · refine ⟨j, y, rfl, ?_, hyk, Or.inl ⟨rfl, by rw [hset, List.length_set]⟩⟩
        rw [hset, List.getElem?_set_ne (fun h => hjc h.symm)]
        exact hy
  | none =>
    dsimp only
    have happ : (t ++ [(⟨db + t.length,
        epsilonClosure g (move g st.nfa_states a), [],
        na ∈ epsilonClosure g (move g st.nfa_states a)⟩ : DFAState)])[cur]? =
        some st := by
      rw [List.getElem?_append_left hcurlt]
      exact hcur
    have hset : setTrans (t ++ [(⟨db + t.length,
        epsilonClosure g (move g st.nfa_states a), [],
        na ∈ epsilonClosure g (move g st.nfa_states a)⟩ : DFAState)]) cur a
        t.length =
        (t ++ [(⟨db + t.length, epsilonClosure g (move g st.nfa_states a), [],
          na ∈ epsilonClosure g (move g st.nfa_states a)⟩ : DFAState)]).set cur
          ⟨st.id, st.nfa_states, st.transitions ++ [(a, t.length)],
            st.is_accept⟩ := by
      unfold setTrans
      rw [happ]
    have hlen : (t ++ [(⟨db + t.length,
        epsilonClosure g (move g st.nfa_states a), [],
        na ∈ epsilonClosure g (move g st.nfa_states a)⟩ : DFAState)]).length =
        t.length + 1 := by
      rw [List.length_append, List.length_singleton]
    have hcurlt2 : cur < t.length + 1 := Nat.lt_succ_of_lt hcurlt
    refine ⟨⟨st.id, st.nfa_states, st.transitions ++ [(a, t.length)],
      st.is_accept⟩, ?_, rfl, rfl, ?_, ?_, ?_⟩
    · rw [hset, List.getElem?_set_self (by rw [hlen]; exact hcurlt2)]
    · rw [hset, List.length_set, hlen]
      exact Nat.le_succ _
    · intro i hi hne
      rw [hset, List.getElem?_set_ne (fun h => hne h.symm),
        List.getElem?_append_left hi]
    · refine Or.inr ⟨hemp, t.length,
        (⟨db + t.length, epsilonClosure g (move g st.nfa_states a), [],
          na ∈ epsilonClosure g (move g st.nfa_states a)⟩ : DFAState),
        rfl, ?_, rfl, ?_⟩
      · rw [hset, List.getElem?_set_ne
          (fun h => Nat.lt_irrefl t.length (by rw [h] at hcurlt; exact hcurlt))]
        exact List.getElem?_concat_length t _
      · exact Or.inr ⟨rfl, by rw [hset, List.length_set, hlen], rfl, rfl⟩

theorem foldl_process (g : Store) (na db cur : Nat) :
    ∀ (todo : List Char) (t : List DFAState) (ids : List Nat) (st : DFAState),
      todo.Nodup → t[cur]? = some st →
      (∀ a ∈ todo, st.transitions.find? (fun p => p.1 = a) = none) →
      (∀ i ∈ ids, i < t.length) → ids.Nodup →
      FoldRes g cur todo t ids st
        (todo.foldl (dfaSymbolStep g na db cur) (t, ids)) := by
  intro todo
  induction todo with
  | nil =>
    intro t ids st _ hcur _ hids hnd
    refine ⟨Nat.le_refl _, fun i _ _ => rfl, ?_, ?_, fun i h => h, hnd, hids,
      st, hcur, rfl, rfl, ⟨[], by simp, by simp⟩, by simp⟩
    · intro i h1 h2
      exact absurd h2 (Nat.not_lt_of_le h1)
    · intro i hi
      exact Or.inl hi
  | cons a todo ih =>
    intro t ids st hnodup hcur hfresh hids hnd
    have hanotin : a ∉ todo := (List.nodup_cons.mp hnodup).1
    have htodond : todo.Nodup := (List.nodup_cons.mp hnodup).2
    have hcurlt : cur < t.length := by
      by_contra hge
      rw [List.getElem?_eq_none (Nat.le_of_not_lt hge)] at hcur
      cases hcur
    obtain ⟨stMid, hcur1, hsubMid, haccMid, hlen1, hother1, hcase⟩ :=
      dfaSymbolStep_full g na db cur t ids a st hcur
    rw [List.foldl_cons]
    rcases hcase with ⟨hempA, heq⟩ | ⟨hne, j0, stj0, hmidtr, hj0, hstj0sub, hbook⟩
    · rw [heq]
      obtain ⟨f1, f2, f3, f4, f5, f6, f7, stN, hstN, hsub, hacc, ⟨ext, hext,
        hextsym⟩, hspec⟩ :=
        ih t ids st htodond hcur
          (fun b hb => hfresh b (List.mem_cons_of_mem a hb)) hids hnd
      refine ⟨f1, f2, f3, f4, f5, f6, f7, stN, hstN, hsub, hacc,
        ⟨ext, hext, fun p hp => List.mem_cons_of_mem a (hextsym p hp)⟩, ?_⟩
      intro b hb
      rcases List.mem_cons.mp hb with rfl | hb
      · constructor
        · intro _
          have hx : ext.find? (fun p => p.1 = b) = none :=
            find?_symbol_none (fun p hp hpb => hanotin (hpb ▸ hextsym p hp))
          rw [hext, List.find?_append, hfresh b (List.mem_cons_self b todo), hx]
          rfl
        · intro hne2
          exact absurd hempA hne2
      · exact hspec b hb
    · have hmid1 : (dfaSymbolStep g na db cur (t, ids) a).1[cur]? = some stMid :=
        hcur1
      have hfresh1 : ∀ b ∈ todo,
          stMid.transitions.find? (fun p => p.1 = b) = none := by
        intro b hb
        have hx : ([(a, j0)] : List (Char × Nat)).find? (fun p => p.1 = b) =
            none := by
          refine find?_symbol_none ?_
          intro p hp
          rcases List.mem_singleton.mp hp with rfl
          intro hab
          have hab2 : a = b := hab
          refine hanotin ?_
          rw [hab2]
          exact hb
        rw [hmidtr, List.find?_append,
          hfresh b (List.mem_cons_of_mem a hb), hx]
        rfl
      have hids1 : ∀ i ∈ (dfaSymbolStep g na db cur (t, ids) a).2,
          i < (dfaSymbolStep g na db cur (t, ids) a).1.length := by
        rcases hbook with ⟨hid, hln⟩ | ⟨hid, hln, _, _⟩
        · rw [hid, hln]
          exact hids
        · rw [hid, hln]
          intro i hi
          rcases List.mem_cons.mp hi with rfl | hi
          · exact Nat.lt_succ_self _
          · exact Nat.lt_succ_of_lt (hids i hi)
      have hnd1 : (dfaSymbolStep g na db cur (t, ids) a).2.Nodup := by
        rcases hbook with ⟨hid, _⟩ | ⟨hid, _, _, _⟩
        · rw [hid]
          exact hnd
        · rw [hid]
          exact List.nodup_cons.mpr
            ⟨fun h => Nat.lt_irrefl _ (hids _ h), hnd⟩
      obtain ⟨f1, f2, f3, f4, f5, f6, f7, stN, hstN, hsub, hacc, ⟨ext, hext,
        hextsym⟩, hspec⟩ :=
        ih (dfaSymbolStep g na db cur (t, ids) a).1
          (dfaSymbolStep g na db cur (t, ids) a).2 stMid htodond hmid1
          hfresh1 hids1 hnd1
      have hlenA : t.length ≤ (dfaSymbolStep g na db cur (t, ids) a).1.length :=
        hlen1
      refine ⟨Nat.le_trans hlenA f1, ?_, ?_, ?_, ?_, f6, f7,
        stN, hstN, by rw [hsub, hsubMid], by rw [hacc, haccMid], ?_, ?_⟩
      · intro i hi hne2
        rw [f2 i (Nat.lt_of_lt_of_le hi hlenA) hne2, hother1 i hi hne2]
      · intro i h1 h2
        by_cases h3 : i < (dfaSymbolStep g na db cur (t, ids) a).1.length
        · rcases hbook with ⟨hid, hln⟩ | ⟨hid, hln, _, _⟩
          · rw [hln] at h3
            exact absurd h3 (Nat.not_lt_of_le h1)
          · have : i = t.length := by
              rw [hln] at h3
              omega
            subst this
            refine f5 _ ?_
            rw [hid]
            exact List.mem_cons_self _ _
        · exact f3 i (Nat.le_of_not_lt h3) h2
      · intro i hi
        rcases f4 i hi with hi2 | ⟨h1, h2, h3⟩
        · rcases hbook with ⟨hid, hln⟩ | ⟨hid, hln, hj0len, htr0⟩
          · rw [hid] at hi2
            exact Or.inl hi2
          · rw [hid] at hi2
            rcases List.mem_cons.mp hi2 with rfl | hi2
            · refine Or.inr ⟨Nat.le_refl _, ?_, ?_⟩
              · exact Nat.lt_of_lt_of_le (by omega) f1
              · have hne3 : t.length ≠ cur := fun h =>
                  Nat.lt_irrefl t.length (h ▸ hcurlt)
                rw [f2 t.length (by omega) hne3]
                have : (dfaSymbolStep g na db cur (t, ids) a).1[t.length]? =
                    some stj0 := by
                  rw [← hj0len]
                  exact hj0
                rw [this]
                simp [htr0]
            · exact Or.inl hi2
        · refine Or.inr ⟨Nat.le_trans hlenA h1, h2, h3⟩
      · intro i hi
        refine f5 i ?_
        rcases hbook with ⟨hid, _⟩ | ⟨hid, _, _, _⟩
        · rw [hid]
          exact hi
        · rw [hid]
          exact List.mem_cons_of_mem _ hi
      · refine ⟨(a, j0) :: ext, ?_, ?_⟩
        · rw [hext, hmidtr, List.append_assoc]
          rfl
        · intro p hp
          rcases List.mem_cons.mp hp with rfl | hp
          · exact List.mem_cons_self _ _
          · exact List.mem_cons_of_mem a (hextsym p hp)
      · intro b hb
        rcases List.mem_cons.mp hb with rfl | hb
        · constructor
          · intro h
            exact absurd h hne
          · intro _
            have hfind : stN.transitions.find? (fun p => p.1 = b) =
                some (b, j0) := by
              have h1 : ([(b, j0)] : List (Char × Nat)).find?
                  (fun p => p.1 = b) = some (b, j0) := by
                simp [List.find?]
              rw [hext, hmidtr, List.find?_append, List.find?_append,
                hfresh b (List.mem_cons_self b todo), h1]
              rfl
            refine ⟨j0, ?_⟩
            by_cases hjc : j0 = cur
            · subst hjc
              have : stj0 = stMid := by
                rw [hj0] at hmid1
                exact Option.some_inj.mp hmid1.symm ▸ rfl
              refine ⟨stN, hfind, hstN, ?_⟩
              rw [hsub, hsubMid, ← hstj0sub, this, hsubMid]
            · have hj0lt : j0 < (dfaSymbolStep g na db cur (t, ids) b).1.length := by
                by_contra hge
                rw [List.getElem?_eq_none (Nat.le_of_not_lt hge)] at hj0
                cases hj0
              refine ⟨stj0, hfind, ?_, hstj0sub⟩
              rw [f2 j0 hj0lt hjc]
              exact hj0
        · have := hspec b hb
          rw [hsubMid] at this
          exact this

theorem processed_stable {g : Store} {al : List Char} {t t' : List DFAState}
    {i : Nat} (hp : Processed g al t i)
    (hsig : (tableSig t).IsPrefix (tableSig t'))
    (hkeep : t'[i]? = t[i]?) : Processed g al t' i := by
  intro st' hst' a ha
  have hst : t[i]? = some st' := by
    rw [← hkeep]
    exact hst'
  obtain ⟨h1, h2⟩ := hp st' hst a ha
  refine ⟨h1, ?_⟩
  intro hne
  obtain ⟨j, stj, hfind, hj, hsubj⟩ := h2 hne
  obtain ⟨stj', hj', _, hsub', _⟩ := sig_prefix_getElem hsig hj
  exact ⟨j, stj', hfind, hj', by rw [hsub', hsubj]⟩

theorem dfaLoop_accInv (g : Store) (na : Nat) (al : List Char) (db : Nat) :
    ∀ (fuel : Nat) (table : List DFAState) (wl : List Nat) (l : List DFAState),
      dfaLoop g na al db fuel table wl = some l → AccInv na table →
      AccInv na l := by
  intro fuel
  induction fuel with
  | zero => intro table wl l h; cases h
  | succ fuel ih =>
    intro table wl l h hacc
    cases wl with
    | nil =>
      cases h
      exact hacc
    | cons cur rest =>
      unfold dfaLoop at h
      exact ih _ _ _ h
        (foldl_inv (fun (acc : List DFAState × List Nat) => AccInv na acc.1) _
          (fun s a hs => dfaSymbolStep_accInv g na db cur s a hs)
          al (table, []) hacc)

theorem dfaLoop_processed (g : Store) (na : Nat) (al : List Char) (db : Nat)
    (hal : al.Nodup) :
    ∀ (fuel : Nat) (table : List DFAState) (wl : List Nat) (l : List DFAState),
      dfaLoop g na al db fuel table wl = some l →
      wl.Nodup →
      (∀ i ∈ wl, i < table.length ∧
        table[i]?.map (·.transitions) = some []) →
      (∀ i, i < table.length → i ∈ wl ∨ Processed g al table i) →
      ∀ i, i < l.length → Processed g al l i := by
  intro fuel
  induction fuel with
  | zero => intro table wl l h; cases h
  | succ fuel ih =>
    intro table wl l h hwnd hwl hproc
    cases wl with
    | nil =>
      cases h
      intro i hi
      rcases hproc i hi with hin | hp
      · exact absurd hin (List.not_mem_nil i)
      · exact hp
    | cons cur rest =>
      unfold dfaLoop at h
      have h' : dfaLoop g na al db fuel
          (al.foldl (dfaSymbolStep g na db cur) (table, [])).1
          ((al.foldl (dfaSymbolStep g na db cur) (table, [])).2 ++ rest) =
          some l := h
      obtain ⟨hcurlt, hcurtr⟩ := hwl cur (List.mem_cons_self cur rest)
      have hcurne : cur ∉ rest := (List.nodup_cons.mp hwnd).1
      have hrestnd : rest.Nodup := (List.nodup_cons.mp hwnd).2
      obtain ⟨stC, hstC, hstCtr⟩ : ∃ stC, table[cur]? = some stC ∧
          stC.transitions = [] := by
        cases hc : table[cur]? with
        | none =>
          rw [hc] at hcurtr
          cases hcurtr
        | some stC =>
          rw [hc] at hcurtr
          simp only [Option.map_some', Option.some.injEq] at hcurtr
          exact ⟨stC, rfl, hcurtr⟩
      have hfreshC : ∀ a ∈ al, stC.transitions.find? (fun p => p.1 = a) =
          none := by
        intro a _
        rw [hstCtr]
        rfl
      obtain ⟨f1, f2, f3, f4, f5, f6, f7, stN, hstN, hsubN, haccN,
        ⟨ext, hextN, hextsymN⟩, hspecN⟩ :=
        foldl_process g na db cur al table [] stC hal hstC hfreshC
          (fun i hi => absurd hi (List.not_mem_nil i)) List.nodup_nil
      have hsig : (tableSig table).IsPrefix
          (tableSig (al.foldl (dfaSymbolStep g na db cur) (table, [])).1) :=
        foldl_inv (fun (acc : List DFAState × List Nat) =>
            (tableSig table).IsPrefix (tableSig acc.1)) _
          (fun s a hs =>
            List.IsPrefix.trans hs (dfaSymbolStep_sig g na db cur s a))
          al (table, []) (List.prefix_refl _)
      refine ih _ _ _ h' ?_ ?_ ?_
      · refine List.Nodup.append f6 hrestnd ?_
        intro i hi1 hi2
        rcases f4 i hi1 with hin | ⟨hge, _, _⟩
        · exact absurd hin (List.not_mem_nil i)
        · exact Nat.lt_irrefl i
            (Nat.lt_of_lt_of_le ((hwl i (List.mem_cons_of_mem cur hi2)).1) hge)
      · intro i hi
        rcases List.mem_append.mp hi with hi | hi
        · refine ⟨f7 i hi, ?_⟩
          rcases f4 i hi with hin | ⟨_, _, htr⟩
          · exact absurd hin (List.not_mem_nil i)
          · exact htr
        · obtain ⟨hlt, htr⟩ := hwl i (List.mem_cons_of_mem cur hi)
          have hne : i ≠ cur := fun hh => hcurne (hh ▸ hi)
          refine ⟨Nat.lt_of_lt_of_le hlt f1, ?_⟩
          rw [f2 i hlt hne]
          exact htr
      · intro i hi
        by_cases hge : table.length ≤ i
        · exact Or.inl (List.mem_append_left rest (f3 i hge hi))
        have hlt : i < table.length := Nat.lt_of_not_le hge
        by_cases hic : i = cur
        · subst hic
          refine Or.inr ?_
          intro st' hst' a ha
          rw [hstN] at hst'
          rcases Option.some_inj.mp hst'.symm with rfl
          obtain ⟨h1, h2⟩ := hspecN a ha
          rw [hsubN]
          refine ⟨h1, ?_⟩
          intro hne
          exact h2 hne
        · rcases hproc i hlt with hin | hp
          · rcases List.mem_cons.mp hin with rfl | hin
            · exact absurd rfl hic
            · exact Or.inl (List.mem_append_right _ hin)
          · exact Or.inr (processed_stable hp hsig (f2 i hlt hic))

theorem dfaDrive_spec (g : Store) (na : Nat) (al : List Char)
    (l : List DFAState) (hacc : AccInv na l)
    (hproc : ∀ i, i < l.length → Processed g al l i) :
    ∀ (s : List Char) (i : Nat) (st : DFAState), l[i]? = some st →
      (∀ c ∈ s, c ∈ al) →
      (dfaDrive l i s = true ↔ na ∈ s.foldl (stepSet g) st.nfa_states) := by
  intro s
  induction s with
  | nil =>
    intro i st hst _
    rw [dfaDrive, hst]
    dsimp only
    have := hacc st (List.mem_iff_getElem?.mpr ⟨i, hst⟩)
    rw [this]
    simp
  | cons a s ihs =>
    intro i st hst hs
    have hilt : i < l.length := by
      by_contra hge
      rw [List.getElem?_eq_none (Nat.le_of_not_lt hge)] at hst
      cases hst
    have ha : a ∈ al := hs a (List.mem_cons_self a s)
    obtain ⟨h1, h2⟩ := hproc i hilt st hst a ha
    rw [dfaDrive, hst]
    dsimp only
    by_cases hemp : stepSet g st.nfa_states a = ∅
    · rw [h1 hemp]
      rw [List.foldl_cons, hemp, foldl_stepSet_empty]
      simp
    · obtain ⟨j, stj, hfind, hj, hsubj⟩ := h2 hemp
      rw [hfind]
      dsimp only
      rw [List.foldl_cons, ← hsubj]
      exact ihs j stj hj (fun c hc => hs c (List.mem_cons_of_mem a hc))

/-- The central correctness theorem of the subset construction: whenever
`nfa_to_dfa` returns a table and the string uses only alphabet symbols, the
recognition driver accepts the string exactly when the NFA accepts it under
the standard subset semantics. -/
theorem nfaToDfa_drive_correct (g : Store) (ns na : Nat) (al : List Char)
    (db : Nat) (hal : al.Nodup) (l : List DFAState)
    (hl : nfaToDfa g ns na al db = some l)
    (s : List Char) (hs : ∀ c ∈ s, c ∈ al) :
    (dfaAccepts l s = true ↔ nfaSetAccepts g ns na s) := by
  unfold nfaToDfa at hl
  have hacc : AccInv na l := by
    refine dfaLoop_accInv g na al db _ _ _ _ hl ?_
    intro st hst
    rcases List.mem_singleton.mp hst with rfl
    rfl
  have hproc : ∀ i, i < l.length → Processed g al l i := by
    refine dfaLoop_processed g na al db hal _ _ _ _ hl ?_ ?_ ?_
    · exact List.nodup_singleton 0
    · intro i hi
      rcases List.mem_singleton.mp hi with rfl
      exact ⟨by simp, by simp⟩
    · intro i hi
      simp only [List.length_singleton] at hi
      interval_cases i
      · exact Or.inl (List.mem_singleton_self 0)
  have hsig := dfaLoop_sig_prefix g na al db _ _ _ _ hl
  have hhead : ∃ st0, l[0]? = some st0 ∧
      st0.nfa_states = epsilonClosure g {ns} := by
    obtain ⟨st0, hst0, _, hsub0, _⟩ := @sig_prefix_getElem _ _ hsig 0
      ⟨db, epsilonClosure g {ns}, [], na ∈ epsilonClosure g {ns}⟩ (by simp)
    exact ⟨st0, hst0, hsub0⟩
  obtain ⟨st0, hst0, hsub0⟩ := hhead
  unfold dfaAccepts nfaSetAccepts
  rw [dfaDrive_spec g na al l hacc hproc s 0 st0 hst0 hs, hsub0]

theorem keys_modify (g : Store) (i : Nat) (f : StateRec → StateRec) :
    (g.modify i f).keys = g.keys := by
  unfold Store.modify Store.keys
  rw [List.map_map]
  refine List.map_congr_left ?_
  intro p _
  by_cases h : p.1 = i
  · simp [h]
  · simp [h]

theorem mem_modify {g : Store} {i : Nat} {f : StateRec → StateRec} {p}
    (hp : p ∈ g.modify i f) : p ∈ g ∨ ∃ q ∈ g, p = (q.1, f q.2) := by
  unfold Store.modify at hp
  obtain ⟨q, hq, hpq⟩ := List.mem_map.mp hp
  by_cases h : q.1 = i
  · rw [if_pos h] at hpq
    exact Or.inr ⟨q, hq, hpq.symm⟩
  · rw [if_neg h] at hpq
    exact Or.inl (hpq ▸ hq)

theorem storeWF_addEps {g : Store} {i : Nat} {qs : List Nat}
    (hwf : StoreWF g) (hqs : ∀ q ∈ qs, q ∈ g.keys) :
    StoreWF (g.addEps i qs) := by
  unfold Store.addEps
  refine ⟨by rw [keys_modify]; exact hwf.1, ?_⟩
  intro p hp
  rw [keys_modify]
  rcases mem_modify hp with hp | ⟨q, hq, rfl⟩
  · exact hwf.2 p hp
  · refine ⟨?_, (hwf.2 q hq).2⟩
    intro e he
    rcases List.mem_append.mp he with he | he
    · exact (hwf.2 q hq).1 e he
    · exact hqs e he

theorem storeWF_setEdge {g : Store} {i : Nat} {c : Char} {ts : List Nat}
    (hwf : StoreWF g) (hts : ∀ q ∈ ts, q ∈ g.keys) :
    StoreWF (g.setEdge i c ts) := by
  unfold Store.setEdge
  refine ⟨by rw [keys_modify]; exact hwf.1, ?_⟩
  intro p hp
  rw [keys_modify]
  rcases mem_modify hp with hp | ⟨q, hq, rfl⟩
  · exact hwf.2 p hp
  · refine ⟨(hwf.2 q hq).1, ?_⟩
    intro e he t ht
    rcases List.mem_append.mp he with he | he
    · exact (hwf.2 q hq).2 e he t ht
    · rcases List.mem_singleton.mp he with rfl
      exact hts t ht

theorem storeWF_alloc {g : Store} {cnt : Nat}
    (hwf : StoreWF g) (hbound : ∀ k ∈ g.keys, k < cnt) :
    StoreWF (g ++ [(cnt, ⟨[], []⟩)]) := by
  constructor
  · have : (g ++ [(cnt, (⟨[], []⟩ : StateRec))]).keys = g.keys ++ [cnt] := by
      unfold Store.keys
      simp
    rw [this]
    refine List.Nodup.append hwf.1 (List.nodup_singleton _) ?_
    intro k hk hk2
    rcases List.mem_singleton.mp hk2 with rfl
    exact Nat.lt_irrefl k (hbound k hk)
  · intro p hp
    have hkeys : (g ++ [(cnt, (⟨[], []⟩ : StateRec))]).keys =
        g.keys ++ [cnt] := by
      unfold Store.keys
      simp
    rw [hkeys]
    rcases List.mem_append.mp hp with hp | hp
    · exact ⟨fun e he => List.mem_append_left _ ((hwf.2 p hp).1 e he),
        fun q hq t ht => List.mem_append_left _ ((hwf.2 p hp).2 q hq t ht)⟩
    · rcases List.mem_singleton.mp hp with rfl
      exact ⟨fun e he => absurd he (List.not_mem_nil e),
        fun q hq => absurd hq (List.not_mem_nil q)⟩

theorem keys_alloc (g : Store) (cnt : Nat) :
    (g ++ [(cnt, (⟨[], []⟩ : StateRec))]).keys = g.keys ++ [cnt] := by
  unfold Store.keys
  simp

theorem buildStep_inv {c : Char} {g : Store} {cnt : Nat} {frags : List NFAFrag}
    {g1 : Store} {cnt1 : Nat} {frags1 : List NFAFrag}
    (h : buildStep c g cnt frags = Except.ok (g1, cnt1, frags1))
    (hinv : BuildInv g cnt frags) : BuildInv g1 cnt1 frags1 := by
  obtain ⟨hwf, hbound, hfr⟩ := hinv
  unfold buildStep at h
  by_cases hc1 : c.isAlphanum
  · rw [if_pos hc1] at h
    simp only [Store.alloc, Except.ok.injEq, Prod.mk.injEq] at h
    obtain ⟨hg, hcnt, hfrg⟩ := h
    subst hg
    subst hcnt
    subst hfrg
    have hb1 : ∀ k ∈ (g ++ [(cnt, (⟨[], []⟩ : StateRec))]).keys, k < cnt + 1 := by
      rw [keys_alloc]
      intro k hk
      rcases List.mem_append.mp hk with hk | hk
      · exact Nat.lt_succ_of_lt (hbound k hk)
      · rcases List.mem_singleton.mp hk with rfl
        exact Nat.lt_succ_self _
    have hwf2 : StoreWF ((g ++ [(cnt, ⟨[], []⟩)]) ++ [(cnt + 1, ⟨[], []⟩)]) :=
      storeWF_alloc (storeWF_alloc hwf hbound) hb1
    have hkeys2 : ((g ++ [(cnt, (⟨[], []⟩ : StateRec))]) ++
        [(cnt + 1, (⟨[], []⟩ : StateRec))]).keys = (g.keys ++ [cnt]) ++
        [cnt + 1] := by
      rw [keys_alloc, keys_alloc]
    refine ⟨?_, ?_, ?_⟩
    · refine storeWF_setEdge hwf2 ?_
      intro q hq
      rcases List.mem_singleton.mp hq with rfl
      rw [hkeys2]
      exact List.mem_append_right _ (List.mem_singleton_self _)
    · unfold Store.setEdge
      rw [keys_modify, hkeys2]
      intro k hk
      rcases List.mem_append.mp hk with hk | hk
      · rcases List.mem_append.mp hk with hk | hk
        · exact Nat.lt_succ_of_lt (Nat.lt_succ_of_lt (hbound k hk))
        · rcases List.mem_singleton.mp hk with rfl
          omega
      · rcases List.mem_singleton.mp hk with rfl
        omega
    · intro f hf
      unfold Store.setEdge
      rw [keys_modify, hkeys2]
      rcases List.mem_cons.mp hf with rfl | hf
      · constructor
        · exact List.mem_append_left _ (List.mem_append_right _
            (List.mem_singleton_self _))
        · exact List.mem_append_right _ (List.mem_singleton_self _)
      · obtain ⟨h1, h2⟩ := hfr f hf
        exact ⟨List.mem_append_left _ (List.mem_append_left _ h1),
          List.mem_append_left _ (List.mem_append_left _ h2)⟩
  · rw [if_neg hc1] at h
    by_cases hc2 : c = '.'
    · rw [if_pos hc2] at h
      cases frags with
      | nil => cases h
      | cons nfa2 rest1 =>
        cases rest1 with
        | nil => cases h
        | cons nfa1 rest =>
          simp only [Except.ok.injEq, Prod.mk.injEq] at h
          obtain ⟨hg, hcnt, hfrg⟩ := h
          subst hg
          subst hcnt
          subst hfrg
          have h1 := hfr nfa1 (List.mem_cons_of_mem _ (List.mem_cons_self _ _))
          have h2 := hfr nfa2 (List.mem_cons_self _ _)
          refine ⟨storeWF_addEps hwf ?_, ?_, ?_⟩
          · intro q hq
            rcases List.mem_singleton.mp hq with rfl
            exact h2.1
          · unfold Store.addEps
            rw [keys_modify]
            exact hbound
          · intro f hf
            unfold Store.addEps
            rw [keys_modify]
            rcases List.mem_cons.mp hf with rfl | hf
            · exact ⟨h1.1, h2.2⟩
            · exact hfr f (List.mem_cons_of_mem _ (List.mem_cons_of_mem _ hf))
    · rw [if_neg hc2] at h
      by_cases hc3 : c = '|'
      · rw [if_pos hc3] at h
        cases frags with
        | nil => cases h
        | cons nfa2 rest1 =>
          cases rest1 with
          | nil => cases h
          | cons nfa1 rest =>
            simp only [Store.alloc, Except.ok.injEq, Prod.mk.injEq] at h
            obtain ⟨hg, hcnt, hfrg⟩ := h
            subst hg
            subst hcnt
            subst hfrg
            have h1 := hfr nfa1
              (List.mem_cons_of_mem _ (List.mem_cons_self _ _))
            have h2 := hfr nfa2 (List.mem_cons_self _ _)
            have hb1 : ∀ k ∈ (g ++ [(cnt, (⟨[], []⟩ : StateRec))]).keys,
                k < cnt + 1 := by
              rw [keys_alloc]
              intro k hk
              rcases List.mem_append.mp hk with hk | hk
              · exact Nat.lt_succ_of_lt (hbound k hk)
              · rcases List.mem_singleton.mp hk with rfl
                exact Nat.lt_succ_self _
            have hwf2 : StoreWF ((g ++ [(cnt, ⟨[], []⟩)]) ++
                [(cnt + 1, ⟨[], []⟩)]) :=
              storeWF_alloc (storeWF_alloc hwf hbound) hb1
            have hkeys2 : ((g ++ [(cnt, (⟨[], []⟩ : StateRec))]) ++
                [(cnt + 1, (⟨[], []⟩ : StateRec))]).keys =
                (g.keys ++ [cnt]) ++ [cnt + 1] := by
              rw [keys_alloc, keys_alloc]
            have hmemk : ∀ x ∈ g.keys, x ∈ ((g ++ [(cnt, (⟨[], []⟩ : StateRec))]) ++
                [(cnt + 1, (⟨[], []⟩ : StateRec))]).keys := by
              intro x hx
              rw [hkeys2]
              exact List.mem_append_left _ (List.mem_append_left _ hx)
            have hcntk : cnt ∈ ((g ++ [(cnt, (⟨[], []⟩ : StateRec))]) ++
                [(cnt + 1, (⟨[], []⟩ : StateRec))]).keys := by
              rw [hkeys2]
              exact List.mem_append_left _ (List.mem_append_right _
                (List.mem_singleton_self _))
            have hcnt1k : cnt + 1 ∈ ((g ++ [(cnt, (⟨[], []⟩ : StateRec))]) ++
                [(cnt + 1, (⟨[], []⟩ : StateRec))]).keys := by
              rw [hkeys2]
              exact List.mem_append_right _ (List.mem_singleton_self _)
            have hwf3 := @storeWF_addEps _ cnt [nfa1.start, nfa2.start] hwf2
              (by
                intro q hq
                rcases List.mem_cons.mp hq with rfl | hq
                · exact hmemk _ h1.1
                · rcases List.mem_singleton.mp hq with rfl
                  exact hmemk _ h2.1)
            have hkeys3 : (((g ++ [(cnt, (⟨[], []⟩ : StateRec))]) ++
                [(cnt + 1, (⟨[], []⟩ : StateRec))]).addEps cnt
                  [nfa1.start, nfa2.start]).keys =
                ((g ++ [(cnt, (⟨[], []⟩ : StateRec))]) ++
                [(cnt + 1, (⟨[], []⟩ : StateRec))]).keys := by
              unfold Store.addEps
              rw [keys_modify]
            have hwf4 := @storeWF_addEps _ nfa1.accept [cnt + 1] hwf3
              (by
                intro q hq
                rcases List.mem_singleton.mp hq with rfl
                rw [hkeys3]
                exact hcnt1k)
            have hkeys4 : ∀ (gg : Store) (i : Nat) (qs : List Nat),
                (gg.addEps i qs).keys = gg.keys := by
              intro gg i qs
              unfold Store.addEps
              rw [keys_modify]
            refine ⟨storeWF_addEps hwf4 ?_, ?_, ?_⟩
            · intro q hq
              rcases List.mem_singleton.mp hq with rfl
              rw [hkeys4, hkeys4]
              exact hcnt1k
            · rw [hkeys4, hkeys4, hkeys4, hkeys2]
              intro k hk
              rcases List.mem_append.mp hk with hk | hk
              · rcases List.mem_append.mp hk with hk | hk
                · exact Nat.lt_succ_of_lt (Nat.lt_succ_of_lt (hbound k hk))
                · rcases List.mem_singleton.mp hk with rfl
                  omega
              · rcases List.mem_singleton.mp hk with rfl
                omega
            · intro f hf
              rw [hkeys4, hkeys4, hkeys4]
              rcases List.mem_cons.mp hf with rfl | hf
              · exact ⟨hcntk, hcnt1k⟩
              · obtain ⟨ha, hb⟩ := hfr f
                  (List.mem_cons_of_mem _ (List.mem_cons_of_mem _ hf))
                exact ⟨hmemk _ ha, hmemk _ hb⟩
      · rw [if_neg hc3] at h
        by_cases hc4 : c = '*'
        · rw [if_pos hc4] at h
          cases frags with
          | nil => cases h
          | cons nfa1 rest =>
            simp only [Store.alloc, Except.ok.injEq, Prod.mk.injEq] at h
            obtain ⟨hg, hcnt, hfrg⟩ := h
            subst hg
            subst hcnt
            subst hfrg
            have h1 := hfr nfa1 (List.mem_cons_self _ _)
            have hb1 : ∀ k ∈ (g ++ [(cnt, (⟨[], []⟩ : StateRec))]).keys,
                k < cnt + 1 := by
              rw [keys_alloc]
              intro k hk
              rcases List.mem_append.mp hk with hk | hk
              · exact Nat.lt_succ_of_lt (hbound k hk)
              · rcases List.mem_singleton.mp hk with rfl
                exact Nat.lt_succ_self _
            have hwf2 : StoreWF ((g ++ [(cnt, ⟨[], []⟩)]) ++
                [(cnt + 1, ⟨[], []⟩)]) :=
              storeWF_alloc (storeWF_alloc hwf hbound) hb1
            have hkeys2 : ((g ++ [(cnt, (⟨[], []⟩ : StateRec))]) ++
                [(cnt + 1, (⟨[], []⟩ : StateRec))]).keys =
                (g.keys ++ [cnt]) ++ [cnt + 1] := by
              rw [keys_alloc, keys_alloc]
            have hmemk : ∀ x ∈ g.keys, x ∈ ((g ++ [(cnt, (⟨[], []⟩ : StateRec))]) ++
                [(cnt + 1, (⟨[], []⟩ : StateRec))]).keys := by
              intro x hx
              rw [hkeys2]
              exact List.mem_append_left _ (List.mem_append_left _ hx)
            have hcntk : cnt ∈ ((g ++ [(cnt, (⟨[], []⟩ : StateRec))]) ++
                [(cnt + 1, (⟨[], []⟩ : StateRec))]).keys := by
              rw [hkeys2]
              exact List.mem_append_left _ (List.mem_append_right _
                (List.mem_singleton_self _))
            have hcnt1k : cnt + 1 ∈ ((g ++ [(cnt, (⟨[], []⟩ : StateRec))]) ++
                [(cnt + 1, (⟨[], []⟩ : StateRec))]).keys := by
              rw [hkeys2]
              exact List.mem_append_right _ (List.mem_singleton_self _)
            have hkeys4 : ∀ (gg : Store) (i : Nat) (qs : List Nat),
                (gg.addEps i qs).keys = gg.keys := by
              intro gg i qs
              unfold Store.addEps
              rw [keys_modify]
            have hwf3 := @storeWF_addEps _ cnt [nfa1.start, cnt + 1] hwf2
              (by
                intro q hq
                rcases List.mem_cons.mp hq with rfl | hq
                · exact hmemk _ h1.1
                · rcases List.mem_singleton.mp hq with rfl
                  exact hcnt1k)
            refine ⟨storeWF_addEps hwf3 ?_, ?_, ?_⟩
            · intro q hq
              rcases List.mem_cons.mp hq with rfl | hq
              · rw [hkeys4]
                exact hmemk _ h1.1
              · rcases List.mem_singleton.mp hq with rfl
                rw [hkeys4]
                exact hcnt1k
            · rw [hkeys4, hkeys4, hkeys2]
              intro k hk
              rcases List.mem_append.mp hk with hk | hk
              · rcases List.mem_append.mp hk with hk | hk
                · exact Nat.lt_succ_of_lt (Nat.lt_succ_of_lt (hbound k hk))
                · rcases List.mem_singleton.mp hk with rfl
                  omega
              · rcases List.mem_singleton.mp hk with rfl
                omega
            · intro f hf
              rw [hkeys4, hkeys4]
              rcases List.mem_cons.mp hf with rfl | hf
              · exact ⟨hcntk, hcnt1k⟩
              · obtain ⟨ha, hb⟩ := hfr f (List.mem_cons_of_mem _ hf)
                exact ⟨hmemk _ ha, hmemk _ hb⟩
        · rw [if_neg hc4] at h
          simp only [Except.ok.injEq, Prod.mk.injEq] at h
          obtain ⟨hg, hcnt, hfrg⟩ := h
          subst hg
          subst hcnt
          subst hfrg
          exact ⟨hwf, hbound, hfr⟩

theorem buildLoop_inv :
    ∀ (pf : List Char) (g : Store) (cnt : Nat) (frags : List NFAFrag)
      (g1 : Store) (cnt1 : Nat) (frags1 : List NFAFrag),
      buildLoop pf g cnt frags = Except.ok (g1, cnt1, frags1) →
      BuildInv g cnt frags → BuildInv g1 cnt1 frags1 := by
  intro pf
  induction pf with
  | nil =>
    intro g cnt frags g1 cnt1 frags1 h hinv
    simp only [buildLoop, Except.ok.injEq, Prod.mk.injEq] at h
    obtain ⟨h1, h2, h3⟩ := h
    subst h1
    subst h2
    subst h3
    exact hinv
  | cons c pf ih =>
    intro g cnt frags g1 cnt1 frags1 h hinv
    rw [buildLoop] at h
    cases hstep : buildStep c g cnt frags with
    | error e =>
      rw [hstep] at h
      cases h
    | ok r =>
      rw [hstep] at h
      obtain ⟨ga, cnta, fragsa⟩ := r
      exact ih ga cnta fragsa g1 cnt1 frags1 h (buildStep_inv hstep hinv)

/-- The NFA produced by `regex_to_nfa` always sits in a well-formed store and
its start and accept states are store keys. -/
theorem regexToNfa_wf {regex : List Char} {cnt : Nat} {g : Store}
    {cnt1 : Nat} {f : NFAFrag}
    (h : regexToNfa regex cnt = Except.ok (g, cnt1, f)) :
    StoreWF g ∧ f.start ∈ g.keys ∧ f.accept ∈ g.keys := by
  unfold regexToNfa at h
  split at h
  · cases h
  rename_i pf hpf
  unfold buildNfa at h
  split at h
  · cases h
  · cases h
  rename_i ga cnta f0 rest hloop
  · simp only [Except.ok.injEq, Prod.mk.injEq] at h
    obtain ⟨h1, h2, h3⟩ := h
    subst h1
    subst h2
    subst h3
    have hinv0 : BuildInv [] cnt [] := by
      refine ⟨⟨List.nodup_nil, ?_⟩, ?_, ?_⟩
      · intro p hp
        exact absurd hp (List.not_mem_nil p)
      · intro k hk
        exact absurd hk (List.not_mem_nil k)
      · intro f hf
        exact absurd hf (List.not_mem_nil f)
    obtain ⟨hwf, _, hfr⟩ := buildLoop_inv pf [] cnt [] _ _ _ hloop hinv0
    exact ⟨hwf, hfr f0 (List.mem_cons_self _ _)⟩

theorem shiftStore_lookup (c : Nat) (g : Store) (x : Nat) :
    (shiftStore c g).lookup (x + c) = (g.lookup x).map (shiftRec c) := by
  unfold Store.lookup shiftStore
  rw [List.find?_map]
  have hpred : ((fun (p : Nat × StateRec) => decide (p.1 = x + c)) ∘
      (fun (p : Nat × StateRec) => (p.1 + c, shiftRec c p.2))) =
      (fun (p : Nat × StateRec) => decide (p.1 = x)) := by
    funext p
    simp only [Function.comp_apply]
    exact decide_eq_decide.mpr (Nat.add_right_cancel_iff)
  rw [hpred, Option.map_map, Option.map_map]
  rfl

theorem shiftStore_epsSuccs (c : Nat) (g : Store) (x : Nat) :
    (shiftStore c g).epsSuccs (x + c) = (g.epsSuccs x).map (· + c) := by
  unfold Store.epsSuccs
  rw [shiftStore_lookup]
  cases g.lookup x with
  | none => rfl
  | some r => rfl

theorem shiftStore_keys (c : Nat) (g : Store) :
    (shiftStore c g).keys = g.keys.map (· + c) := by
  unfold Store.keys shiftStore
  rw [List.map_map, List.map_map]
  rfl

theorem shiftStore_length (c : Nat) (g : Store) :
    (shiftStore c g).length = g.length := by
  unfold shiftStore
  rw [List.length_map]

theorem shiftStore_edgeTargets (c : Nat) (g : Store) (x : Nat) (a : Char) :
    (shiftStore c g).edgeTargets (x + c) a = (g.edgeTargets x a).map (· + c) := by
  unfold Store.edgeTargets
  rw [shiftStore_lookup]
  cases g.lookup x with
  | none => rfl
  | some r =>
    simp only [Option.map_some']
    show (match (r.edges.map (fun q => (q.1, q.2.map (· + c)))).find?
        (fun p => p.1 = a) with
      | none => []
      | some p => p.2) = _
    rw [List.find?_map]
    have hpred : ((fun p => decide (p.1 = a)) ∘
        (fun (q : Char × List Nat) => (q.1, q.2.map (· + c)))) =
        (fun p => decide (p.1 = a)) := by
      funext q
      rfl
    rw [hpred]
    cases r.edges.find? (fun p => p.1 = a) with
    | none => rfl
    | some q => rfl

theorem move_shift (c : Nat) (g : Store) (S : Finset Nat) (a : Char) :
    move (shiftStore c g) (S.image (· + c)) a = (move g S a).image (· + c) := by
  ext x
  simp only [move, Finset.mem_biUnion, Finset.mem_image, List.mem_toFinset]
  constructor
  · rintro ⟨s', ⟨s, hs, rfl⟩, hx⟩
    rw [shiftStore_edgeTargets] at hx
    obtain ⟨y, hy, rfl⟩ := List.mem_map.mp hx
    exact ⟨y, ⟨s, hs, hy⟩, rfl⟩
  · rintro ⟨y, ⟨s, hs, hy⟩, rfl⟩
    refine ⟨s + c, ⟨s, hs, rfl⟩, ?_⟩
    rw [shiftStore_edgeTargets]
    exact List.mem_map.mpr ⟨y, hy, rfl⟩

theorem mem_image_addc {S : Finset Nat} {c x : Nat} :
    x + c ∈ S.image (· + c) ↔ x ∈ S := by
  simp only [Finset.mem_image]
  constructor
  · rintro ⟨b, hb, hbe⟩
    have : b = x := Nat.add_right_cancel hbe
    exact this ▸ hb
  · intro hx
    exact ⟨x, hx, rfl⟩

theorem pushNew_shift (c : Nat) :
    ∀ (es stack : List Nat) (cl : Finset Nat),
      pushNew (es.map (· + c)) (stack.map (· + c)) (cl.image (· + c)) =
        ((pushNew es stack cl).1.map (· + c),
          (pushNew es stack cl).2.image (· + c)) := by
  intro es
  induction es with
  | nil =>
    intro stack cl
    rfl
  | cons e es ih =>
    intro stack cl
    by_cases he : e ∈ cl
    · rw [List.map_cons, pushNew, if_pos (mem_image_addc.mpr he),
        pushNew, if_pos he]
      exact ih stack cl
    · rw [List.map_cons, pushNew, if_neg (fun hc => he (mem_image_addc.mp hc)),
        pushNew, if_neg he]
      have : insert (e + c) (cl.image (· + c)) = (insert e cl).image (· + c) :=
        (Finset.image_insert _ e cl).symm
      rw [this]
      exact ih (e :: stack) (insert e cl)

theorem closureLoop_shift (c : Nat) (g : Store) :
    ∀ (fuel : Nat) (stack : List Nat) (cl : Finset Nat),
      closureLoop (shiftStore c g).epsSuccs fuel (stack.map (· + c))
          (cl.image (· + c)) =
        (closureLoop g.epsSuccs fuel stack cl).map (Finset.image (· + c)) := by
  intro fuel
  induction fuel with
  | zero =>
    intro stack cl
    rfl
  | succ fuel ih =>
    intro stack cl
    cases stack with
    | nil => rfl
    | cons s stack =>
      rw [List.map_cons, closureLoop, closureLoop,
        shiftStore_epsSuccs, pushNew_shift]
      exact ih _ _

theorem enumElems_shift (c : Nat) (g : Store) (S : Finset Nat) :
    enumElems (shiftStore c g) (S.image (· + c)) =
      (enumElems g S).map (· + c) := by
  unfold enumElems
  rw [shiftStore_keys, List.filter_map]
  have hpred : ((fun s => decide (s ∈ S.image (· + c))) ∘ (· + c)) =
      (fun s => decide (s ∈ S)) := by
    funext s
    simp only [Function.comp_apply]
    exact decide_eq_decide.mpr mem_image_addc
  rw [hpred]

theorem epsilonClosure_shift (c : Nat) (g : Store) (S : Finset Nat) :
    epsilonClosure (shiftStore c g) (S.image (· + c)) =
      (epsilonClosure g S).image (· + c) := by
  unfold epsilonClosure
  rw [enumElems_shift, shiftStore_length,
    Finset.card_image_of_injective S (fun x y h => Nat.add_right_cancel h),
    closureLoop_shift]
  cases closureLoop g.epsSuccs (S.card + g.length + 1) (enumElems g S) S with
  | none => rfl
  | some C => rfl

theorem stepSet_shift (c : Nat) (g : Store) (S : Finset Nat) (a : Char) :
    stepSet (shiftStore c g) (S.image (· + c)) a =
      (stepSet g S a).image (· + c) := by
  unfold stepSet
  rw [move_shift, epsilonClosure_shift]

theorem foldl_stepSet_shift (c : Nat) (g : Store) :
    ∀ (s : List Char) (S : Finset Nat),
      s.foldl (stepSet (shiftStore c g)) (S.image (· + c)) =
        (s.foldl (stepSet g) S).image (· + c) := by
  intro s
  induction s with
  | nil =>
    intro S
    rfl
  | cons a s ih =>
    intro S
    rw [List.foldl_cons, List.foldl_cons, stepSet_shift]
    exact ih _

theorem nfaSetAccepts_shift (c : Nat) (g : Store) (ns na : Nat)
    (s : List Char) :
    nfaSetAccepts (shiftStore c g) (ns + c) (na + c) s ↔
      nfaSetAccepts g ns na s := by
  unfold nfaSetAccepts
  have h1 : ({ns + c} : Finset Nat) = ({ns} : Finset Nat).image (· + c) := by
    rw [Finset.image_singleton]
  rw [h1, epsilonClosure_shift, foldl_stepSet_shift]
  exact mem_image_addc

theorem shift_modify (c : Nat) (g : Store) (i : Nat)
    (f : StateRec → StateRec) (f2 : StateRec → StateRec)
    (hf : ∀ r, shiftRec c (f r) = f2 (shiftRec c r)) :
    shiftStore c (g.modify i f) = (shiftStore c g).modify (i + c) f2 := by
  unfold shiftStore Store.modify
  rw [List.map_map, List.map_map]
  refine List.map_congr_left ?_
  intro p _
  simp only [Function.comp_apply]
  by_cases h : p.1 = i
  · rw [if_pos h, if_pos (by rw [h])]
    simp only
    rw [hf]
  · rw [if_neg h, if_neg (fun hc => h (Nat.add_right_cancel hc))]

theorem shift_addEps (c : Nat) (g : Store) (i : Nat) (qs : List Nat) :
    shiftStore c (g.addEps i qs) =
      (shiftStore c g).addEps (i + c) (qs.map (· + c)) := by
  unfold Store.addEps
  refine shift_modify c g i _ _ ?_
  intro r
  unfold shiftRec
  simp

theorem shift_setEdge (c : Nat) (g : Store) (i : Nat) (ch : Char)
    (ts : List Nat) :
    shiftStore c (g.setEdge i ch ts) =
      (shiftStore c g).setEdge (i + c) ch (ts.map (· + c)) := by
  unfold Store.setEdge
  refine shift_modify c g i _ _ ?_
  intro r
  unfold shiftRec
  simp

theorem shift_alloc (c : Nat) (g : Store) (cnt : Nat) :
    shiftStore c (g ++ [(cnt, (⟨[], []⟩ : StateRec))]) =
      shiftStore c g ++ [(cnt + c, (⟨[], []⟩ : StateRec))] := by
  unfold shiftStore
  rw [List.map_append]
  rfl

theorem buildStep_shift (c : Nat) (ch : Char) (g : Store) (cnt : Nat)
    (frags : List NFAFrag) :
    buildStep ch (shiftStore c g) (cnt + c) (frags.map (shiftFrag c)) =
      (buildStep ch g cnt frags).map
        (fun r => (shiftStore c r.1, r.2.1 + c, r.2.2.map (shiftFrag c))) := by
  unfold buildStep
  by_cases hc1 : ch.isAlphanum
  · rw [if_pos hc1, if_pos hc1]
    simp only [Store.alloc, Except.map]
    rw [shift_setEdge, shift_alloc, shift_alloc]
    have h1 : (cnt + c) + 1 = (cnt + 1) + c := by omega
    have h2 : (cnt + 1) + c + 1 = (cnt + 1 + 1) + c := by omega
    rw [h1, h2]
    rfl
  · rw [if_neg hc1, if_neg hc1]
    by_cases hc2 : ch = '.'
    · rw [if_pos hc2, if_pos hc2]
      cases frags with
      | nil => rfl
      | cons nfa2 rest1 =>
        cases rest1 with
        | nil => rfl
        | cons nfa1 rest =>
          simp only [List.map_cons, Except.map]
          rw [shift_addEps]
          rfl
    · rw [if_neg hc2, if_neg hc2]
      by_cases hc3 : ch = '|'
      · rw [if_pos hc3, if_pos hc3]
        cases frags with
        | nil => rfl
        | cons nfa2 rest1 =>
          cases rest1 with
          | nil => rfl
          | cons nfa1 rest =>
            simp only [List.map_cons, Except.map, Store.alloc]
            rw [shift_addEps, shift_addEps, shift_addEps, shift_alloc,
              shift_alloc]
            have h1 : (cnt + c) + 1 = (cnt + 1) + c := by omega
            have h2 : (cnt + 1) + c + 1 = (cnt + 1 + 1) + c := by omega
            rw [h1, h2]
            rfl
      · rw [if_neg hc3, if_neg hc3]
        by_cases hc4 : ch = '*'
        · rw [if_pos hc4, if_pos hc4]
          cases frags with
          | nil => rfl
          | cons nfa1 rest =>
            simp only [List.map_cons, Except.map, Store.alloc]
            rw [shift_addEps, shift_addEps, shift_alloc, shift_alloc]
            have h1 : (cnt + c) + 1 = (cnt + 1) + c := by omega
            have h2 : (cnt + 1) + c + 1 = (cnt + 1 + 1) + c := by omega
            rw [h1, h2]
            rfl
        · rw [if_neg hc4, if_neg hc4]
          rfl

theorem buildLoop_shift (c : Nat) :
    ∀ (pf : List Char) (g : Store) (cnt : Nat) (frags : List NFAFrag),
      buildLoop pf (shiftStore c g) (cnt + c) (frags.map (shiftFrag c)) =
        (buildLoop pf g cnt frags).map
          (fun r => (shiftStore c r.1, r.2.1 + c, r.2.2.map (shiftFrag c))) := by
  intro pf
  induction pf with
  | nil =>
    intro g cnt frags
    rfl
  | cons ch pf ih =>
    intro g cnt frags
    rw [buildLoop, buildLoop, buildStep_shift]
    cases buildStep ch g cnt frags with
    | error e => rfl
    | ok r =>
      obtain ⟨ga, cnta, fragsa⟩ := r
      exact ih ga cnta fragsa

theorem regexToNfa_eq (regex : List Char) (cnt : Nat) :
    regexToNfa regex cnt =
      (toPostfix regex).bind (fun pf => buildNfa pf [] cnt) := by
  unfold regexToNfa
  cases toPostfix regex with
  | error e => rfl
  | ok pf => rfl

theorem regexToNfa_shift (regex : List Char) (c : Nat) :
    regexToNfa regex c = (regexToNfa regex 0).map
      (fun r => (shiftStore c r.1, r.2.1 + c, shiftFrag c r.2.2)) := by
  rw [regexToNfa_eq, regexToNfa_eq]
  cases toPostfix regex with
  | error e => rfl
  | ok pf =>
    show buildNfa pf [] c = (buildNfa pf [] 0).map
      (fun r => (shiftStore c r.1, r.2.1 + c, shiftFrag c r.2.2))
    unfold buildNfa
    have h0 : buildLoop pf (shiftStore c []) (0 + c) (([] : List NFAFrag).map
        (shiftFrag c)) = (buildLoop pf [] 0 []).map
        (fun r => (shiftStore c r.1, r.2.1 + c, r.2.2.map (shiftFrag c))) :=
      buildLoop_shift c pf [] 0 []
    rw [show shiftStore c [] = ([] : Store) from rfl, Nat.zero_add] at h0
    rw [show (([] : List NFAFrag).map (shiftFrag c)) = ([] : List NFAFrag)
      from rfl] at h0
    rw [h0]
    cases buildLoop pf [] 0 [] with
    | error e => rfl
    | ok r =>
      obtain ⟨ga, cnta, fragsa⟩ := r
      cases fragsa with
      | nil => rfl
      | cons f0 rest => rfl

/-- If the builder succeeds, the pipeline is the subset construction on the
returned store and fragment. -/
theorem compileDfa_eq_ok {regex al : List Char} {nb db : Nat} {g : Store}
    {cnt : Nat} {f : NFAFrag}
    (h : regexToNfa regex nb = Except.ok (g, cnt, f)) :
    compileDfa regex al nb db = nfaToDfa g f.start f.accept al db := by
  unfold compileDfa
  rw [h]

/-- If the builder raises, the pipeline produces nothing. -/
theorem compileDfa_eq_err {regex al : List Char} {nb db : Nat} {e : PyErr}
    (h : regexToNfa regex nb = Except.error e) :
    compileDfa regex al nb db = none := by
  unfold compileDfa
  rw [h]

/-- C9: repeated construction from the same regex — two invocations of
`regex_to_nfa` followed by `nfa_to_dfa`, at arbitrary values of the two global
identifier counters and over any iteration order of the alphabet set — yields
DFAs with identical accept/reject behavior on every string over the regex's
alphabet, even though the internal state identifier numbering differs between
the runs. -/
theorem c9_repeated_construction_equivalent (regex : List Char)
    (al1 al2 : List Char) (nb1 db1 nb2 db2 : Nat)
    (hnd1 : al1.Nodup) (hnd2 : al2.Nodup)
    (hal : al1.toFinset = al2.toFinset)
    (s : List Char) (hs : ∀ c ∈ s, c ∈ al1) :
    (compileDfa regex al1 nb1 db1).map (fun l => dfaAccepts l s) =
      (compileDfa regex al2 nb2 db2).map (fun l => dfaAccepts l s) := by
  have hs2 : ∀ c ∈ s, c ∈ al2 := by
    intro c hc
    rw [← List.mem_toFinset, ← hal, List.mem_toFinset]
    exact hs c hc
  have e1 := regexToNfa_shift regex nb1
  have e2 := regexToNfa_shift regex nb2
  cases h0 : regexToNfa regex 0 with
  | error e =>
    rw [h0] at e1 e2
    have e1' : regexToNfa regex nb1 = Except.error e := e1
    have e2' : regexToNfa regex nb2 = Except.error e := e2
    rw [compileDfa_eq_err e1', compileDfa_eq_err e2']
  | ok r =>
    obtain ⟨g0, cnt0, f0⟩ := r
    rw [h0] at e1 e2
    have e1' : regexToNfa regex nb1 =
        Except.ok (shiftStore nb1 g0, cnt0 + nb1, shiftFrag nb1 f0) := e1
    have e2' : regexToNfa regex nb2 =
        Except.ok (shiftStore nb2 g0, cnt0 + nb2, shiftFrag nb2 f0) := e2
    obtain ⟨hwf1, hns1, hna1⟩ := regexToNfa_wf e1'
    obtain ⟨hwf2, hns2, hna2⟩ := regexToNfa_wf e2'
    rw [compileDfa_eq_ok e1', compileDfa_eq_ok e2']
    obtain ⟨l1, hl1, -⟩ := nfaToDfa_terminates (shiftStore nb1 g0)
      (shiftFrag nb1 f0).start (shiftFrag nb1 f0).accept al1 db1 hwf1 hns1
    obtain ⟨l2, hl2, -⟩ := nfaToDfa_terminates (shiftStore nb2 g0)
      (shiftFrag nb2 f0).start (shiftFrag nb2 f0).accept al2 db2 hwf2 hns2
    rw [hl1, hl2]
    have i1 := nfaToDfa_drive_correct (shiftStore nb1 g0)
      (shiftFrag nb1 f0).start (shiftFrag nb1 f0).accept al1 db1 hnd1 l1 hl1
      s hs
    have i2 := nfaToDfa_drive_correct (shiftStore nb2 g0)
      (shiftFrag nb2 f0).start (shiftFrag nb2 f0).accept al2 db2 hnd2 l2 hl2
      s hs2
    have iff1 : nfaSetAccepts (shiftStore nb1 g0) (shiftFrag nb1 f0).start
        (shiftFrag nb1 f0).accept s ↔
        nfaSetAccepts g0 f0.start f0.accept s :=
      nfaSetAccepts_shift nb1 g0 f0.start f0.accept s
    have iff2 : nfaSetAccepts (shiftStore nb2 g0) (shiftFrag nb2 f0).start
        (shiftFrag nb2 f0).accept s ↔
        nfaSetAccepts g0 f0.start f0.accept s :=
      nfaSetAccepts_shift nb2 g0 f0.start f0.accept s
    have hb : dfaAccepts l1 s = dfaAccepts l2 s := by
      have h12 : dfaAccepts l1 s = true ↔ dfaAccepts l2 s = true :=
        i1.trans (iff1.trans (iff2.symm.trans i2.symm))
      cases hx : dfaAccepts l1 s <;> cases hy : dfaAccepts l2 s <;> simp_all
    show some (dfaAccepts l1 s) = some (dfaAccepts l2 s)
    rw [hb]

theorem c9_repeated_construction_equivalent_witness :
    ((['a', 'b'] : List Char).Nodup ∧ (['b', 'a'] : List Char).Nodup ∧
      (['a', 'b'] : List Char).toFinset = (['b', 'a'] : List Char).toFinset ∧
      (∀ c ∈ (['a', 'b'] : List Char), c ∈ (['a', 'b'] : List Char))) ∧
    (compileDfa ['a', 'b'] ['a', 'b'] 0 0).map
        (fun l => dfaAccepts l ['a', 'b']) =
      (compileDfa ['a', 'b'] ['b', 'a'] 5 7).map
        (fun l => dfaAccepts l ['a', 'b']) :=
  ⟨⟨by decide, by decide, by decide, by decide⟩,
    c9_repeated_construction_equivalent ['a', 'b'] ['a', 'b'] ['b', 'a']
      0 0 5 7 (by decide) (by decide) (by decide) ['a', 'b'] (by decide)⟩

theorem drainWhile_split (p : Char → Bool) :
    ∀ (B st : List Char), (∀ b ∈ B, p b = true) →
      (∀ t ∈ st.head?, p t = false) →
      drainWhile p (B ++ st) = (B, st) := by
  intro B
  induction B with
  | nil =>
    intro st _ hst
    cases st with
    | nil => rfl
    | cons t r =>
      have ht : p t = false := hst t rfl
      simp [drainWhile, ht]
  | cons b B ih =>
    intro st hB hst
    have hb : p b = true := hB b (List.mem_cons_self b B)
    have h2 := ih st (fun x hx => hB x (List.mem_cons_of_mem b hx)) hst
    have h3 : drainWhile p (B.append st) = (B, st) := h2
    simp only [List.cons_append, drainWhile, hb, if_true, h3]

theorem syn_first {k : Nat} {e : RE} {s : List Char} (h : Syn k e s) :
    2 ≤ k → ∃ c0 rest, s = c0 :: rest ∧ (c0.isAlphanum = true ∨ c0 = '(') := by
  induction h with
  | lit hc => exact fun _ => ⟨_, _, rfl, Or.inl hc⟩
  | group hs ih => exact fun _ => ⟨'(', _, rfl, Or.inr rfl⟩
  | star hs ih =>
    intro _
    obtain ⟨c0, rest, heq, hc⟩ := ih (by omega)
    exact ⟨c0, rest ++ ['*'], by rw [heq]; rfl, hc⟩
  | cat h1 h2 ih1 ih2 => exact fun hk => absurd hk (by omega)
  | alt h1 h2 ih1 ih2 => exact fun hk => absurd hk (by omega)
  | up01 h ih => exact fun hk => absurd hk (by omega)
  | up12 h ih => exact fun hk => absurd hk (by omega)
  | up23 h ih => exact fun _ => ih (by omega)

theorem syn_REok {k : Nat} {e : RE} {s : List Char} (h : Syn k e s) :
    REok e = true := by
  induction h with
  | lit hc => exact hc
  | group _ ih => exact ih
  | star _ ih => exact ih
  | cat _ _ ih1 ih2 => simp [REok, ih1, ih2]
  | alt _ _ ih1 ih2 => simp [REok, ih1, ih2]
  | up01 _ ih => exact ih
  | up12 _ ih => exact ih
  | up23 _ ih => exact ih

theorem stackTopOK_mono {j k : Nat} (hjk : j ≤ k) :
    ∀ {st : List Char}, stackTopOK j st → stackTopOK k st := by
  intro st h
  cases st with
  | nil => trivial
  | cons t r => exact Nat.le_trans h hjk

theorem step_alnum {c : Char} (hc : c.isAlphanum = true) {prev : Option Char}
    (hp : concatPrev prev = false) (out stack : List Char) :
    toPostfixStep c prev out stack = Except.ok (out ++ [c], stack) := by
  simp [toPostfixStep, hc, hp]

theorem step_alnum_trig {c : Char} (hc : c.isAlphanum = true)
    {prev : Option Char} (hp : concatPrev prev = true) {B st : List Char}
    (hB : ∀ b ∈ B, 2 ≤ prec b) (hst : ∀ t ∈ st.head?, prec t < 2)
    (out : List Char) :
    toPostfixStep c prev out (B ++ st) =
      Except.ok (out ++ B ++ [c], '.' :: st) := by
  have hd := drainWhile_split (fun t => decide (2 ≤ prec t)) B st
    (fun b hb => decide_eq_true (hB b hb))
    (fun t ht => decide_eq_false (by have := hst t ht; omega))
  simp [toPostfixStep, hc, hp, hd]

theorem step_lparen {prev : Option Char} (hp : concatPrev prev = false)
    (out stack : List Char) :
    toPostfixStep '(' prev out stack = Except.ok (out, '(' :: stack) := by
  simp [toPostfixStep, hp]

theorem step_lparen_trig {prev : Option Char} (hp : concatPrev prev = true)
    {B st : List Char} (hB : ∀ b ∈ B, 2 ≤ prec b)
    (hst : ∀ t ∈ st.head?, prec t < 2) (out : List Char) :
    toPostfixStep '(' prev out (B ++ st) =
      Except.ok (out ++ B, '(' :: '.' :: st) := by
  have hd := drainWhile_split (fun t => decide (2 ≤ prec t)) B st
    (fun b hb => decide_eq_true (hB b hb))
    (fun t ht => decide_eq_false (by have := hst t ht; omega))
  simp [toPostfixStep, hp, hd]

theorem step_rparen {prev : Option Char} {B st : List Char}
    (hB : ∀ b ∈ B, b = '.' ∨ b = '*' ∨ b = '|') (out : List Char) :
    toPostfixStep ')' prev out (B ++ '(' :: st) =
      Except.ok (out ++ B, st) := by
  have hd := drainWhile_split (fun t => !decide (t = '(')) B ('(' :: st)
    (fun b hb => by rcases hB b hb with h | h | h <;> rw [h] <;> decide)
    (fun t ht => by
      have h2 : t = '(' := by simpa using ht.symm
      rw [h2]; decide)
  simp [toPostfixStep, hd]

theorem step_op {c : Char} (hc : c = '|' ∨ c = '*') {prev : Option Char}
    {B st : List Char} (hB : ∀ b ∈ B, prec c ≤ prec b)
    (hst : ∀ t ∈ st.head?, prec t < prec c) (out : List Char) :
    toPostfixStep c prev out (B ++ st) =
      Except.ok (out ++ B, c :: st) := by
  have hd := drainWhile_split (fun t => decide (prec c ≤ prec t)) B st
    (fun b hb => decide_eq_true (hB b hb))
    (fun t ht => decide_eq_false (by have := hst t ht; omega))
  rcases hc with h | h <;> subst h
  · simp [toPostfixStep, hd, (by decide : (0 : Nat) < prec '|')]
  · simp [toPostfixStep, hd, (by decide : (0 : Nat) < prec '*')]

theorem toPostfixLoop_cons_ok {c : Char} {prev : Option Char}
    {out st out1 st1 : List Char}
    (h : toPostfixStep c prev out st = Except.ok (out1, st1))
    (cs : List Char) :
    toPostfixLoop (c :: cs) prev out st = toPostfixLoop cs (some c) out1 st1 := by
  simp only [toPostfixLoop]
  rw [h]

theorem trig_step_eq {c0 : Char} (hc0 : c0.isAlphanum = true ∨ c0 = '(')
    {p1 : Option Char} (hp1 : concatPrev p1 = true)
    {B1 st : List Char} (hB1 : ∀ b ∈ B1, 2 ≤ prec b)
    (hst : ∀ t ∈ st.head?, prec t < 2) (out : List Char) (cs : List Char) :
    toPostfixLoop (c0 :: cs) p1 out (B1 ++ st) =
      toPostfixLoop (c0 :: cs) none (out ++ B1) ('.' :: st) := by
  rcases hc0 with hc0 | hc0
  · rw [toPostfixLoop_cons_ok (step_alnum_trig hc0 hp1 hB1 hst out) cs,
      toPostfixLoop_cons_ok
        (step_alnum hc0 (show concatPrev none = false from rfl)
          (out ++ B1) ('.' :: st)) cs,
      List.append_assoc]
  · subst hc0
    rw [toPostfixLoop_cons_ok (step_lparen_trig hp1 hB1 hst out) cs,
      toPostfixLoop_cons_ok
        (step_lparen (show concatPrev none = false from rfl)
          (out ++ B1) ('.' :: st)) cs]

theorem stackTopOK_head {k : Nat} {st : List Char} (h : stackTopOK k st) :
    ∀ t ∈ st.head?, prec t ≤ k := by
  cases st with
  | nil => intro t ht; cases ht
  | cons a r =>
    intro t ht
    have ha : a = t := by simpa using ht
    rw [← ha]
    exact h

theorem syn_run {k : Nat} {e : RE} {s : List Char} (h : Syn k e s) :
    ∀ ys prev out st, concatPrev prev = false → stackTopOK k st →
    ∃ A B c2,
      toPostfixLoop (s ++ ys) prev out st =
        toPostfixLoop ys (some c2) (out ++ A) (B ++ st) ∧
      A ++ B = postorder e ∧
      (∀ b ∈ B, k + 1 ≤ prec b ∧ (b = '.' ∨ b = '*' ∨ b = '|')) ∧
      concatPrev (some c2) = true := by
  induction h with
  | lit hc =>
    rename_i c
    intro ys prev out st hp hst
    refine ⟨[c], [], c, ?_, rfl, fun b hb => absurd hb (List.not_mem_nil b), ?_⟩
    · rw [List.nil_append, List.singleton_append,
        toPostfixLoop_cons_ok (step_alnum hc hp out st) ys]
    · simp [concatPrev, hc]
  | group hs ih =>
    rename_i e1 s1
    intro ys prev out st hp hst
    obtain ⟨A1, B1, c1, heq1, hAB1, hB1, htrig1⟩ :=
      ih (')' :: ys) (some '(') out ('(' :: st) (by decide)
        (by show prec '(' ≤ 0; decide)
    refine ⟨A1 ++ B1, [], ')',
      ?_, by rw [List.append_nil]; exact hAB1,
      fun b hb => absurd hb (List.not_mem_nil b), by decide⟩
    rw [List.nil_append, List.cons_append, List.cons_append,
      toPostfixLoop_cons_ok (step_lparen hp out st) ((s1 ++ [')']) ++ ys),
      List.append_assoc s1 [')'] ys, List.singleton_append, heq1,
      toPostfixLoop_cons_ok
        (step_rparen (fun b hb => (hB1 b hb).2) (out ++ A1)) ys,
      List.append_assoc out A1 B1]
  | star hs ih =>
    rename_i e1 s1
    intro ys prev out st hp hst
    obtain ⟨A1, B1, c1, heq1, hAB1, hB1, htrig1⟩ :=
      ih ('*' :: ys) prev out st hp hst
    refine ⟨A1 ++ B1, ['*'], '*', ?_, ?_, ?_, by decide⟩
    · rw [List.append_assoc s1 ['*'] ys, List.singleton_append, heq1,
        toPostfixLoop_cons_ok (step_op (Or.inr rfl)
          (fun b hb => (hB1 b hb).1)
          (fun t ht => lt_of_le_of_lt (stackTopOK_head hst t ht) (by decide))
          (out ++ A1)) ys,
        List.append_assoc out A1 B1, List.singleton_append]
    · simp only [postorder, ← hAB1, List.append_assoc]
    · intro b hb
      have hb2 : b = '*' := List.mem_singleton.mp hb
      subst hb2
      exact ⟨by decide, Or.inr (Or.inl rfl)⟩
  | cat h1 h2 ih1 ih2 =>
    rename_i e1 e2 s1 s2
    intro ys prev out st hp hst
    obtain ⟨A1, B1, c1, heq1, hAB1, hB1, htrig1⟩ :=
      ih1 (s2 ++ ys) prev out st hp hst
    obtain ⟨c0, rest, hs2, hc0⟩ := syn_first h2 (by omega)
    subst hs2
    have hstep := trig_step_eq hc0 htrig1 (fun b hb => (hB1 b hb).1)
      (fun t ht => lt_of_le_of_lt (stackTopOK_head hst t ht) (by decide))
      (out ++ A1) (rest ++ ys)
    obtain ⟨A2, B2, c2, heq2, hAB2, hB2, htrig2⟩ :=
      ih2 ys none ((out ++ A1) ++ B1) ('.' :: st) rfl
        (by show prec '.' ≤ 2; decide)
    rw [List.cons_append c0 rest ys] at heq2
    refine ⟨A1 ++ B1 ++ A2, B2 ++ ['.'], c2, ?_, ?_, ?_, htrig2⟩
    · rw [List.append_assoc s1 (c0 :: rest) ys, heq1,
        List.cons_append c0 rest ys, hstep, heq2,
        List.append_assoc out A1 B1,
        List.append_assoc out (A1 ++ B1) A2,
        List.append_assoc B2 ['.'] st, List.singleton_append]
    · simp only [postorder, ← hAB1, ← hAB2, List.append_assoc]
    · intro b hb
      rcases List.mem_append.mp hb with hmem | hmem
      · exact ⟨by have := (hB2 b hmem).1; omega, (hB2 b hmem).2⟩
      · have hb2 : b = '.' := List.mem_singleton.mp hmem
        subst hb2
        exact ⟨by decide, Or.inl rfl⟩
  | alt h1 h2 ih1 ih2 =>
    rename_i e1 e2 s1 s2
    intro ys prev out st hp hst
    obtain ⟨A1, B1, c1, heq1, hAB1, hB1, htrig1⟩ :=
      ih1 ('|' :: (s2 ++ ys)) prev out st hp hst
    obtain ⟨A2, B2, c2, heq2, hAB2, hB2, htrig2⟩ :=
      ih2 ys (some '|') ((out ++ A1) ++ B1) ('|' :: st) (by decide)
        (by show prec '|' ≤ 1; decide)
    refine ⟨A1 ++ B1 ++ A2, B2 ++ ['|'], c2, ?_, ?_, ?_, htrig2⟩
    · rw [List.append_assoc s1 ('|' :: s2) ys, List.cons_append '|' s2 ys,
        heq1,
        toPostfixLoop_cons_ok (step_op (Or.inl rfl)
          (fun b hb => (hB1 b hb).1)
          (fun t ht => lt_of_le_of_lt (stackTopOK_head hst t ht) (by decide))
          (out ++ A1)) (s2 ++ ys),
        heq2,
        List.append_assoc out A1 B1,
        List.append_assoc out (A1 ++ B1) A2,
        List.append_assoc B2 ['|'] st, List.singleton_append]
    · simp only [postorder, ← hAB1, ← hAB2, List.append_assoc]
    · intro b hb
      rcases List.mem_append.mp hb with hmem | hmem
      · exact ⟨by have := (hB2 b hmem).1; omega, (hB2 b hmem).2⟩
      · have hb2 : b = '|' := List.mem_singleton.mp hmem
        subst hb2
        exact ⟨by decide, Or.inr (Or.inr rfl)⟩
  | up01 h ih =>
    intro ys prev out st hp hst
    obtain ⟨A, B, c2, heq, hAB, hB, htrig⟩ :=
      ih ys prev out st hp (stackTopOK_mono (by omega) hst)
    exact ⟨A, B, c2, heq, hAB,
      fun b hb => ⟨by have := (hB b hb).1; omega, (hB b hb).2⟩, htrig⟩
  | up12 h ih =>
    intro ys prev out st hp hst
    obtain ⟨A, B, c2, heq, hAB, hB, htrig⟩ :=
      ih ys prev out st hp (stackTopOK_mono (by omega) hst)
    exact ⟨A, B, c2, heq, hAB,
      fun b hb => ⟨by have := (hB b hb).1; omega, (hB b hb).2⟩, htrig⟩
  | up23 h ih =>
    intro ys prev out st hp hst
    obtain ⟨A, B, c2, heq, hAB, hB, htrig⟩ :=
      ih ys prev out st hp (stackTopOK_mono (by omega) hst)
    exact ⟨A, B, c2, heq, hAB,
      fun b hb => ⟨by have := (hB b hb).1; omega, (hB b hb).2⟩, htrig⟩

theorem toPostfix_syn {e : RE} {R : List Char} (h : Syn 0 e R) :
    toPostfix R = Except.ok (postorder e) := by
  obtain ⟨A, B, c2, heq, hAB, hB, -⟩ := syn_run h [] none [] [] rfl trivial
  rw [List.append_nil] at heq
  have heq2 : toPostfixLoop R none [] [] =
      Except.ok (([] : List Char) ++ A, B ++ []) := heq
  unfold toPostfix
  rw [heq2]
  simp [hAB]

theorem lookup_cons (p : Nat × StateRec) (g : Store) (q : Nat) :
    Store.lookup (p :: g) q = if p.1 = q then some p.2 else g.lookup q := by
  unfold Store.lookup
  by_cases h : p.1 = q
  · rw [List.find?_cons_of_pos _ (by simpa using h), if_pos h]
    rfl
  · rw [List.find?_cons_of_neg _ (by simpa using h), if_neg h]

theorem lookup_modify_ne {g : Store} {i q : Nat} (f : StateRec → StateRec)
    (h : q ≠ i) : (g.modify i f).lookup q = g.lookup q := by
  induction g with
  | nil => rfl
  | cons p g ih =>
    have hmod : Store.modify (p :: g) i f =
        (if p.1 = i then (p.1, f p.2) else p) :: Store.modify g i f := rfl
    rw [hmod]
    by_cases hpi : p.1 = i
    · rw [if_pos hpi, lookup_cons, lookup_cons]
      have hne : ¬ (p.1 = q) := fun hh => h (by rw [← hh, hpi])
      rw [if_neg hne, if_neg hne, ih]
    · rw [if_neg hpi, lookup_cons, lookup_cons]
      by_cases hpq : p.1 = q
      · rw [if_pos hpq, if_pos hpq]
      · rw [if_neg hpq, if_neg hpq, ih]

theorem lookup_modify_eq {g : Store} {i : Nat} {r : StateRec}
    (f : StateRec → StateRec) (h : g.lookup i = some r) :
    (g.modify i f).lookup i = some (f r) := by
  induction g with
  | nil => simp [Store.lookup] at h
  | cons p g ih =>
    rw [lookup_cons] at h
    by_cases hpi : p.1 = i
    · rw [if_pos hpi] at h
      injection h with h2
      have hmod : Store.modify (p :: g) i f =
          (p.1, f p.2) :: Store.modify g i f := by
        simp [Store.modify, hpi]
      rw [hmod, lookup_cons, if_pos hpi, h2]
    · rw [if_neg hpi] at h
      have hmod : Store.modify (p :: g) i f = p :: Store.modify g i f := by
        simp [Store.modify, hpi]
      rw [hmod, lookup_cons, if_neg hpi, ih h]

theorem lookup_not_mem {g : Store} {q : Nat} (h : q ∉ g.keys) :
    g.lookup q = none := by
  unfold Store.lookup
  rw [List.find?_eq_none.mpr]
  · rfl
  · intro p hp
    simp only [decide_eq_true_eq]
    intro hh
    exact h (hh ▸ List.mem_map_of_mem (·.1) hp)

theorem lookup_modify_none {g : Store} {i : Nat}
    (f : StateRec → StateRec) (h : g.lookup i = none) :
    (g.modify i f).lookup i = none := by
  induction g with
  | nil => rfl
  | cons p g ih =>
    rw [lookup_cons] at h
    by_cases hpi : p.1 = i
    · rw [if_pos hpi] at h
      cases h
    · rw [if_neg hpi] at h
      have hmod : Store.modify (p :: g) i f = p :: Store.modify g i f := by
        simp [Store.modify, hpi]
      rw [hmod, lookup_cons, if_neg hpi, ih h]

theorem lookup_append_of_some {g : Store} {q : Nat} {r : StateRec}
    (l : Store) (h : g.lookup q = some r) : (g ++ l).lookup q = some r := by
  unfold Store.lookup at h ⊢
  obtain ⟨p, hp, hp2⟩ := Option.map_eq_some'.mp h
  rw [List.find?_append, hp]
  simp [hp2]

theorem lookup_append_one {g : Store} {n : Nat} (r : StateRec)
    (hn : n ∉ g.keys) (q : Nat) :
    (g ++ [(n, r)]).lookup q = if q = n then some r else g.lookup q := by
  unfold Store.lookup
  rw [List.find?_append]
  by_cases h : q = n
  · subst h
    have hfind : List.find? (fun p => decide (p.1 = q)) g = none := by
      rw [List.find?_eq_none]
      intro p hp
      simp only [decide_eq_true_eq]
      intro hh
      exact hn (hh ▸ List.mem_map_of_mem (·.1) hp)
    rw [hfind, if_pos rfl]
    simp [List.find?]
  · rw [if_neg h]
    cases hfind : List.find? (fun p => decide (p.1 = q)) g with
    | some p => simp [hfind]
    | none =>
      have h2 : (decide (n = q)) = false := by
        simp only [decide_eq_false_iff_not]
        exact fun hh => h hh.symm
      simp [List.find?, h2]

theorem epsSuccs_congr {g g2 : Store} {q : Nat}
    (h : g.lookup q = g2.lookup q) : g.epsSuccs q = g2.epsSuccs q := by
  unfold Store.epsSuccs
  rw [h]

theorem edgeTargets_congr {g g2 : Store} {q : Nat}
    (h : g.lookup q = g2.lookup q) (a : Char) :
    g.edgeTargets q a = g2.edgeTargets q a := by
  unfold Store.edgeTargets
  rw [h]

theorem epsSuccs_of_lookup {g : Store} {q : Nat} {r : StateRec}
    (h : g.lookup q = some r) : g.epsSuccs q = r.epsilon := by
  unfold Store.epsSuccs
  rw [h]
  rfl

theorem epsSuccs_of_none {g : Store} {q : Nat}
    (h : g.lookup q = none) : g.epsSuccs q = [] := by
  unfold Store.epsSuccs
  rw [h]
  rfl

theorem edgeTargets_of_none {g : Store} {q : Nat}
    (h : g.lookup q = none) (a : Char) : g.edgeTargets q a = [] := by
  unfold Store.edgeTargets
  rw [h]

theorem edgeTargets_of_dead {g : Store} {q : Nat}
    (h : g.lookup q = some ⟨[], []⟩) (a : Char) : g.edgeTargets q a = [] := by
  unfold Store.edgeTargets
  rw [h]
  rfl

theorem edgeTargets_single {g : Store} {q : Nat} {c : Char} {ts : List Nat}
    (h : g.lookup q = some ⟨[(c, ts)], []⟩) (a : Char) :
    g.edgeTargets q a = if a = c then ts else [] := by
  unfold Store.edgeTargets
  rw [h]
  by_cases hac : a = c
  · subst hac
    simp [List.find?]
  · have h2 : (decide (c = a)) = false := by
      simp only [decide_eq_false_iff_not]
      exact fun hh => hac hh.symm
    simp [List.find?, h2, hac]

theorem edgeTargets_addEps (g : Store) (i : Nat) (qs : List Nat) (q : Nat)
    (a : Char) : (g.addEps i qs).edgeTargets q a = g.edgeTargets q a := by
  unfold Store.addEps
  by_cases h : q = i
  · subst h
    cases hl : g.lookup q with
    | none =>
      rw [edgeTargets_of_none (lookup_modify_none _ hl) a,
        edgeTargets_of_none hl a]
    | some r =>
      unfold Store.edgeTargets
      rw [hl, lookup_modify_eq _ hl]
  · exact edgeTargets_congr (lookup_modify_ne _ h) a

theorem epsSuccs_addEps_ne {g : Store} {i q : Nat} (qs : List Nat)
    (h : q ≠ i) : (g.addEps i qs).epsSuccs q = g.epsSuccs q :=
  epsSuccs_congr (lookup_modify_ne _ h)

theorem epsSuccs_addEps_self {g : Store} {i : Nat} {r : StateRec}
    (qs : List Nat) (h : g.lookup i = some r) :
    (g.addEps i qs).epsSuccs i = r.epsilon ++ qs :=
  epsSuccs_of_lookup (lookup_modify_eq _ h)

theorem epsSuccs_setEdge (g : Store) (i : Nat) (c : Char) (ts : List Nat)
    (q : Nat) : (g.setEdge i c ts).epsSuccs q = g.epsSuccs q := by
  unfold Store.setEdge
  by_cases h : q = i
  · subst h
    cases hl : g.lookup q with
    | none =>
      rw [epsSuccs_of_none (lookup_modify_none _ hl), epsSuccs_of_none hl]
    | some r =>
      unfold Store.epsSuccs
      rw [hl, lookup_modify_eq _ hl]
      rfl
  · exact epsSuccs_congr (lookup_modify_ne _ h)

theorem edgeTargets_eq_of_lookup {g : Store} {q : Nat} {r : StateRec}
    (h : g.lookup q = some r) (a : Char) :
    g.edgeTargets q a = match r.edges.find? (fun p => p.1 = a) with
      | none => []
      | some p => p.2 := by
  unfold Store.edgeTargets
  rw [h]

theorem storeLE_refl (g : Store) : StoreLE g g :=
  fun _ => ⟨fun _ hy => hy, fun _ _ hy => hy⟩

theorem storeLE_trans {g1 g2 g3 : Store} (h1 : StoreLE g1 g2)
    (h2 : StoreLE g2 g3) : StoreLE g1 g3 :=
  fun q => ⟨fun y hy => (h2 q).1 y ((h1 q).1 y hy),
    fun a y hy => (h2 q).2 a y ((h1 q).2 a y hy)⟩

theorem storeLE_append (g : Store) (l : Store) : StoreLE g (g ++ l) := by
  intro q
  cases hl : g.lookup q with
  | none =>
    rw [epsSuccs_of_none hl]
    refine ⟨fun y hy => absurd hy (List.not_mem_nil y), ?_⟩
    intro a y hy
    rw [edgeTargets_of_none hl a] at hy
    exact absurd hy (List.not_mem_nil y)
  | some r =>
    have h2 := lookup_append_of_some l hl
    exact ⟨fun y hy => by
        rw [epsSuccs_congr (hl.trans h2.symm)] at hy; exact hy,
      fun a y hy => by
        rw [edgeTargets_congr (hl.trans h2.symm) a] at hy; exact hy⟩

theorem storeLE_addEps (g : Store) (i : Nat) (qs : List Nat) :
    StoreLE g (g.addEps i qs) := by
  intro q
  constructor
  · intro y hy
    by_cases h : q = i
    · subst h
      cases hl : g.lookup q with
      | none => rw [epsSuccs_of_none hl] at hy; exact absurd hy (List.not_mem_nil y)
      | some r =>
        rw [epsSuccs_of_lookup hl] at hy
        rw [epsSuccs_addEps_self qs hl]
        exact List.mem_append_left qs hy
    · rw [epsSuccs_addEps_ne qs h]
      exact hy
  · intro a y hy
    rw [edgeTargets_addEps g i qs q a]
    exact hy

theorem storeLE_setEdge (g : Store) (i : Nat) (c : Char) (ts : List Nat) :
    StoreLE g (g.setEdge i c ts) := by
  intro q
  constructor
  · intro y hy
    rw [epsSuccs_setEdge g i c ts q]
    exact hy
  · intro a y hy
    by_cases h : q = i
    · subst h
      cases hl : g.lookup q with
      | none =>
        rw [edgeTargets_of_none hl a] at hy
        exact absurd hy (List.not_mem_nil y)
      | some r =>
        have h2 : (g.setEdge q c ts).lookup q =
            some ⟨r.edges ++ [(c, ts)], r.epsilon⟩ := lookup_modify_eq _ hl
        rw [edgeTargets_eq_of_lookup hl a] at hy
        rw [edgeTargets_eq_of_lookup h2 a]
        have h3 : ((⟨r.edges ++ [(c, ts)], r.epsilon⟩ : StateRec)).edges =
            r.edges ++ [(c, ts)] := rfl
        rw [h3, List.find?_append]
        cases hfind : r.edges.find? (fun p => p.1 = a) with
        | none =>
          rw [hfind] at hy
          exact absurd hy (List.not_mem_nil y)
        | some p =>
          rw [hfind] at hy
          exact hy
    · unfold Store.setEdge
      rw [edgeTargets_congr (lookup_modify_ne _ h) a]
      exact hy

theorem pathN_mono {g g2 : Store} (hle : StoreLE g g2) :
    ∀ {n q t s}, NfaPathN g n q t s → NfaPathN g2 n q t s := by
  intro n q t s h
  induction h with
  | refl q => exact NfaPathN.refl q
  | eps hmem hp ih =>
    rename_i n q1 q2 q3 s
    exact NfaPathN.eps ((hle q1).1 q2 hmem) ih
  | edge hmem hp ih =>
    rename_i n q1 q2 q3 a s
    exact NfaPathN.edge ((hle q1).2 a q2 hmem) ih

theorem pathN_append {g : Store} :
    ∀ {n1 q1 q2 s1}, NfaPathN g n1 q1 q2 s1 →
    ∀ {n2 q3 s2}, NfaPathN g n2 q2 q3 s2 →
    NfaPathN g (n1 + n2) q1 q3 (s1 ++ s2) := by
  intro n1 q1 q2 s1 h1
  induction h1 with
  | refl q =>
    intro n2 q3 s2 h2
    rw [Nat.zero_add, List.nil_append]
    exact h2
  | eps hmem hp ih =>
    intro n2 q3 s2 h2
    rw [Nat.add_right_comm]
    exact NfaPathN.eps hmem (ih h2)
  | edge hmem hp ih =>
    intro n2 q3 s2 h2
    rw [Nat.add_right_comm]
    exact NfaPathN.edge hmem (ih h2)

theorem pathN_dead {g : Store} {q : Nat} (h : g.lookup q = some ⟨[], []⟩) :
    ∀ {n t s}, NfaPathN g n q t s → t = q ∧ s = [] ∧ n = 0 := by
  intro n t s hp
  cases hp with
  | refl q => exact ⟨rfl, rfl, rfl⟩
  | eps hmem hp =>
    rw [epsSuccs_of_lookup h] at hmem
    exact absurd hmem (List.not_mem_nil _)
  | edge hmem hp =>
    rw [edgeTargets_of_dead h] at hmem
    exact absurd hmem (List.not_mem_nil _)

theorem path_transfer {g g2 : Store} {R : Nat → Prop}
    (hagree : ∀ q, R q → g.lookup q = g2.lookup q)
    (hclosed : ∀ q, R q → (∀ y ∈ g.epsSuccs q, R y) ∧
      ∀ a, ∀ y ∈ g.edgeTargets q a, R y) :
    ∀ {n q t s}, NfaPathN g n q t s → R q → NfaPathN g2 n q t s := by
  intro n q t s h
  induction h with
  | refl q => exact fun _ => NfaPathN.refl q
  | eps hmem hp ih =>
    rename_i n q1 q2 q3 s
    intro hR
    have hR2 : R q2 := (hclosed q1 hR).1 q2 hmem
    refine NfaPathN.eps ?_ (ih hR2)
    rw [← epsSuccs_congr (hagree q1 hR)]
    exact hmem
  | edge hmem hp ih =>
    rename_i n q1 q2 q3 a s
    intro hR
    have hR2 : R q2 := (hclosed q1 hR).2 a q2 hmem
    refine NfaPathN.edge ?_ (ih hR2)
    rw [← edgeTargets_congr (hagree q1 hR) a]
    exact hmem

theorem path_confine {g g2 : Store} {R : Nat → Prop} {x : Nat}
    (hagree : ∀ q, R q → q ≠ x → g.lookup q = g2.lookup q)
    (hclosed : ∀ q, R q → q ≠ x → (∀ y ∈ g.epsSuccs q, R y) ∧
      ∀ a, ∀ y ∈ g.edgeTargets q a, R y) :
    ∀ {n q t s}, NfaPathN g n q t s → R q → ¬ R t →
    ∃ n1 n2 s1 s2, n1 + n2 = n ∧ s = s1 ++ s2 ∧
      NfaPathN g2 n1 q x s1 ∧ NfaPathN g n2 x t s2 := by
  intro n q t s h
  induction h with
  | refl q => exact fun hR hnt => absurd hR hnt
  | eps hmem hp ih =>
    rename_i n q1 q2 q3 s
    intro hR hnt
    by_cases hqx : q1 = x
    · subst hqx
      exact ⟨0, n + 1, [], s, by omega, rfl, NfaPathN.refl _,
        NfaPathN.eps hmem hp⟩
    · have hR2 : R q2 := (hclosed q1 hR hqx).1 q2 hmem
      obtain ⟨n1, n2, s1, s2, hn, hs, hp1, hp2⟩ := ih hR2 hnt
      refine ⟨n1 + 1, n2, s1, s2, by omega, hs, ?_, hp2⟩
      refine NfaPathN.eps ?_ hp1
      rw [← epsSuccs_congr (hagree q1 hR hqx)]
      exact hmem
  | edge hmem hp ih =>
    rename_i n q1 q2 q3 a s
    intro hR hnt
    by_cases hqx : q1 = x
    · subst hqx
      exact ⟨0, n + 1, [], a :: s, by omega, rfl, NfaPathN.refl _,
        NfaPathN.edge hmem hp⟩
    · have hR2 : R q2 := (hclosed q1 hR hqx).2 a q2 hmem
      obtain ⟨n1, n2, s1, s2, hn, hs, hp1, hp2⟩ := ih hR2 hnt
      refine ⟨n1 + 1, n2, a :: s1, s2, by omega, by rw [hs]; rfl, ?_, hp2⟩
      refine NfaPathN.edge ?_ hp1
      rw [← edgeTargets_congr (hagree q1 hR hqx) a]
      exact hmem

theorem buildLoop_cons_ok {c : Char} {g : Store} {cnt : Nat}
    {frags : List NFAFrag} {g1 : Store} {cnt1 : Nat} {frags1 : List NFAFrag}
    (h : buildStep c g cnt frags = Except.ok (g1, cnt1, frags1))
    (cs : List Char) :
    buildLoop (c :: cs) g cnt frags = buildLoop cs g1 cnt1 frags1 := by
  simp only [buildLoop]
  rw [h]

theorem buildStep_alnum2 {c : Char} (hc : c.isAlphanum = true) (g : Store)
    (cnt : Nat) (frags : List NFAFrag) :
    buildStep c g cnt frags = Except.ok
      ((g ++ [(cnt, (⟨[], []⟩ : StateRec))] ++ [(cnt + 1, (⟨[], []⟩ : StateRec))]).setEdge cnt c
        [cnt + 1], cnt + 2, ⟨cnt, cnt + 1⟩ :: frags) := by
  simp [buildStep, hc, Store.alloc]

theorem buildStep_dot (g : Store) (cnt : Nat) (f1 f2 : NFAFrag)
    (frags : List NFAFrag) :
    buildStep '.' g cnt (f2 :: f1 :: frags) = Except.ok
      (g.addEps f1.accept [f2.start], cnt, ⟨f1.start, f2.accept⟩ :: frags) := by
  simp [buildStep, (by decide : ('.' : Char).isAlphanum = false)]

theorem buildStep_bar (g : Store) (cnt : Nat) (f1 f2 : NFAFrag)
    (frags : List NFAFrag) :
    buildStep '|' g cnt (f2 :: f1 :: frags) = Except.ok
      ((((g ++ [(cnt, (⟨[], []⟩ : StateRec))] ++ [(cnt + 1, (⟨[], []⟩ : StateRec))]).addEps cnt
          [f1.start, f2.start]).addEps f1.accept [cnt + 1]).addEps f2.accept
        [cnt + 1], cnt + 2, ⟨cnt, cnt + 1⟩ :: frags) := by
  simp [buildStep, (by decide : ('|' : Char).isAlphanum = false),
    Store.alloc]

theorem buildStep_star2 (g : Store) (cnt : Nat) (f1 : NFAFrag)
    (frags : List NFAFrag) :
    buildStep '*' g cnt (f1 :: frags) = Except.ok
      (((g ++ [(cnt, (⟨[], []⟩ : StateRec))] ++ [(cnt + 1, (⟨[], []⟩ : StateRec))]).addEps cnt
          [f1.start, cnt + 1]).addEps f1.accept [f1.start, cnt + 1],
        cnt + 2, ⟨cnt, cnt + 1⟩ :: frags) := by
  simp [buildStep, (by decide : ('*' : Char).isAlphanum = false),
    Store.alloc]

theorem rematch_lit {c : Char} {s : List Char} (h : REMatch (RE.lit c) s) :
    s = [c] := by
  cases h
  rfl

theorem rematch_cat {e1 e2 : RE} {s : List Char}
    (h : REMatch (RE.cat e1 e2) s) :
    ∃ s1 s2, s = s1 ++ s2 ∧ REMatch e1 s1 ∧ REMatch e2 s2 := by
  cases h with
  | cat h1 h2 => exact ⟨_, _, rfl, h1, h2⟩

theorem rematch_alt {e1 e2 : RE} {s : List Char}
    (h : REMatch (RE.alt e1 e2) s) : REMatch e1 s ∨ REMatch e2 s := by
  cases h with
  | altl h => exact Or.inl h
  | altr h => exact Or.inr h

theorem path_lit {g3 : Store} {cnt : Nat} {c : Char}
    (hstart : g3.lookup cnt = some ⟨[(c, [cnt + 1])], []⟩)
    (hacc : g3.lookup (cnt + 1) = some ⟨[], []⟩) (s : List Char) :
    NfaPath g3 cnt (cnt + 1) s ↔ REMatch (RE.lit c) s := by
  constructor
  · rintro ⟨n, hp⟩
    cases hp with
    | eps hmem hp2 =>
      rw [epsSuccs_of_lookup hstart] at hmem
      exact absurd hmem (List.not_mem_nil _)
    | edge hmem hp2 =>
      rename_i m q2 a s2
      rw [edgeTargets_single hstart a] at hmem
      by_cases hac : a = c
      · rw [if_pos hac] at hmem
        have hq2 : q2 = cnt + 1 := List.mem_singleton.mp hmem
        subst hq2
        obtain ⟨-, hs2, -⟩ := pathN_dead hacc hp2
        subst hs2
        subst hac
        exact REMatch.lit
      · rw [if_neg hac] at hmem
        exact absurd hmem (List.not_mem_nil _)
  · intro h
    have hs := rematch_lit h
    subst hs
    refine ⟨1, ?_⟩
    refine NfaPathN.edge ?_ (NfaPathN.refl (cnt + 1))
    rw [edgeTargets_single hstart c, if_pos rfl]
    exact List.mem_singleton_self _

theorem buildout_lit {g g3 : Store} {cnt : Nat} {c : Char}
    (hg3 : g3 = (g ++ [(cnt, (⟨[], []⟩ : StateRec))] ++
      [(cnt + 1, (⟨[], []⟩ : StateRec))]).setEdge cnt c [cnt + 1])
    (hkg : g.keys = List.range cnt) (hsb : SuccsBelow g cnt) :
    BuildOut (RE.lit c) g g3 cnt (cnt + 2) ⟨cnt, cnt + 1⟩ ∧
    SuccsBelow g3 (cnt + 2) := by
  have hnm : cnt ∉ g.keys := by rw [hkg, List.mem_range]; omega
  have hnm1 : cnt + 1 ∉ (g ++ [(cnt, (⟨[], []⟩ : StateRec))]).keys := by
    rw [keys_alloc, hkg, ← List.range_succ, List.mem_range]; omega
  have hl1 := lookup_append_one (⟨[], []⟩ : StateRec) hnm
  have hl2 := lookup_append_one (⟨[], []⟩ : StateRec) hnm1
  have hG2cnt : (g ++ [(cnt, (⟨[], []⟩ : StateRec))] ++
      [(cnt + 1, (⟨[], []⟩ : StateRec))]).lookup cnt = some ⟨[], []⟩ := by
    rw [hl2 cnt, if_neg (by omega), hl1 cnt, if_pos rfl]
  have hstart : g3.lookup cnt = some ⟨[(c, [cnt + 1])], []⟩ := by
    rw [hg3]
    exact lookup_modify_eq _ hG2cnt
  have hne : ∀ q, q ≠ cnt → g3.lookup q =
      (g ++ [(cnt, (⟨[], []⟩ : StateRec))] ++
      [(cnt + 1, (⟨[], []⟩ : StateRec))]).lookup q := by
    intro q hq
    rw [hg3]
    exact lookup_modify_ne _ hq
  have hacc : g3.lookup (cnt + 1) = some ⟨[], []⟩ := by
    rw [hne _ (by omega), hl2 (cnt + 1), if_pos rfl]
  have hframe : ∀ q, q ≠ cnt → q ≠ cnt + 1 → g3.lookup q = g.lookup q := by
    intro q h1 h2
    rw [hne q h1, hl2 q, if_neg h2, hl1 q, if_neg h1]
  have hkeys : g3.keys = List.range (cnt + 2) := by
    rw [hg3]
    unfold Store.setEdge
    rw [keys_modify, keys_alloc, keys_alloc, hkg, ← List.range_succ,
      ← List.range_succ]
  refine ⟨⟨by omega, hkeys, fun q hq => hframe q (by omega) (by omega),
    ⟨le_rfl, show cnt < cnt + 2 by omega⟩,
    ⟨show cnt ≤ cnt + 1 by omega, show cnt + 1 < cnt + 2 by omega⟩,
    show cnt ≠ cnt + 1 by omega, ?_, hacc, ?_,
    fun s => path_lit hstart hacc s⟩, ?_⟩
  · intro q hq1 hq2
    have hq : q = cnt ∨ q = cnt + 1 := by omega
    rcases hq with rfl | rfl
    · constructor
      · rw [epsSuccs_of_lookup hstart]
        intro y hy
        exact absurd hy (List.not_mem_nil y)
      · intro a y hy
        rw [edgeTargets_single hstart a] at hy
        by_cases hac : a = c
        · rw [if_pos hac] at hy
          have := List.mem_singleton.mp hy
          omega
        · rw [if_neg hac] at hy
          exact absurd hy (List.not_mem_nil y)
    · constructor
      · rw [epsSuccs_of_lookup hacc]
        intro y hy
        exact absurd hy (List.not_mem_nil y)
      · intro a y hy
        rw [edgeTargets_of_dead hacc a] at hy
        exact absurd hy (List.not_mem_nil y)
  · rw [hg3]
    exact storeLE_trans (storeLE_append g _)
      (storeLE_trans (storeLE_append _ _) (storeLE_setEdge _ _ _ _))
  · intro q
    by_cases h1 : q = cnt
    · subst h1
      constructor
      · rw [epsSuccs_of_lookup hstart]
        intro y hy
        exact absurd hy (List.not_mem_nil y)
      · intro a y hy
        rw [edgeTargets_single hstart a] at hy
        by_cases hac : a = c
        · rw [if_pos hac] at hy
          have := List.mem_singleton.mp hy
          omega
        · rw [if_neg hac] at hy
          exact absurd hy (List.not_mem_nil y)
    · by_cases h2 : q = cnt + 1
      · subst h2
        constructor
        · rw [epsSuccs_of_lookup hacc]
          intro y hy
          exact absurd hy (List.not_mem_nil y)
        · intro a y hy
          rw [edgeTargets_of_dead hacc a] at hy
          exact absurd hy (List.not_mem_nil y)
      · have hfq := hframe q h1 h2
        constructor
        · intro y hy
          rw [epsSuccs_congr hfq] at hy
          have := (hsb q).1 y hy
          omega
        · intro a y hy
          rw [edgeTargets_congr hfq a] at hy
          have := (hsb q).2 a y hy
          omega

theorem edgeTargets_of_noedges {g : Store} {q : Nat} {eps : List Nat}
    (h : g.lookup q = some ⟨[], eps⟩) (a : Char) : g.edgeTargets q a = [] := by
  unfold Store.edgeTargets
  rw [h]
  rfl

theorem pathN_eps_only {g : Store} {q : Nat} {eps : List Nat}
    (h : g.lookup q = some ⟨[], eps⟩) :
    ∀ {n t s}, NfaPathN g n q t s →
      (t = q ∧ s = [] ∧ n = 0) ∨
      ∃ m y, n = m + 1 ∧ y ∈ eps ∧ NfaPathN g m y t s := by
  intro n t s hp
  cases hp with
  | refl q => exact Or.inl ⟨rfl, rfl, rfl⟩
  | eps hmem hp2 =>
    rw [epsSuccs_of_lookup h] at hmem
    exact Or.inr ⟨_, _, rfl, hmem, hp2⟩
  | edge hmem hp2 =>
    rw [edgeTargets_of_noedges h] at hmem
    exact absurd hmem (List.not_mem_nil _)

theorem buildout_cat {e1 e2 : RE} {g g1 g2 g3 : Store} {cnt cnt1 cnt2 : Nat}
    {f1 f2 : NFAFrag}
    (hg3 : g3 = g2.addEps f1.accept [f2.start])
    (h1 : BuildOut e1 g g1 cnt cnt1 f1)
    (h2 : BuildOut e2 g1 g2 cnt1 cnt2 f2) :
    BuildOut (RE.cat e1 e2) g g3 cnt cnt2 ⟨f1.start, f2.accept⟩ ∧
    (SuccsBelow g2 cnt2 → SuccsBelow g3 cnt2) := by
  obtain ⟨hlt1, hkeys1, hframe1, hs1, ha1, hnf1, hreg1, hdead1, hle1, hsem1⟩ := h1
  obtain ⟨hlt2, hkeys2, hframe2, hs2, ha2, hnf2, hreg2, hdead2, hle2, hsem2⟩ := h2
  have hg2acc1 : g2.lookup f1.accept = some ⟨[], []⟩ := by
    rw [hframe2 f1.accept ha1.2]
    exact hdead1
  have hacc1eps : g3.lookup f1.accept = some ⟨[], [f2.start]⟩ := by
    rw [hg3]
    exact lookup_modify_eq _ hg2acc1
  have hne3 : ∀ q, q ≠ f1.accept → g3.lookup q = g2.lookup q := by
    intro q hq
    rw [hg3]
    exact lookup_modify_ne _ hq
  have hle23 : StoreLE g2 g3 := by
    rw [hg3]
    exact storeLE_addEps g2 _ _
  have hagree1 : ∀ q, (cnt ≤ q ∧ q < cnt1) → q ≠ f1.accept →
      g3.lookup q = g1.lookup q :=
    fun q hq hne => (hne3 q hne).trans (hframe2 q hq.2)
  have hclosed1 : ∀ q, (cnt ≤ q ∧ q < cnt1) → q ≠ f1.accept →
      (∀ y ∈ g3.epsSuccs q, cnt ≤ y ∧ y < cnt1) ∧
      ∀ a, ∀ y ∈ g3.edgeTargets q a, cnt ≤ y ∧ y < cnt1 := by
    intro q hq hne
    have hag := hagree1 q hq hne
    constructor
    · intro y hy
      rw [epsSuccs_congr hag] at hy
      exact (hreg1 q hq.1 hq.2).1 y hy
    · intro a y hy
      rw [edgeTargets_congr hag a] at hy
      exact (hreg1 q hq.1 hq.2).2 a y hy
  have hagree2 : ∀ q, (cnt1 ≤ q ∧ q < cnt2) → g3.lookup q = g2.lookup q := by
    intro q hq
    refine hne3 q ?_
    intro heq
    rw [heq] at hq
    have := ha1.2
    omega
  have hclosed2 : ∀ q, (cnt1 ≤ q ∧ q < cnt2) →
      (∀ y ∈ g3.epsSuccs q, cnt1 ≤ y ∧ y < cnt2) ∧
      ∀ a, ∀ y ∈ g3.edgeTargets q a, cnt1 ≤ y ∧ y < cnt2 := by
    intro q hq
    have hag := hagree2 q hq
    constructor
    · intro y hy
      rw [epsSuccs_congr hag] at hy
      exact (hreg2 q hq.1 hq.2).1 y hy
    · intro a y hy
      rw [edgeTargets_congr hag a] at hy
      exact (hreg2 q hq.1 hq.2).2 a y hy
  refine ⟨⟨by omega, ?_, ?_,
    ⟨show cnt ≤ f1.start by omega, show f1.start < cnt2 by omega⟩,
    ⟨show cnt ≤ f2.accept by omega, show f2.accept < cnt2 by omega⟩,
    show f1.start ≠ f2.accept by omega, ?_, ?_,
    storeLE_trans hle1 (storeLE_trans hle2 hle23), ?_⟩, ?_⟩
  · rw [hg3]
    unfold Store.addEps
    rw [keys_modify]
    exact hkeys2
  · intro q hq
    rw [hne3 q (by omega), hframe2 q (by omega)]
    exact hframe1 q hq
  · intro q hq1 hq2
    by_cases hqa : q = f1.accept
    · subst hqa
      constructor
      · intro y hy
        rw [epsSuccs_of_lookup hacc1eps] at hy
        have hyv : y = f2.start := List.mem_singleton.mp hy
        have := hs2.1
        have := hs2.2
        omega
      · intro a y hy
        rw [edgeTargets_of_noedges hacc1eps a] at hy
        exact absurd hy (List.not_mem_nil y)
    · by_cases hql : q < cnt1
      · have hag : g3.lookup q = g1.lookup q :=
          (hne3 q hqa).trans (hframe2 q hql)
        constructor
        · intro y hy
          rw [epsSuccs_congr hag] at hy
          have := (hreg1 q hq1 hql).1 y hy
          omega
        · intro a y hy
          rw [edgeTargets_congr hag a] at hy
          have := (hreg1 q hq1 hql).2 a y hy
          omega
      · have hag : g3.lookup q = g2.lookup q := hne3 q hqa
        constructor
        · intro y hy
          rw [epsSuccs_congr hag] at hy
          have := (hreg2 q (by omega) hq2).1 y hy
          omega
        · intro a y hy
          rw [edgeTargets_congr hag a] at hy
          have := (hreg2 q (by omega) hq2).2 a y hy
          omega
  · show g3.lookup f2.accept = some ⟨[], []⟩
    rw [hne3 f2.accept (by omega)]
    exact hdead2
  · intro s
    constructor
    · rintro ⟨n, hp⟩
      have hpb : NfaPathN g3 n f1.start f2.accept s := hp
      obtain ⟨n1, n2, s1, s2, hn, hs, hp1, hp2⟩ :=
        path_confine hagree1 hclosed1 hpb hs1 (by omega)
      have hm1 : REMatch e1 s1 := (hsem1 s1).mp ⟨n1, hp1⟩
      rcases pathN_eps_only hacc1eps hp2 with ⟨heq, -, -⟩ |
        ⟨m, y, hn2, hymem, hp3⟩
      · exact absurd heq (by omega)
      · have hy : y = f2.start := List.mem_singleton.mp hymem
        subst hy
        have hp4 : NfaPathN g2 m f2.start f2.accept s2 :=
          path_transfer hagree2 hclosed2 hp3 hs2
        have hm2 : REMatch e2 s2 := (hsem2 s2).mp ⟨m, hp4⟩
        rw [hs]
        exact REMatch.cat hm1 hm2
    · intro h
      obtain ⟨s1, s2, hs, hm1, hm2⟩ := rematch_cat h
      obtain ⟨n1, hp1⟩ := (hsem1 s1).mpr hm1
      obtain ⟨n2, hp2⟩ := (hsem2 s2).mpr hm2
      have hp1b := pathN_mono (storeLE_trans hle2 hle23) hp1
      have hp2b := pathN_mono hle23 hp2
      have hmid : f2.start ∈ g3.epsSuccs f1.accept := by
        rw [epsSuccs_of_lookup hacc1eps]
        exact List.mem_singleton_self _
      refine ⟨n1 + (n2 + 1), ?_⟩
      rw [hs]
      exact pathN_append hp1b (NfaPathN.eps hmid hp2b)
  · intro hsb2 q
    by_cases hqa : q = f1.accept
    · subst hqa
      constructor
      · intro y hy
        rw [epsSuccs_of_lookup hacc1eps] at hy
        have hyv : y = f2.start := List.mem_singleton.mp hy
        have := hs2.2
        omega
      · intro a y hy
        rw [edgeTargets_of_noedges hacc1eps a] at hy
        exact absurd hy (List.not_mem_nil y)
    · have hag := hne3 q hqa
      constructor
      · intro y hy
        rw [epsSuccs_congr hag] at hy
        exact (hsb2 q).1 y hy
      · intro a y hy
        rw [edgeTargets_congr hag a] at hy
        exact (hsb2 q).2 a y hy

theorem pathN_snoc_eps {g : Store} {n q1 q2 q3 : Nat} {s : List Char}
    (hp : NfaPathN g n q1 q2 s) (hmem : q3 ∈ g.epsSuccs q2) :
    NfaPathN g (n + 1) q1 q3 s := by
  have h2 := pathN_append hp (NfaPathN.eps hmem (NfaPathN.refl q3))
  rw [List.append_nil] at h2
  exact h2

theorem buildout_alt {e1 e2 : RE} {g g1 g2 gA gB gC g3 : Store}
    {cnt cnt1 cnt2 : Nat} {f1 f2 : NFAFrag}
    (hgA : gA = g2 ++ [(cnt2, (⟨[], []⟩ : StateRec))] ++
      [(cnt2 + 1, (⟨[], []⟩ : StateRec))])
    (hgB : gB = gA.addEps cnt2 [f1.start, f2.start])
    (hgC : gC = gB.addEps f1.accept [cnt2 + 1])
    (hg3 : g3 = gC.addEps f2.accept [cnt2 + 1])
    (h1 : BuildOut e1 g g1 cnt cnt1 f1)
    (h2 : BuildOut e2 g1 g2 cnt1 cnt2 f2)
    (hkg2 : g2.keys = List.range cnt2) :
    BuildOut (RE.alt e1 e2) g g3 cnt (cnt2 + 2) ⟨cnt2, cnt2 + 1⟩ ∧
    (SuccsBelow g2 cnt2 → SuccsBelow g3 (cnt2 + 2)) := by
  obtain ⟨hlt1, hkeys1, hframe1, hs1, ha1, hnf1, hreg1, hdead1, hle1, hsem1⟩ := h1
  obtain ⟨hlt2, hkeys2, hframe2, hs2, ha2, hnf2, hreg2, hdead2, hle2, hsem2⟩ := h2
  have hnm : cnt2 ∉ g2.keys := by rw [hkg2, List.mem_range]; omega
  have hnm1 : cnt2 + 1 ∉ (g2 ++ [(cnt2, (⟨[], []⟩ : StateRec))]).keys := by
    rw [keys_alloc, hkg2, ← List.range_succ, List.mem_range]; omega
  have hlA : ∀ q, gA.lookup q = if q = cnt2 + 1 then some ⟨[], []⟩
      else if q = cnt2 then some ⟨[], []⟩ else g2.lookup q := by
    intro q
    rw [hgA, lookup_append_one (⟨[], []⟩ : StateRec) hnm1 q,
      lookup_append_one (⟨[], []⟩ : StateRec) hnm q]
  have hlB : ∀ q, q ≠ cnt2 → gB.lookup q = gA.lookup q := by
    intro q h
    rw [hgB]
    exact lookup_modify_ne _ h
  have hBcnt2 : gB.lookup cnt2 = some ⟨[], [f1.start, f2.start]⟩ := by
    have hbase : gA.lookup cnt2 = some ⟨[], []⟩ := by
      rw [hlA cnt2, if_neg (by omega), if_pos rfl]
    rw [hgB]
    exact lookup_modify_eq _ hbase
  have hlC : ∀ q, q ≠ f1.accept → gC.lookup q = gB.lookup q := by
    intro q h
    rw [hgC]
    exact lookup_modify_ne _ h
  have hCa1 : gC.lookup f1.accept = some ⟨[], [cnt2 + 1]⟩ := by
    have hbase : gB.lookup f1.accept = some ⟨[], []⟩ := by
      rw [hlB _ (by omega), hlA _, if_neg (by omega), if_neg (by omega),
        hframe2 f1.accept (by omega)]
      exact hdead1
    rw [hgC]
    exact lookup_modify_eq _ hbase
  have hl3 : ∀ q, q ≠ f2.accept → g3.lookup q = gC.lookup q := by
    intro q h
    rw [hg3]
    exact lookup_modify_ne _ h
  have h3a2 : g3.lookup f2.accept = some ⟨[], [cnt2 + 1]⟩ := by
    have hbase : gC.lookup f2.accept = some ⟨[], []⟩ := by
      rw [hlC _ (by omega), hlB _ (by omega), hlA _, if_neg (by omega),
        if_neg (by omega)]
      exact hdead2
    rw [hg3]
    exact lookup_modify_eq _ hbase
  have h3start : g3.lookup cnt2 = some ⟨[], [f1.start, f2.start]⟩ := by
    rw [hl3 _ (by omega), hlC _ (by omega), hBcnt2]
  have h3acc : g3.lookup (cnt2 + 1) = some ⟨[], []⟩ := by
    rw [hl3 _ (by omega), hlC _ (by omega), hlB _ (by omega), hlA _,
      if_pos rfl]
  have h3a1 : g3.lookup f1.accept = some ⟨[], [cnt2 + 1]⟩ := by
    rw [hl3 _ (by omega), hCa1]
  have hframe3 : ∀ q, q ≠ cnt2 → q ≠ cnt2 + 1 → q ≠ f1.accept →
      q ≠ f2.accept → g3.lookup q = g2.lookup q := by
    intro q hq1 hq2 hq3 hq4
    rw [hl3 _ hq4, hlC _ hq3, hlB _ hq1, hlA _, if_neg hq2, if_neg hq1]
  have hkeys3 : g3.keys = List.range (cnt2 + 2) := by
    rw [hg3, hgC, hgB, hgA]
    unfold Store.addEps
    rw [keys_modify, keys_modify, keys_modify, keys_alloc, keys_alloc, hkg2,
      ← List.range_succ, ← List.range_succ]
  have hle23 : StoreLE g2 g3 := by
    rw [hg3, hgC, hgB, hgA]
    exact storeLE_trans (storeLE_append _ _)
      (storeLE_trans (storeLE_append _ _)
      (storeLE_trans (storeLE_addEps _ _ _)
      (storeLE_trans (storeLE_addEps _ _ _) (storeLE_addEps _ _ _))))
  have hagree1 : ∀ q, (cnt ≤ q ∧ q < cnt1) → q ≠ f1.accept →
      g3.lookup q = g1.lookup q := by
    intro q hq hne
    rw [hframe3 q (by omega) (by omega) hne (by omega), hframe2 q (by omega)]
  have hclosed1 : ∀ q, (cnt ≤ q ∧ q < cnt1) → q ≠ f1.accept →
      (∀ y ∈ g3.epsSuccs q, cnt ≤ y ∧ y < cnt1) ∧
      ∀ a, ∀ y ∈ g3.edgeTargets q a, cnt ≤ y ∧ y < cnt1 := by
    intro q hq hne
    have hag := hagree1 q hq hne
    constructor
    · intro y hy
      rw [epsSuccs_congr hag] at hy
      exact (hreg1 q hq.1 hq.2).1 y hy
    · intro a y hy
      rw [edgeTargets_congr hag a] at hy
      exact (hreg1 q hq.1 hq.2).2 a y hy
  have hagree2 : ∀ q, (cnt1 ≤ q ∧ q < cnt2) → q ≠ f2.accept →
      g3.lookup q = g2.lookup q := by
    intro q hq hne
    exact hframe3 q (by omega) (by omega) (by omega) hne
  have hclosed2 : ∀ q, (cnt1 ≤ q ∧ q < cnt2) → q ≠ f2.accept →
      (∀ y ∈ g3.epsSuccs q, cnt1 ≤ y ∧ y < cnt2) ∧
      ∀ a, ∀ y ∈ g3.edgeTargets q a, cnt1 ≤ y ∧ y < cnt2 := by
    intro q hq hne
    have hag := hagree2 q hq hne
    constructor
    · intro y hy
      rw [epsSuccs_congr hag] at hy
      exact (hreg2 q hq.1 hq.2).1 y hy
    · intro a y hy
      rw [edgeTargets_congr hag a] at hy
      exact (hreg2 q hq.1 hq.2).2 a y hy
  refine ⟨⟨by omega, hkeys3, ?_,
    ⟨show cnt ≤ cnt2 by omega, show cnt2 < cnt2 + 2 by omega⟩,
    ⟨show cnt ≤ cnt2 + 1 by omega, show cnt2 + 1 < cnt2 + 2 by omega⟩,
    show cnt2 ≠ cnt2 + 1 by omega, ?_, h3acc,
    storeLE_trans hle1 (storeLE_trans hle2 hle23), ?_⟩, ?_⟩
  · intro q hq
    rw [hframe3 q (by omega) (by omega) (by omega) (by omega),
      hframe2 q (by omega)]
    exact hframe1 q hq
  · intro q hq1 hq2
    by_cases hq3 : q = cnt2
    · subst hq3
      constructor
      · intro y hy
        rw [epsSuccs_of_lookup h3start] at hy
        rcases List.mem_cons.mp hy with rfl | hy2
        · omega
        · have : y = f2.start := List.mem_singleton.mp hy2
          omega
      · intro a y hy
        rw [edgeTargets_of_noedges h3start a] at hy
        exact absurd hy (List.not_mem_nil y)
    · by_cases hq4 : q = cnt2 + 1
      · subst hq4
        constructor
        · intro y hy
          rw [epsSuccs_of_lookup h3acc] at hy
          exact absurd hy (List.not_mem_nil y)
        · intro a y hy
          rw [edgeTargets_of_noedges h3acc a] at hy
          exact absurd hy (List.not_mem_nil y)
      · by_cases hq5 : q = f1.accept
        · subst hq5
          constructor
          · intro y hy
            rw [epsSuccs_of_lookup h3a1] at hy
            have : y = cnt2 + 1 := List.mem_singleton.mp hy
            omega
          · intro a y hy
            rw [edgeTargets_of_noedges h3a1 a] at hy
            exact absurd hy (List.not_mem_nil y)
        · by_cases hq6 : q = f2.accept
          · subst hq6
            constructor
            · intro y hy
              rw [epsSuccs_of_lookup h3a2] at hy
              have : y = cnt2 + 1 := List.mem_singleton.mp hy
              omega
            · intro a y hy
              rw [edgeTargets_of_noedges h3a2 a] at hy
              exact absurd hy (List.not_mem_nil y)
          · by_cases hql : q < cnt1
            · have hag : g3.lookup q = g1.lookup q :=
                hagree1 q ⟨hq1, hql⟩ hq5
              constructor
              · intro y hy
                rw [epsSuccs_congr hag] at hy
                have := (hreg1 q hq1 hql).1 y hy
                omega
              · intro a y hy
                rw [edgeTargets_congr hag a] at hy
                have := (hreg1 q hq1 hql).2 a y hy
                omega
            · have hag : g3.lookup q = g2.lookup q :=
                hframe3 q hq3 hq4 hq5 hq6
              constructor
              · intro y hy
                rw [epsSuccs_congr hag] at hy
                have := (hreg2 q (by omega) (by omega)).1 y hy
                omega
              · intro a y hy
                rw [edgeTargets_congr hag a] at hy
                have := (hreg2 q (by omega) (by omega)).2 a y hy
                omega
  · intro s
    constructor
    · rintro ⟨n, hp⟩
      have hpb : NfaPathN g3 n cnt2 (cnt2 + 1) s := hp
      rcases pathN_eps_only h3start hpb with ⟨heq, -, -⟩ |
        ⟨m, y, -, hymem, hp3⟩
      · exact absurd heq (by omega)
      · rcases List.mem_cons.mp hymem with rfl | hy2
        · obtain ⟨n1, n2, s1, s2, -, hs, hp1, hp2⟩ :=
            path_confine hagree1 hclosed1 hp3 hs1
              (show ¬(cnt ≤ cnt2 + 1 ∧ cnt2 + 1 < cnt1) by omega)
          have hm1 : REMatch e1 s1 := (hsem1 s1).mp ⟨n1, hp1⟩
          rcases pathN_eps_only h3a1 hp2 with ⟨heq2, -, -⟩ |
            ⟨m2, y2, -, hy2mem, hp4⟩
          · exact absurd heq2 (by omega)
          · have hyv : y2 = cnt2 + 1 := List.mem_singleton.mp hy2mem
            subst hyv
            obtain ⟨-, hs2nil, -⟩ := pathN_dead h3acc hp4
            subst hs2nil
            rw [hs, List.append_nil]
            exact REMatch.altl hm1
        · have hyv : y = f2.start := List.mem_singleton.mp hy2
          subst hyv
          obtain ⟨n1, n2, s1, s2, -, hs, hp1, hp2⟩ :=
            path_confine hagree2 hclosed2 hp3 hs2
              (show ¬(cnt1 ≤ cnt2 + 1 ∧ cnt2 + 1 < cnt2) by omega)
          have hm2 : REMatch e2 s1 := (hsem2 s1).mp ⟨n1, hp1⟩
          rcases pathN_eps_only h3a2 hp2 with ⟨heq2, -, -⟩ |
            ⟨m2, y2, -, hy2mem, hp4⟩
          · exact absurd heq2 (by omega)
          · have hyv : y2 = cnt2 + 1 := List.mem_singleton.mp hy2mem
            subst hyv
            obtain ⟨-, hs2nil, -⟩ := pathN_dead h3acc hp4
            subst hs2nil
            rw [hs, List.append_nil]
            exact REMatch.altr hm2
    · intro h
      rcases rematch_alt h with hm1 | hm2
      · obtain ⟨n1, hp1⟩ := (hsem1 s).mpr hm1
        have hp1b := pathN_mono
          (storeLE_trans hle2 hle23) hp1
        refine ⟨n1 + 1 + 1, ?_⟩
        refine NfaPathN.eps ?_ (pathN_snoc_eps hp1b ?_)
        · rw [epsSuccs_of_lookup h3start]
          exact List.mem_cons_self _ _
        · rw [epsSuccs_of_lookup h3a1]
          exact List.mem_singleton_self _
      · obtain ⟨n1, hp1⟩ := (hsem2 s).mpr hm2
        have hp1b := pathN_mono hle23 hp1
        refine ⟨n1 + 1 + 1, ?_⟩
        refine NfaPathN.eps ?_ (pathN_snoc_eps hp1b ?_)
        · rw [epsSuccs_of_lookup h3start]
          exact List.mem_cons_of_mem _ (List.mem_singleton_self _)
        · rw [epsSuccs_of_lookup h3a2]
          exact List.mem_singleton_self _
  · intro hsb2 q
    by_cases hq3 : q = cnt2
    · subst hq3
      constructor
      · intro y hy
        rw [epsSuccs_of_lookup h3start] at hy
        rcases List.mem_cons.mp hy with rfl | hy2
        · omega
        · have : y = f2.start := List.mem_singleton.mp hy2
          omega
      · intro a y hy
        rw [edgeTargets_of_noedges h3start a] at hy
        exact absurd hy (List.not_mem_nil y)
    · by_cases hq4 : q = cnt2 + 1
      · subst hq4
        constructor
        · intro y hy
          rw [epsSuccs_of_lookup h3acc] at hy
          exact absurd hy (List.not_mem_nil y)
        · intro a y hy
          rw [edgeTargets_of_noedges h3acc a] at hy
          exact absurd hy (List.not_mem_nil y)
      · by_cases hq5 : q = f1.accept
        · subst hq5
          constructor
          · intro y hy
            rw [epsSuccs_of_lookup h3a1] at hy
            have : y = cnt2 + 1 := List.mem_singleton.mp hy
            omega
          · intro a y hy
            rw [edgeTargets_of_noedges h3a1 a] at hy
            exact absurd hy (List.not_mem_nil y)
        · by_cases hq6 : q = f2.accept
          · subst hq6
            constructor
            · intro y hy
              rw [epsSuccs_of_lookup h3a2] at hy
              have : y = cnt2 + 1 := List.mem_singleton.mp hy
              omega
            · intro a y hy
              rw [edgeTargets_of_noedges h3a2 a] at hy
              exact absurd hy (List.not_mem_nil y)
          · have hag := hframe3 q hq3 hq4 hq5 hq6
            constructor
            · intro y hy
              rw [epsSuccs_congr hag] at hy
              have := (hsb2 q).1 y hy
              omega
            · intro a y hy
              rw [edgeTargets_congr hag a] at hy
              have := (hsb2 q).2 a y hy
              omega

theorem buildout_star {e1 : RE} {g g1 gA gB g3 : Store}
    {cnt cnt1 : Nat} {f1 : NFAFrag}
    (hgA : gA = g1 ++ [(cnt1, (⟨[], []⟩ : StateRec))] ++
      [(cnt1 + 1, (⟨[], []⟩ : StateRec))])
    (hgB : gB = gA.addEps cnt1 [f1.start, cnt1 + 1])
    (hg3 : g3 = gB.addEps f1.accept [f1.start, cnt1 + 1])
    (h1 : BuildOut e1 g g1 cnt cnt1 f1)
    (hkg1 : g1.keys = List.range cnt1) :
    BuildOut (RE.star e1) g g3 cnt (cnt1 + 2) ⟨cnt1, cnt1 + 1⟩ ∧
    (SuccsBelow g1 cnt1 → SuccsBelow g3 (cnt1 + 2)) := by
  obtain ⟨hlt1, hkeys1, hframe1, hs1, ha1, hnf1, hreg1, hdead1, hle1, hsem1⟩ := h1
  have hnm : cnt1 ∉ g1.keys := by rw [hkg1, List.mem_range]; omega
  have hnm1 : cnt1 + 1 ∉ (g1 ++ [(cnt1, (⟨[], []⟩ : StateRec))]).keys := by
    rw [keys_alloc, hkg1, ← List.range_succ, List.mem_range]; omega
  have hlA : ∀ q, gA.lookup q = if q = cnt1 + 1 then some ⟨[], []⟩
      else if q = cnt1 then some ⟨[], []⟩ else g1.lookup q := by
    intro q
    rw [hgA, lookup_append_one (⟨[], []⟩ : StateRec) hnm1 q,
      lookup_append_one (⟨[], []⟩ : StateRec) hnm q]
  have hlB : ∀ q, q ≠ cnt1 → gB.lookup q = gA.lookup q := by
    intro q h
    rw [hgB]
    exact lookup_modify_ne _ h
  have hBcnt1 : gB.lookup cnt1 = some ⟨[], [f1.start, cnt1 + 1]⟩ := by
    have hbase : gA.lookup cnt1 = some ⟨[], []⟩ := by
      rw [hlA cnt1, if_neg (by omega), if_pos rfl]
    rw [hgB]
    exact lookup_modify_eq _ hbase
  have hl3 : ∀ q, q ≠ f1.accept → g3.lookup q = gB.lookup q := by
    intro q h
    rw [hg3]
    exact lookup_modify_ne _ h
  have h3a1 : g3.lookup f1.accept = some ⟨[], [f1.start, cnt1 + 1]⟩ := by
    have hbase : gB.lookup f1.accept = some ⟨[], []⟩ := by
      rw [hlB _ (by omega), hlA _, if_neg (by omega), if_neg (by omega)]
      exact hdead1
    rw [hg3]
    exact lookup_modify_eq _ hbase
  have h3start : g3.lookup cnt1 = some ⟨[], [f1.start, cnt1 + 1]⟩ := by
    rw [hl3 _ (by omega), hBcnt1]
  have h3acc : g3.lookup (cnt1 + 1) = some ⟨[], []⟩ := by
    rw [hl3 _ (by omega), hlB _ (by omega), hlA _, if_pos rfl]
  have hframe3 : ∀ q, q ≠ cnt1 → q ≠ cnt1 + 1 → q ≠ f1.accept →
      g3.lookup q = g1.lookup q := by
    intro q hq1 hq2 hq3
    rw [hl3 _ hq3, hlB _ hq1, hlA _, if_neg hq2, if_neg hq1]
  have hkeys3 : g3.keys = List.range (cnt1 + 2) := by
    rw [hg3, hgB, hgA]
    unfold Store.addEps
    rw [keys_modify, keys_modify, keys_alloc, keys_alloc, hkg1,
      ← List.range_succ, ← List.range_succ]
  have hle13 : StoreLE g1 g3 := by
    rw [hg3, hgB, hgA]
    exact storeLE_trans (storeLE_append _ _)
      (storeLE_trans (storeLE_append _ _)
      (storeLE_trans (storeLE_addEps _ _ _) (storeLE_addEps _ _ _)))
  have hagree1 : ∀ q, (cnt ≤ q ∧ q < cnt1) → q ≠ f1.accept →
      g3.lookup q = g1.lookup q := by
    intro q hq hne
    exact hframe3 q (by omega) (by omega) hne
  have hclosed1 : ∀ q, (cnt ≤ q ∧ q < cnt1) → q ≠ f1.accept →
      (∀ y ∈ g3.epsSuccs q, cnt ≤ y ∧ y < cnt1) ∧
      ∀ a, ∀ y ∈ g3.edgeTargets q a, cnt ≤ y ∧ y < cnt1 := by
    intro q hq hne
    have hag := hagree1 q hq hne
    constructor
    · intro y hy
      rw [epsSuccs_congr hag] at hy
      exact (hreg1 q hq.1 hq.2).1 y hy
    · intro a y hy
      rw [edgeTargets_congr hag a] at hy
      exact (hreg1 q hq.1 hq.2).2 a y hy
  have main : ∀ n w, NfaPathN g3 n f1.start (cnt1 + 1) w →
      REMatch (RE.star e1) w := by
    intro n
    induction n using Nat.strong_induction_on with
    | _ n ih =>
      intro w hp
      obtain ⟨n1, n2, s1, s2, hn, hs, hp1, hp2⟩ :=
        path_confine hagree1 hclosed1 hp hs1
          (show ¬(cnt ≤ cnt1 + 1 ∧ cnt1 + 1 < cnt1) by omega)
      have hm1 : REMatch e1 s1 := (hsem1 s1).mp ⟨n1, hp1⟩
      rcases pathN_eps_only h3a1 hp2 with ⟨heq, -, -⟩ |
        ⟨m, y, hn2, hymem, hp3⟩
      · exact absurd heq (by omega)
      · rcases List.mem_cons.mp hymem with rfl | hy2
        · have hm2 : REMatch (RE.star e1) s2 := ih m (by omega) s2 hp3
          rw [hs]
          exact REMatch.starcons hm1 hm2
        · have hyv : y = cnt1 + 1 := List.mem_singleton.mp hy2
          subst hyv
          obtain ⟨-, hsnil, -⟩ := pathN_dead h3acc hp3
          subst hsnil
          rw [hs]
          exact REMatch.starcons hm1 REMatch.starnil
  have aux : ∀ {E : RE} {w : List Char}, REMatch E w → E = RE.star e1 →
      NfaPath g3 f1.accept (cnt1 + 1) w := by
    intro E w hm
    induction hm with
    | lit => intro h; cases h
    | cat _ _ _ _ => intro h; cases h
    | altl _ _ => intro h; cases h
    | altr _ _ => intro h; cases h
    | starnil =>
      intro h
      refine ⟨1, NfaPathN.eps ?_ (NfaPathN.refl (cnt1 + 1))⟩
      rw [epsSuccs_of_lookup h3a1]
      exact List.mem_cons_of_mem _ (List.mem_singleton_self _)
    | starcons hm1 hm2 ih1 ih2 =>
      intro h
      injection h with h2
      subst h2
      obtain ⟨n2, hp2⟩ := ih2 rfl
      obtain ⟨n1, hp1⟩ := (hsem1 _).mpr hm1
      have hp1b := pathN_mono hle13 hp1
      refine ⟨(n1 + n2) + 1, NfaPathN.eps ?_ (pathN_append hp1b hp2)⟩
      rw [epsSuccs_of_lookup h3a1]
      exact List.mem_cons_self _ _
  refine ⟨⟨by omega, hkeys3, ?_,
    ⟨show cnt ≤ cnt1 by omega, show cnt1 < cnt1 + 2 by omega⟩,
    ⟨show cnt ≤ cnt1 + 1 by omega, show cnt1 + 1 < cnt1 + 2 by omega⟩,
    show cnt1 ≠ cnt1 + 1 by omega, ?_, h3acc,
    storeLE_trans hle1 hle13, ?_⟩, ?_⟩
  · intro q hq
    rw [hframe3 q (by omega) (by omega) (by omega)]
    exact hframe1 q hq
  · intro q hq1 hq2
    by_cases hq3 : q = cnt1
    · rw [hq3]
      constructor
      · intro y hy
        rw [epsSuccs_of_lookup h3start] at hy
        rcases List.mem_cons.mp hy with rfl | hy2
        · omega
        · have : y = cnt1 + 1 := List.mem_singleton.mp hy2
          omega
      · intro a y hy
        rw [edgeTargets_of_noedges h3start a] at hy
        exact absurd hy (List.not_mem_nil y)
    · by_cases hq4 : q = cnt1 + 1
      · subst hq4
        constructor
        · intro y hy
          rw [epsSuccs_of_lookup h3acc] at hy
          exact absurd hy (List.not_mem_nil y)
        · intro a y hy
          rw [edgeTargets_of_noedges h3acc a] at hy
          exact absurd hy (List.not_mem_nil y)
      · by_cases hq5 : q = f1.accept
        · subst hq5
          constructor
          · intro y hy
            rw [epsSuccs_of_lookup h3a1] at hy
            rcases List.mem_cons.mp hy with rfl | hy2
            · omega
            · have : y = cnt1 + 1 := List.mem_singleton.mp hy2
              omega
          · intro a y hy
            rw [edgeTargets_of_noedges h3a1 a] at hy
            exact absurd hy (List.not_mem_nil y)
        · have hag : g3.lookup q = g1.lookup q := hframe3 q hq3 hq4 hq5
          constructor
          · intro y hy
            rw [epsSuccs_congr hag] at hy
            have := (hreg1 q hq1 (by omega)).1 y hy
            omega
          · intro a y hy
            rw [edgeTargets_congr hag a] at hy
            have := (hreg1 q hq1 (by omega)).2 a y hy
            omega
  · intro s
    constructor
    · rintro ⟨n, hp⟩
      have hpb : NfaPathN g3 n cnt1 (cnt1 + 1) s := hp
      rcases pathN_eps_only h3start hpb with ⟨heq, -, -⟩ |
        ⟨m, y, -, hymem, hp3⟩
      · exact absurd heq (by omega)
      · rcases List.mem_cons.mp hymem with rfl | hy2
        · exact main m s hp3
        · have hyv : y = cnt1 + 1 := List.mem_singleton.mp hy2
          subst hyv
          obtain ⟨-, hsnil, -⟩ := pathN_dead h3acc hp3
          subst hsnil
          exact REMatch.starnil
    · intro h
      cases h with
      | starnil =>
        refine ⟨1, NfaPathN.eps ?_ (NfaPathN.refl (cnt1 + 1))⟩
        rw [epsSuccs_of_lookup h3start]
        exact List.mem_cons_of_mem _ (List.mem_singleton_self _)
      | starcons hm1 hm2 =>
        obtain ⟨n2, hp2⟩ := aux hm2 rfl
        obtain ⟨n1, hp1⟩ := (hsem1 _).mpr hm1
        have hp1b := pathN_mono hle13 hp1
        refine ⟨(n1 + n2) + 1, NfaPathN.eps ?_ (pathN_append hp1b hp2)⟩
        rw [epsSuccs_of_lookup h3start]
        exact List.mem_cons_self _ _
  · intro hsb1 q
    by_cases hq3 : q = cnt1
    · rw [hq3]
      constructor
      · intro y hy
        rw [epsSuccs_of_lookup h3start] at hy
        rcases List.mem_cons.mp hy with rfl | hy2
        · omega
        · have : y = cnt1 + 1 := List.mem_singleton.mp hy2
          omega
      · intro a y hy
        rw [edgeTargets_of_noedges h3start a] at hy
        exact absurd hy (List.not_mem_nil y)
    · by_cases hq4 : q = cnt1 + 1
      · subst hq4
        constructor
        · intro y hy
          rw [epsSuccs_of_lookup h3acc] at hy
          exact absurd hy (List.not_mem_nil y)
        · intro a y hy
          rw [edgeTargets_of_noedges h3acc a] at hy
          exact absurd hy (List.not_mem_nil y)
      · by_cases hq5 : q = f1.accept
        · subst hq5
          constructor
          · intro y hy
            rw [epsSuccs_of_lookup h3a1] at hy
            rcases List.mem_cons.mp hy with rfl | hy2
            · omega
            · have : y = cnt1 + 1 := List.mem_singleton.mp hy2
              omega
          · intro a y hy
            rw [edgeTargets_of_noedges h3a1 a] at hy
            exact absurd hy (List.not_mem_nil y)
        · have hag : g3.lookup q = g1.lookup q := hframe3 q hq3 hq4 hq5
          constructor
          · intro y hy
            rw [epsSuccs_congr hag] at hy
            have := (hsb1 q).1 y hy
            omega
          · intro a y hy
            rw [edgeTargets_congr hag a] at hy
            have := (hsb1 q).2 a y hy
            omega

theorem buildRE (e : RE) : ∀ (ys : List Char) (g : Store) (cnt : Nat)
    (frags : List NFAFrag), REok e = true → g.keys = List.range cnt →
    SuccsBelow g cnt →
    ∃ g2 cnt2 f, buildLoop (postorder e ++ ys) g cnt frags =
        buildLoop ys g2 cnt2 (f :: frags) ∧
      BuildOut e g g2 cnt cnt2 f ∧ SuccsBelow g2 cnt2 := by
  induction e with
  | lit c =>
    intro ys g cnt frags hok hkg hsb
    have hc : c.isAlphanum = true := hok
    refine ⟨_, _, _, ?_, (buildout_lit rfl hkg hsb).1,
      (buildout_lit rfl hkg hsb).2⟩
    rw [show postorder (RE.lit c) ++ ys = c :: ys from rfl]
    exact buildLoop_cons_ok (buildStep_alnum2 hc g cnt frags) ys
  | cat e1 e2 ih1 ih2 =>
    intro ys g cnt frags hok hkg hsb
    rw [show REok (RE.cat e1 e2) = (REok e1 && REok e2) from rfl,
      Bool.and_eq_true] at hok
    obtain ⟨hok1, hok2⟩ := hok
    obtain ⟨g1, cnt1, f1, heq1, hb1, hsb1⟩ :=
      ih1 (postorder e2 ++ ('.' :: ys)) g cnt frags hok1 hkg hsb
    obtain ⟨g2, cnt2, f2, heq2, hb2, hsb2⟩ :=
      ih2 ('.' :: ys) g1 cnt1 (f1 :: frags) hok2 hb1.2.1 hsb1
    refine ⟨g2.addEps f1.accept [f2.start], cnt2, ⟨f1.start, f2.accept⟩, ?_,
      (buildout_cat rfl hb1 hb2).1, (buildout_cat rfl hb1 hb2).2 hsb2⟩
    simp only [postorder]
    rw [List.append_assoc (postorder e1 ++ postorder e2) ['.'] ys,
      List.singleton_append,
      List.append_assoc (postorder e1) (postorder e2) ('.' :: ys),
      heq1, heq2,
      buildLoop_cons_ok (buildStep_dot g2 cnt2 f1 f2 frags) ys]
  | alt e1 e2 ih1 ih2 =>
    intro ys g cnt frags hok hkg hsb
    rw [show REok (RE.alt e1 e2) = (REok e1 && REok e2) from rfl,
      Bool.and_eq_true] at hok
    obtain ⟨hok1, hok2⟩ := hok
    obtain ⟨g1, cnt1, f1, heq1, hb1, hsb1⟩ :=
      ih1 (postorder e2 ++ ('|' :: ys)) g cnt frags hok1 hkg hsb
    obtain ⟨g2, cnt2, f2, heq2, hb2, hsb2⟩ :=
      ih2 ('|' :: ys) g1 cnt1 (f1 :: frags) hok2 hb1.2.1 hsb1
    refine ⟨_, cnt2 + 2, ⟨cnt2, cnt2 + 1⟩, ?_,
      (buildout_alt rfl rfl rfl rfl hb1 hb2 hb2.2.1).1,
      (buildout_alt rfl rfl rfl rfl hb1 hb2 hb2.2.1).2 hsb2⟩
    simp only [postorder]
    rw [List.append_assoc (postorder e1 ++ postorder e2) ['|'] ys,
      List.singleton_append,
      List.append_assoc (postorder e1) (postorder e2) ('|' :: ys),
      heq1, heq2,
      buildLoop_cons_ok (buildStep_bar g2 cnt2 f1 f2 frags) ys]
  | star e1 ih1 =>
    intro ys g cnt frags hok hkg hsb
    have hok1 : REok e1 = true := hok
    obtain ⟨g1, cnt1, f1, heq1, hb1, hsb1⟩ :=
      ih1 ('*' :: ys) g cnt frags hok1 hkg hsb
    refine ⟨_, cnt1 + 2, ⟨cnt1, cnt1 + 1⟩, ?_,
      (buildout_star rfl rfl rfl hb1 hb1.2.1).1,
      (buildout_star rfl rfl rfl hb1 hb1.2.1).2 hsb1⟩
    simp only [postorder]
    rw [List.append_assoc (postorder e1) ['*'] ys,
      List.singleton_append, heq1,
      buildLoop_cons_ok (buildStep_star2 g1 cnt1 f1 frags) ys]

theorem path_nil_iff {g : Store} {q t : Nat} :
    NfaPath g q t [] ↔ Relation.ReflTransGen (epsStep g) q t := by
  constructor
  · rintro ⟨n, hp⟩
    have aux : ∀ {n q t s}, NfaPathN g n q t s → s = ([] : List Char) →
        Relation.ReflTransGen (epsStep g) q t := by
      intro n q t s hp2
      induction hp2 with
      | refl q => exact fun _ => Relation.ReflTransGen.refl
      | eps hmem hp3 ih =>
        exact fun h => Relation.ReflTransGen.head hmem (ih h)
      | edge hmem hp3 ih =>
        intro h
        exact absurd h (List.cons_ne_nil _ _)
    exact aux hp rfl
  · intro h
    induction h with
    | refl => exact ⟨0, NfaPathN.refl q⟩
    | tail h1 h2 ih =>
      obtain ⟨n, hp⟩ := ih
      exact ⟨n + 1, pathN_snoc_eps hp h2⟩

theorem path_cons_decomp {g : Store} :
    ∀ {n q t s0}, NfaPathN g n q t s0 → ∀ {a : Char} {s : List Char},
      s0 = a :: s →
    ∃ z y m, Relation.ReflTransGen (epsStep g) q z ∧
      y ∈ g.edgeTargets z a ∧ NfaPathN g m y t s := by
  intro n q t s0 hp
  induction hp with
  | refl q => intro a s h; cases h
  | eps hmem hp2 ih =>
    intro a s h
    obtain ⟨z, y, m, hr, hy, hpm⟩ := ih h
    exact ⟨z, y, m, Relation.ReflTransGen.head hmem hr, hy, hpm⟩
  | edge hmem hp2 ih =>
    intro a s h
    injection h with h1 h2
    subst h1
    subst h2
    exact ⟨_, _, _, Relation.ReflTransGen.refl, hmem, hp2⟩

theorem accepts_iff_path {g : Store} (hwf : StoreWF g) :
    ∀ (s : List Char) (S : Finset Nat), (∀ x ∈ S, x ∈ g.keys) → ∀ na,
    (na ∈ s.foldl (stepSet g) (epsilonClosure g S) ↔
      ∃ x ∈ S, NfaPath g x na s) := by
  intro s
  induction s with
  | nil =>
    intro S hS na
    rw [List.foldl_nil]
    obtain ⟨-, -, hiff⟩ := epsilonClosure_spec g S hwf hS
    rw [hiff na]
    constructor
    · rintro ⟨x, hx, hr⟩
      exact ⟨x, hx, path_nil_iff.mpr hr⟩
    · rintro ⟨x, hx, hp⟩
      exact ⟨x, hx, path_nil_iff.mp hp⟩
  | cons a s ih =>
    intro S hS na
    rw [List.foldl_cons]
    have hstep : stepSet g (epsilonClosure g S) a =
        epsilonClosure g (move g (epsilonClosure g S) a) := rfl
    rw [hstep]
    have hmv : ∀ x ∈ move g (epsilonClosure g S) a, x ∈ g.keys :=
      move_subset_keys hwf (epsilonClosure g S) a
    rw [ih (move g (epsilonClosure g S) a) hmv na]
    obtain ⟨-, -, hiff⟩ := epsilonClosure_spec g S hwf hS
    constructor
    · rintro ⟨y, hy, hp⟩
      obtain ⟨z, hz, hy2⟩ := Finset.mem_biUnion.mp hy
      have hy3 : y ∈ g.edgeTargets z a := List.mem_toFinset.mp hy2
      obtain ⟨x, hx, hr⟩ := (hiff z).mp hz
      obtain ⟨n0, hp0⟩ := path_nil_iff.mpr hr
      obtain ⟨n, hpn⟩ := hp
      refine ⟨x, hx, n0 + (n + 1), ?_⟩
      have h2 : NfaPathN g (n + 1) z na (a :: s) := NfaPathN.edge hy3 hpn
      have h3 := pathN_append hp0 h2
      rw [List.nil_append] at h3
      exact h3
    · rintro ⟨x, hx, n, hp⟩
      obtain ⟨z, y, m, hr, hy, hpm⟩ := path_cons_decomp hp rfl
      have hz : z ∈ epsilonClosure g S := (hiff z).mpr ⟨x, hx, hr⟩
      have hymem : y ∈ move g (epsilonClosure g S) a :=
        Finset.mem_biUnion.mpr ⟨z, hz, List.mem_toFinset.mpr hy⟩
      exact ⟨y, hymem, m, hpm⟩

theorem nfaSetAccepts_iff_path {g : Store} (hwf : StoreWF g) {ns na : Nat}
    (hns : ns ∈ g.keys) (s : List Char) :
    nfaSetAccepts g ns na s ↔ NfaPath g ns na s := by
  unfold nfaSetAccepts
  rw [accepts_iff_path hwf s {ns}
    (fun x hx => by rw [Finset.mem_singleton] at hx; rw [hx]; exact hns) na]
  constructor
  · rintro ⟨x, hx, hp⟩
    rw [Finset.mem_singleton] at hx
    rw [← hx]
    exact hp
  · intro hp
    exact ⟨ns, Finset.mem_singleton_self ns, hp⟩

theorem rematch_toRegex_mp {e : RE} {s : List Char} (h : REMatch e s) :
    s ∈ e.toRegex.matches' := by
  induction h with
  | lit =>
    rename_i c
    show [c] ∈ ({[c]} : Language Char)
    rfl
  | cat h1 h2 ih1 ih2 =>
    rename_i e1 e2 s1 s2
    show s1 ++ s2 ∈ (RE.toRegex e1).matches' * (RE.toRegex e2).matches'
    exact Language.append_mem_mul ih1 ih2
  | altl h ih =>
    rename_i e1 e2 s1
    show s1 ∈ (RE.toRegex e1).matches' + (RE.toRegex e2).matches'
    exact (Language.mem_add _ _ _).mpr (Or.inl ih)
  | altr h ih =>
    rename_i e1 e2 s1
    show s1 ∈ (RE.toRegex e1).matches' + (RE.toRegex e2).matches'
    exact (Language.mem_add _ _ _).mpr (Or.inr ih)
  | starnil =>
    rename_i e1
    show ([] : List Char) ∈ KStar.kstar ((RE.toRegex e1).matches')
    exact Language.nil_mem_kstar _
  | starcons h1 h2 ih1 ih2 =>
    rename_i e1 s1 s2
    show s1 ++ s2 ∈ KStar.kstar ((RE.toRegex e1).matches')
    have ih2b : s2 ∈ KStar.kstar ((RE.toRegex e1).matches') := ih2
    obtain ⟨L, hL1, hL2⟩ := Language.mem_kstar.mp ih2b
    refine Language.mem_kstar.mpr ⟨s1 :: L, ?_, ?_⟩
    · rw [hL1]
      rfl
    · intro y hy
      rcases List.mem_cons.mp hy with rfl | hy2
      · exact ih1
      · exact hL2 y hy2

theorem rematch_toRegex_mpr :
    ∀ (e : RE) (s : List Char), s ∈ e.toRegex.matches' → REMatch e s := by
  intro e
  induction e with
  | lit c =>
    intro s h
    have hs : s = [c] := h
    rw [hs]
    exact REMatch.lit
  | cat e1 e2 ih1 ih2 =>
    intro s h
    have h2 : s ∈ (RE.toRegex e1).matches' * (RE.toRegex e2).matches' := h
    obtain ⟨a, ha, b, hb, hab⟩ := Language.mem_mul.mp h2
    rw [← hab]
    exact REMatch.cat (ih1 a ha) (ih2 b hb)
  | alt e1 e2 ih1 ih2 =>
    intro s h
    have h2 : s ∈ (RE.toRegex e1).matches' + (RE.toRegex e2).matches' := h
    rcases (Language.mem_add _ _ _).mp h2 with h3 | h3
    · exact REMatch.altl (ih1 s h3)
    · exact REMatch.altr (ih2 s h3)
  | star e1 ih1 =>
    intro s h
    have h2 : s ∈ KStar.kstar ((RE.toRegex e1).matches') := h
    obtain ⟨L, hL1, hL2⟩ := Language.mem_kstar.mp h2
    rw [hL1]
    clear hL1 h h2
    induction L with
    | nil => exact REMatch.starnil
    | cons y L ihL =>
      have hy : REMatch e1 y := ih1 y (hL2 y (List.mem_cons_self y L))
      have hrest : REMatch (RE.star e1) L.flatten :=
        ihL (fun z hz => hL2 z (List.mem_cons_of_mem y hz))
      exact REMatch.starcons hy hrest

theorem regexToNfa_lang {e : RE} {R : List Char} (hsyn : Syn 0 e R) :
    ∃ g2 cnt2 f, regexToNfa R 0 = Except.ok (g2, cnt2, f) ∧
      ∀ s, NfaPath g2 f.start f.accept s ↔ REMatch e s := by
  have hsb0 : SuccsBelow [] 0 := by
    intro q
    constructor
    · intro y hy
      rw [epsSuccs_of_none
        (show Store.lookup ([] : Store) q = none from rfl)] at hy
      exact absurd hy (List.not_mem_nil y)
    · intro a y hy
      rw [edgeTargets_of_none
        (show Store.lookup ([] : Store) q = none from rfl) a] at hy
      exact absurd hy (List.not_mem_nil y)
  obtain ⟨g2, cnt2, f, heq, hb, hsb⟩ :=
    buildRE e [] [] 0 [] (syn_REok hsyn) rfl hsb0
  rw [List.append_nil] at heq
  have heq2 : buildLoop (postorder e) [] 0 [] =
      Except.ok (g2, cnt2, [f]) := heq
  refine ⟨g2, cnt2, f, ?_, hb.2.2.2.2.2.2.2.2.2⟩
  rw [regexToNfa_eq, toPostfix_syn hsyn]
  show buildNfa (postorder e) [] 0 = _
  unfold buildNfa
  rw [heq2]

/-- C1: for every regex over the supported grammar (alphanumeric literals,
grouping, union, star, implicit concatenation) and every string over the
regex's alphabet, the whole pipeline succeeds — at any values of the two
global id counters and any iteration order of `extract_alphabet` — and the
DFA produced by `nfa_to_dfa(regex_to_nfa(R), extract_alphabet(R))` accepts
the string under the spec's recognition driver if and only if the string
belongs to the language of the regex, stated via Mathlib's regular-expression
semantics. -/
theorem c1_dfa_equivalent_to_regex (R : List Char) (e : RE)
    (hsyn : Syn 0 e R) (al : List Char) (hnd : al.Nodup)
    (_hal : al.toFinset = extractAlphabet R) (nb db : Nat)
    (s : List Char) (hs : ∀ c ∈ s, c ∈ al) :
    ∃ l, compileDfa R al nb db = some l ∧
      (dfaAccepts l s = true ↔ s ∈ (RE.toRegex e).matches') := by
  obtain ⟨g0, cnt0, f0, heq0, hsem⟩ := regexToNfa_lang hsyn
  have e1 := regexToNfa_shift R nb
  rw [heq0] at e1
  have e1b : regexToNfa R nb =
      Except.ok (shiftStore nb g0, cnt0 + nb, shiftFrag nb f0) := e1
  obtain ⟨hwf, hns, hna⟩ := regexToNfa_wf e1b
  rw [compileDfa_eq_ok e1b]
  obtain ⟨l, hl, -⟩ := nfaToDfa_terminates (shiftStore nb g0)
    (shiftFrag nb f0).start (shiftFrag nb f0).accept al db hwf hns
  refine ⟨l, hl, ?_⟩
  rw [nfaToDfa_drive_correct (shiftStore nb g0) (shiftFrag nb f0).start
    (shiftFrag nb f0).accept al db hnd l hl s hs]
  rw [show (shiftFrag nb f0).start = f0.start + nb from rfl,
    show (shiftFrag nb f0).accept = f0.accept + nb from rfl,
    nfaSetAccepts_shift nb g0 f0.start f0.accept s]
  obtain ⟨hwf0, hns0, -⟩ := regexToNfa_wf heq0
  rw [nfaSetAccepts_iff_path hwf0 hns0 s, hsem s]
  constructor
  · exact rematch_toRegex_mp
  · exact rematch_toRegex_mpr e s

theorem c1_dfa_equivalent_to_regex_witness :
    (Syn 0 (RE.cat (RE.lit 'a') (RE.lit 'b')) ['a', 'b'] ∧
      (['a', 'b'] : List Char).Nodup ∧
      (['a', 'b'] : List Char).toFinset = extractAlphabet ['a', 'b'] ∧
      (∀ c ∈ (['a', 'b'] : List Char), c ∈ (['a', 'b'] : List Char))) ∧
    ∃ l, compileDfa ['a', 'b'] ['a', 'b'] 3 5 = some l ∧
      (dfaAccepts l ['a', 'b'] = true ↔
        ['a', 'b'] ∈ (RE.toRegex (RE.cat (RE.lit 'a') (RE.lit 'b'))).matches') :=
  ⟨⟨Syn.up01 (Syn.cat (Syn.up12 (Syn.up23 (Syn.lit (by decide))))
      (Syn.up23 (Syn.lit (by decide)))),
    by decide, by decide, by decide⟩,
    c1_dfa_equivalent_to_regex ['a', 'b'] (RE.cat (RE.lit 'a') (RE.lit 'b'))
      (Syn.up01 (Syn.cat (Syn.up12 (Syn.up23 (Syn.lit (by decide))))
        (Syn.up23 (Syn.lit (by decide)))))
      ['a', 'b'] (by decide) (by decide) 3 5 ['a', 'b'] (by decide)⟩
